import Mathlib

/-!
# Schyntax: the tree edit engine of `src/main.js`

The program keeps one mutable syntax tree made of JavaScript objects that point at each
other (`children` downwards, `parent` upwards).  The embedding keeps that shape: an object
is a reference (`Ref`), the object graph is a `Heap` mapping references to records, and every
function of the source becomes a function that reads and rewrites the heap.  Functions whose
recursion follows pointers take a fuel argument; running out of fuel is the error `Err.fuel`,
which no JavaScript run produces, so that "returns" always means a result at some fuel.
-/

namespace Schyntax

/-! ## Data model -/

/-- A reference to a JavaScript object (a tree node). -/
abbrev Ref := Nat

/-- The fields the source reads or writes on a node object.  `none` is JavaScript `undefined`.
`value` is only read on nodes whose `type` is not `list`; `dropped` is read for truthiness. -/
structure Node where
  type : String
  value : String
  children : Option (List Ref)
  attr : List String
  dropped : Bool
  id : Option Nat
  parentId : Option Nat
  parent : Option Ref
  siblingIndex : Option Nat
  deriving DecidableEq, Repr

/-- The object graph. -/
abbrev Heap := Ref → Node

/-- Assignment to the fields of one object. -/
def Heap.set (h : Heap) (r : Ref) (n : Node) : Heap :=
  fun x => if x = r then n else h x

/-- Ways a run of the source ends without a value: a `TypeError` (property access on
`undefined`), the string thrown for a node type outside the four known ones, and the
embedding's own out-of-fuel marker. -/
inductive Err where
  | typeError
  | invalidType (t : String)
  | fuel
  deriving DecidableEq, Repr

/-- An object that carries no fields yet. -/
def blank : Node :=
  { type := "", value := "", children := none, attr := [], dropped := false,
    id := none, parentId := none, parent := none, siblingIndex := none }

/-- `Array.prototype.map` with a callback that may throw: elements are visited in order and
the first exception ends the run. -/
def mapE {α β : Type} (f : α → Except Err β) : List α → Except Err (List β)
  | [] => .ok []
  | a :: as =>
    match f a with
    | .error e => .error e
    | .ok b =>
      match mapE f as with
      | .error e => .error e
      | .ok bs => .ok (b :: bs)

/-! ## `isLiteral` and `syntaxTreeToText` (lines 13-39) -/

/-- Source `isLiteral`: literal types give `true`, `list` gives `false`, anything else throws. -/
def isLiteral (h : Heap) (tree : Ref) : Except Err Bool :=
  let t := (h tree).type
  if t = "symbol" ∨ t = "numeric" ∨ t = "proto" then .ok true
  else if t = "list" then .ok false
  else .error (.invalidType t)

/-- Source `syntaxTreeToText`. -/
def syntaxTreeToText : Nat → Heap → Ref → Except Err String
  | 0, _, _ => .error .fuel
  | fuel + 1, h, tree =>
    let indent := if (h tree).dropped then "\n" ++ "  " else ""
    let t := (h tree).type
    if t = "list" then
      match (h tree).children with
      | none => .error .typeError
      | some cs =>
        match mapE (syntaxTreeToText fuel h) cs with
        | .error e => .error e
        | .ok parts => .ok (indent ++ "(" ++ " ".intercalate parts ++ ")")
    else if t = "symbol" ∨ t = "numeric" then .ok (indent ++ (h tree).value)
    else if t = "proto" then .ok ""
    else .error (.invalidType t)

/-! ## `retagTree` (lines 319-338) -/

/-- The `for` loop of `retagTree` over the children of `tree` (whose new id is `id`), from
index `i` on, with `deepestId` the last id handed out so far and `rec` the recursive call.
The source reads `tree.children[i]` afresh on every round and stores the returned
`taggedTree` back into the same slot; `taggedTree` is the very object that was passed in and
`retagTree` writes nothing else into any `children` array, so the array is the same on every
round and the loop runs over it as a list. -/
def retagChildren (rec : Heap → Ref → Nat → Except Err (Nat × Heap)) (tree : Ref) (id : Nat) :
    List Ref → Nat → Nat → Heap → Except Err (Nat × Heap)
  | [], _, deepestId, h => .ok (deepestId, h)
  | c :: cs, i, deepestId, h =>
    match rec h c (deepestId + 1) with
    | .error e => .error e
    | .ok (lastId, h1) =>
      let h2 := h1.set c
        { h1 c with parentId := some id, parent := some tree, siblingIndex := some i }
      retagChildren rec tree id cs (i + 1) lastId h2

/-- Source `retagTree(tree, id)`.  The result `{ lastId, taggedTree }` is returned as
`lastId` with the new heap; `taggedTree` is `tree` itself. -/
def retagTree : Nat → Heap → Ref → Nat → Except Err (Nat × Heap)
  | 0, _, _, _ => .error .fuel
  | fuel + 1, h, tree, id =>
    let h1 := h.set tree { h tree with id := some id }
    match (h1 tree).children with
    | none => .ok (id, h1)
    | some cs => retagChildren (retagTree fuel) tree id cs 0 id h1

/-! ## `reindexChildren`, `insertSiblingAfter`, `deleteChild` (lines 288-316) -/

/-- The loop of `reindexChildren` over the `children` array from index `i` on:
`parent.children[i].siblingIndex = i`. -/
def reindexLoop : List Ref → Nat → Heap → Heap
  | [], _, h => h
  | c :: cs, i, h => reindexLoop cs (i + 1) (h.set c { h c with siblingIndex := some i })

/-- Source `reindexChildren(parent)`; reading `length` of an absent `children` is a
`TypeError`.  The returned object is `parent` itself. -/
def reindexChildren (h : Heap) (parent : Ref) : Except Err Heap :=
  match (h parent).children with
  | none => .error .typeError
  | some cs => .ok (reindexLoop cs 0 h)

/-- `Array.prototype.splice(start, 0, x)`: insertion at `start`, clamped to the length. -/
def spliceIn (cs : List Ref) (start : Nat) (x : Ref) : List Ref :=
  cs.take start ++ x :: cs.drop start

/-- `Array.prototype.splice(start, 1)`: removal of the element at `start`, if there is one. -/
def spliceOut (cs : List Ref) (start : Nat) : List Ref :=
  cs.take start ++ cs.drop (start + 1)

/-- Source `insertSiblingAfter(sibling, node)` with the global counter `lastId` passed in and
out.  The returned object is `node` itself.  `sibling.siblingIndex + 1` with an absent index
is `NaN`, which `splice` reads as position 0. -/
def insertSiblingAfter (h : Heap) (lastId : Nat) (sibling node : Ref) :
    Except Err (Heap × Nat) :=
  let h1 := h.set node { h node with id := some (lastId + 1) }
  let lastId1 := lastId + 1
  let h2 := h1.set node { h1 node with attr := [], type := "symbol" }
  let h3 := h2.set node
    { h2 node with parentId := (h2 sibling).parentId, parent := (h2 sibling).parent }
  match (h3 sibling).parent with
  | none => .error .typeError
  | some p =>
    match (h3 p).children with
    | none => .error .typeError
    | some cs =>
      let start := match (h3 sibling).siblingIndex with
        | some i => i + 1
        | none => 0
      let h4 := h3.set p { h3 p with children := some (spliceIn cs start node) }
      match (h4 sibling).parent with
      | none => .error .typeError
      | some p2 =>
        match reindexChildren h4 p2 with
        | .error e => .error e
        | .ok h5 => .ok (h5, lastId1)

/-- Source `deleteChild(child)`.  The returned object is `child` itself.  An absent
`siblingIndex` is read by `splice` as position 0. -/
def deleteChild (h : Heap) (child : Ref) : Except Err Heap :=
  match (h child).parent with
  | none => .error .typeError
  | some p =>
    match (h p).children with
    | none => .error .typeError
    | some cs =>
      let start := match (h child).siblingIndex with
        | some i => i
        | none => 0
      let h1 := h.set p { h p with children := some (spliceOut cs start) }
      match (h1 child).parent with
      | none => .error .typeError
      | some p2 => reindexChildren h1 p2

/-! ## `imbueAttr`, `depriveAttr`, `labelDirty` (lines 340-371) -/

/-- The second argument of `imbueAttr` and `depriveAttr`: one tag, or an array of tags. -/
inductive AttrArg where
  | tag (a : String)
  | tags (as : List String)
  deriving DecidableEq, Repr

/-- The non-array branch of `imbueAttr`: push the tag unless `attr` includes it; the result
is `changed`. -/
def imbueOne (h : Heap) (tree : Ref) (a : String) : Bool × Heap :=
  if (h tree).attr.contains a then (false, h)
  else (true, h.set tree { h tree with attr := (h tree).attr ++ [a] })

/-- Source `imbueAttr(tree, attr)`; for an array, `changed = imbueAttr(tree, a) || changed`
over its elements. -/
def imbueAttr (h : Heap) (tree : Ref) : AttrArg → Bool × Heap
  | .tag a => imbueOne h tree a
  | .tags as =>
    as.foldl (fun (acc : Bool × Heap) a =>
      let r := imbueOne acc.2 tree a
      (r.1 || acc.1, r.2)) (false, h)

/-- The non-array branch of `depriveAttr`: `attr.splice(attr.indexOf(a), 1)` when `attr`
includes the tag; the result is `changed`. -/
def depriveOne (h : Heap) (tree : Ref) (a : String) : Bool × Heap :=
  if (h tree).attr.contains a then
    (true, h.set tree { h tree with attr := (h tree).attr.erase a })
  else (false, h)

/-- Source `depriveAttr(tree, attr)`. -/
def depriveAttr (h : Heap) (tree : Ref) : AttrArg → Bool × Heap
  | .tag a => depriveOne h tree a
  | .tags as =>
    as.foldl (fun (acc : Bool × Heap) a =>
      let r := depriveOne acc.2 tree a
      (r.1 || acc.1, r.2)) (false, h)

/-- The global `dirtyNodes`: an object used as a map from node id to node. -/
abbrev Dirty := List (Option Nat × Ref)

/-- Source `labelDirty`: `dirtyNodes[tree.id] = tree`. -/
def labelDirty (h : Heap) (d : Dirty) (tree : Ref) : Dirty :=
  ((h tree).id, tree) :: d.filter (fun e => e.1 != (h tree).id)

/-! ## `parseFloat` -/

/-- The characters `parseFloat` skips at the start of its argument (ECMAScript `WhiteSpace`
and `LineTerminator`). -/
def isStrWhiteSpaceChar (c : Char) : Bool :=
  c.val ∈ [0x09, 0x0A, 0x0B, 0x0C, 0x0D, 0x20, 0xA0, 0x1680, 0x2028, 0x2029, 0x202F, 0x205F,
    0x3000, 0xFEFF] || (0x2000 ≤ c.val && c.val ≤ 0x200A)

/-- What the ECMAScript built-in `parseFloat` finds at the start of a string: nothing that
is a number (the result is `NaN`), the literal `Infinity` (the result is infinite), or a
decimal literal. -/
inductive FloatKind where
  | nan
  | infinity
  | decimal
  deriving DecidableEq, Repr

/-- The prefix test of `parseFloat` on the characters after the optional sign: `Infinity`,
a digit, or a dot followed by a digit start a `StrDecimalLiteral`; nothing else does. -/
def unsignedKind (cs : List Char) : FloatKind :=
  if "Infinity".data.isPrefixOf cs then .infinity
  else match cs with
    | c :: rest =>
      if c.isDigit then .decimal
      else if c = '.' then
        match rest with
        | c2 :: _ => if c2.isDigit then .decimal else .nan
        | [] => .nan
      else .nan
    | [] => .nan

/-- The ECMAScript built-in `parseFloat`, as far as its result class goes: leading white
space is skipped, one sign is allowed, and the longest prefix that is a `StrDecimalLiteral`
is read; without such a prefix the result is `NaN`. -/
def parseFloatKind (s : String) : FloatKind :=
  match s.data.dropWhile isStrWhiteSpaceChar with
  | c :: rest => if c = '+' ∨ c = '-' then unsignedKind rest else unsignedKind (c :: rest)
  | [] => .nan

/-- The source expression `isNaN(parseFloat(s))`. -/
def parseFloatIsNaN (s : String) : Bool := parseFloatKind s == .nan

/-! ## `relabelTree` (lines 373-432) -/

/-- The set `BUILTIN_SYMBOLS`. -/
def BUILTIN_SYMBOLS : List String := ["*", "**", "/", "+", "-", "^", "!", "|", "&"]

/-- The set `DEFINITION_SYMBOLS`. -/
def DEFINITION_SYMBOLS : List String := ["define", "define-syntax"]

/-- The loop `for (const child of tree.children) relabelTree(child)`, with `rec` the
recursive call.  `relabelTree` never writes a `children` array, so the array the loop walks
is the one read at its start. -/
def relabelChildren (rec : Heap × Dirty → Ref → Except Err (Heap × Dirty)) :
    List Ref → Heap × Dirty → Except Err (Heap × Dirty)
  | [], st => .ok st
  | c :: cs, st =>
    match rec st c with
    | .error e => .error e
    | .ok st1 => relabelChildren rec cs st1

/-- Lines 392-410 of `relabelTree` for a literal `tree` whose `attr` was just reset and held
`oldAttr` before: the type becomes `symbol`, `builtin` is imbued for a builtin operator, and
for a definition keyword `keyword` and `definition` are imbued and `definition` is imbued on
the parent, while a former `definition` holder deprives the parent of `definition`.  The
second component is `defnParent` (`none` for `null`). -/
def literalHead (h1 : Heap) (oldAttr : List String) (tree : Ref) : Heap × Option Ref :=
  -- default literal is symbol
  let h2 := h1.set tree { h1 tree with type := "symbol" }
  let h3 :=
    if BUILTIN_SYMBOLS.contains (h2 tree).value then (imbueAttr h2 tree (.tag "builtin")).2
    else h2
  if DEFINITION_SYMBOLS.contains (h3 tree).value then
    let h4 := (imbueAttr h3 tree (.tags ["keyword", "definition"])).2
    match (h4 tree).parent with
    | some p => ((imbueAttr h4 p (.tag "definition")).2, some p)
    | none => (h4, none)
  else if oldAttr.contains "definition" then
    match (h3 tree).parent with
    | some p => ((depriveAttr h3 p (.tag "definition")).2, some p)
    | none => (h3, none)
  else (h3, none)

/-- Lines 419-431 of `relabelTree`: `numeric` when `parseFloat` of the value is not `NaN`,
`proto` when the value is empty, and the `assignee` or `boundVariable` tag under a parent
that holds `assignee`; reading `attr` of an absent parent is a `TypeError`. -/
def literalTail (h6 : Heap) (tree : Ref) : Except Err Heap :=
  let h7 :=
    if ¬ parseFloatIsNaN (h6 tree).value then h6.set tree { h6 tree with type := "numeric" }
    else h6
  let h8 :=
    if (h7 tree).value.length = 0 then h7.set tree { h7 tree with type := "proto" }
    else h7
  match (h8 tree).parent with
  | none => .error .typeError
  | some p =>
    if (h8 p).attr.contains "assignee" then
      if (h8 tree).siblingIndex = some 0 then .ok (imbueAttr h8 tree (.tag "assignee")).2
      else .ok (imbueAttr h8 tree (.tag "boundVariable")).2
    else .ok h8

/-- Lines 411-417 of `relabelTree`: when `defnParent` is set and `tree.parent` has at least
two children, its child at index 1 is relabelled by the recursive call `rec` and marked
dirty. -/
def propagate (rec : Heap × Dirty → Ref → Except Err (Heap × Dirty)) (h5 : Heap) (d : Dirty)
    (defnParent : Option Ref) (tree : Ref) : Except Err (Heap × Dirty) :=
  match defnParent with
  | none => .ok (h5, d)
  | some _ =>
    match (h5 tree).parent with
    | none => .error .typeError
    | some p =>
      match (h5 p).children with
      | none => .error .typeError
      | some cs =>
        if cs.length ≥ 2 then
          match cs[1]? with
          | none => .error .typeError
          | some assignee =>
            match rec (h5, d) assignee with
            | .error e => .error e
            | .ok (h6, d6) => .ok (h6, labelDirty h6 d6 assignee)
        else .ok (h5, d)

/-- Source `relabelTree(tree)` on the heap and the global `dirtyNodes`.  The returned object
is `tree` itself. -/
def relabelTree : Nat → Heap × Dirty → Ref → Except Err (Heap × Dirty)
  | 0, _, _ => .error .fuel
  | fuel + 1, (h0, d), tree =>
    -- reset attributes
    let oldAttr := (h0 tree).attr
    let h1 := h0.set tree { h0 tree with attr := [] }
    if (h1 tree).type = "list" then
      let h2 :=
        match (h1 tree).parent with
        | none => h1
        | some p =>
          if (h1 p).attr.contains "definition" ∧ (h1 tree).siblingIndex = some 1 then
            (imbueAttr h1 tree (.tag "assignee")).2
          else h1
      match (h2 tree).children with
      | none => .error .typeError
      | some cs => relabelChildren (relabelTree fuel) cs (h2, d)
    else
      match isLiteral h1 tree with
      | .error e => .error e
      | .ok false => .error (.invalidType (h1 tree).type)
      | .ok true =>
        let head := literalHead h1 oldAttr tree
        match propagate (relabelTree fuel) head.1 d head.2 tree with
        | .error e => .error e
        | .ok (h6, d6) =>
          match literalTail h6 tree with
          | .error e => .error e
          | .ok h9 => .ok (h9, d6)

/-! ## Editing state and sibling access (lines 69-74, 258-262) -/

/-- The global `editingState`.  `focusedId` is a node id, or `undefined` when the id of a
node without id was stored. -/
structure EditingState where
  focused : Bool
  focusedId : Option Nat
  cursorOffset : Nat
  deriving DecidableEq, Repr

/-- Array indexing `cs[k]` with a JavaScript number: `undefined` outside the array. -/
def arrayAt (cs : List Ref) (k : Int) : Option Ref :=
  if k < 0 then none else cs[k.toNat]?

/-- Source `isLastChild`: `child.siblingIndex === child.parent.children.length - 1`. -/
def isLastChild (h : Heap) (child : Ref) : Except Err Bool :=
  match (h child).parent with
  | none => .error .typeError
  | some p =>
    match (h p).children with
    | none => .error .typeError
    | some cs =>
      match (h child).siblingIndex with
      | none => .ok false
      | some i => .ok (decide ((i : Int) = (cs.length : Int) - 1))

/-- Source `isFirstChild`: `child.siblingIndex === 0`. -/
def isFirstChild (h : Heap) (child : Ref) : Bool :=
  (h child).siblingIndex == some 0

/-- Source `childAfter(sibling, offset)`: `sibling.parent.children[sibling.siblingIndex +
offset]`; the element is `undefined` (`none`) outside the array or for an absent index. -/
def childAfter (h : Heap) (sibling : Ref) (offset : Int) : Except Err (Option Ref) :=
  match (h sibling).parent with
  | none => .error .typeError
  | some p =>
    match (h p).children with
    | none => .error .typeError
    | some cs =>
      match (h sibling).siblingIndex with
      | none => .ok none
      | some i => .ok (arrayAt cs ((i : Int) + offset))

/-- Source `childBefore(sibling, offset)`. -/
def childBefore (h : Heap) (sibling : Ref) (offset : Int) : Except Err (Option Ref) :=
  childAfter h sibling (-offset)

/-- The loop `while (focusedNode.type === list) focusedNode = focusedNode.children.at(k)`
with `k = -1` when `left` and `k = 0` otherwise; reading `type` of `undefined` is a
`TypeError`. -/
def descend : Nat → Heap → Bool → Option Ref → Except Err Ref
  | 0, _, _, _ => .error .fuel
  | _ + 1, _, _, none => .error .typeError
  | fuel + 1, h, left, some x =>
    if (h x).type = "list" then
      match (h x).children with
      | none => .error .typeError
      | some cs => descend fuel h left (if left then cs.getLast? else cs.head?)
    else .ok x

/-! ## The `input` handler (lines 103-132) -/

/-- `String.prototype.substr(start, length)` on a string as a sequence of characters: a
negative `start` counts from the end, an absent `length` means up to the end, and both are
clamped to the string. -/
def substr (s : String) (start : Int) (length : Option Int) : String :=
  let size : Int := s.length
  let intStart : Int := if start < 0 then max (size + start) 0 else min start size
  let intLength : Int :=
    match length with
    | none => size
    | some l => min (max l 0) size
  let intEnd : Int := min (intStart + intLength) size
  String.mk ((s.data.drop intStart.toNat).take (intEnd - intStart).toNat)

/-- The mutable globals of the program: the object heap, `dirtyNodes`, `lastId`,
`editingState`, and the reference the next object literal is allocated at. -/
structure World where
  heap : Heap
  dirtyNodes : Dirty
  lastId : Nat
  editingState : EditingState
  nextRef : Ref

/-- What the `input` handler reads from its event and from the selection: `e.data`,
`e.target.textContent` and `textSelection.focusOffset`. -/
structure InputEvent where
  data : Option String
  textContent : String
  focusOffset : Nat
  deriving DecidableEq, Repr

/-- The `input` listener of the literal `tree` (lines 103-132).  The result is the new
world with the `refresh` field of the returned descriptor (`tree.parent` after a split,
`tree` otherwise). -/
def onInput (fuel : Nat) (w : World) (tree : Ref) (e : InputEvent) :
    Except Err (World × Option Ref) :=
  -- update focused node
  let es1 : EditingState :=
    { focused := true, focusedId := (w.heap tree).id, cursorOffset := e.focusOffset }
  if e.data = some " " then
    -- a space means we are adding another element to the parent
    let v := (w.heap tree).value
    let lNode := substr v 0 (some ((es1.cursorOffset : Int) - 1))
    let rNode := substr v ((es1.cursorOffset : Int) - 1) none
    let h1 := w.heap.set tree { w.heap tree with value := lNode }
    -- the object literal `{ value: rNode }`
    let proto := w.nextRef
    let h2 := h1.set proto { blank with value := rNode }
    match insertSiblingAfter h2 w.lastId tree proto with
    | .error err => .error err
    | .ok (h3, lastId1) =>
      match relabelTree fuel (h3, w.dirtyNodes) tree with
      | .error err => .error err
      | .ok st4 =>
        match relabelTree fuel st4 proto with
        | .error err => .error err
        | .ok (h5, d5) =>
          -- set new focus to start of new right node
          let es2 : EditingState :=
            { focused := true, focusedId := (h5 proto).id, cursorOffset := 0 }
          .ok ({ heap := h5, dirtyNodes := d5, lastId := lastId1, editingState := es2,
                 nextRef := w.nextRef + 1 }, (h5 tree).parent)
  else
    -- update text content
    let h1 := w.heap.set tree { w.heap tree with value := e.textContent }
    match relabelTree fuel (h1, w.dirtyNodes) tree with
    | .error err => .error err
    | .ok (h2, d2) =>
      .ok ({ w with heap := h2, dirtyNodes := d2, editingState := es1 }, some tree)

/-! ## The delete branch of the `keydown` handler (lines 138-183) -/

/-- The object returned by `deleteNodeClimb`: `refocus` is present only in the branch for a
node without parent. -/
structure ClimbResult where
  refocus : Option Bool
  deleteNode : Ref
  deriving DecidableEq, Repr

/-- Source `deleteNodeClimb(node, domNode)` for the key `key` of the event; the DOM element
is left out.  `jumpLeft` stays `undefined` for a key that is neither `Backspace` nor
`Delete`, which every later use reads as false. -/
def deleteNodeClimb : Nat → Heap → EditingState → String → Ref →
    Except Err (EditingState × ClimbResult)
  | 0, _, _, _, _ => .error .fuel
  | fuel + 1, h, es, key, node =>
    match (h node).parent with
    | none => .ok (es, { refocus := some false, deleteNode := node })
    | some p =>
      match (h p).children with
      | none => .error .typeError
      | some cs =>
        if cs.length = 1 then deleteNodeClimb fuel h es key p
        else
          let es1 := { es with focused := true }
          match isLastChild h node with
          | .error e => .error e
          | .ok last =>
            let jumpLeft : Bool :=
              if last then true
              else if isFirstChild h node then false
              else if key = "Backspace" then true
              else false
            match (if jumpLeft then childBefore h node 1 else childAfter h node 1) with
            | .error e => .error e
            | .ok start =>
              match descend fuel h jumpLeft start with
              | .error e => .error e
              | .ok focusedNode =>
                .ok ({ es1 with
                        focusedId := (h focusedNode).id,
                        cursorOffset :=
                          if jumpLeft then (h focusedNode).value.length else 0 },
                     { refocus := none, deleteNode := node })

/-- The delete branch of the `keydown` handler on the literal `tree`: taken when the value
is empty and the key is `Delete` or `Backspace`; the result is
`{ refocus: true, ...deleteParams }`, so a `refocus` of `deleteParams` wins. -/
def onDeleteKey (fuel : Nat) (h : Heap) (es : EditingState) (key : String) (tree : Ref) :
    Except Err (EditingState × Bool × Ref) :=
  match deleteNodeClimb fuel h es key tree with
  | .error e => .error e
  | .ok (es1, r) => .ok (es1, r.refocus.getD true, r.deleteNode)

/-! ## The arrow branch of the `keydown` handler (lines 185-237) -/

/-- The loop `while (parentNode && parentNode.siblingIndex === 0) parentNode =
parentNode.parent` of the `ArrowLeft` branch; `none` is an `undefined` (falsy)
`parentNode`. -/
def climbLeft : Nat → Heap → Option Ref → Except Err (Option Ref)
  | 0, _, _ => .error .fuel
  | _ + 1, _, none => .ok none
  | fuel + 1, h, some p =>
    if (h p).siblingIndex = some 0 then climbLeft fuel h (h p).parent else .ok (some p)

/-- The loop `while (parentNode && parentNode.siblingIndex ===
parentNode.parent.children.length - 1) parentNode = parentNode.parent` of the `ArrowRight`
branch.  The test is the expression of `isLastChild` on `parentNode`; it reads
`parentNode.parent.children`, a `TypeError` when `parentNode` has no parent. -/
def climbRight : Nat → Heap → Option Ref → Except Err (Option Ref)
  | 0, _, _ => .error .fuel
  | _ + 1, _, none => .ok none
  | fuel + 1, h, some p =>
    match isLastChild h p with
    | .error e => .error e
    | .ok true => climbRight fuel h (h p).parent
    | .ok false => .ok (some p)

/-- Lines 199-225 of the arrow branch: the value of `focusNode` before the descent, for the
key `key` on the literal `tree`.  The variable is `null` (`none`), `undefined` (`some none`,
an array index outside the array) or a node.  The expressions
`n.parent.children[n.siblingIndex - 1]` and `n.parent.children[n.siblingIndex + 1]` are
`childAfter` with offset `-1` and `1`, and the test against
`tree.parent.children.length - 1` is the one of `isLastChild`. -/
def arrowStart (fuel : Nat) (h : Heap) (key : String) (tree : Ref) :
    Except Err (Option (Option Ref)) :=
  if key = "ArrowLeft" then
    if (h tree).siblingIndex ≠ some 0 then
      -- move within the list container
      match childAfter h tree (-1) with
      | .error e => .error e
      | .ok r => .ok (some r)
    else
      -- at edge of container, move out
      match climbLeft fuel h (h tree).parent with
      | .error e => .error e
      | .ok none => .ok none
      | .ok (some parentNode) =>
        match childAfter h parentNode (-1) with
        | .error e => .error e
        | .ok r => .ok (some r)
  else if key = "ArrowRight" then
    match isLastChild h tree with
    | .error e => .error e
    | .ok false =>
      match childAfter h tree 1 with
      | .error e => .error e
      | .ok r => .ok (some r)
    | .ok true =>
      match climbRight fuel h (h tree).parent with
      | .error e => .error e
      | .ok none => .ok none
      | .ok (some parentNode) =>
        match childAfter h parentNode 1 with
        | .error e => .error e
        | .ok r => .ok (some r)
  else .ok none

/-- The arrow branch of the `keydown` handler on the literal `tree` (lines 185-237), reached
when the delete branch is not taken; `focusOffset` is `textSelection.focusOffset`, and
`cursorPos` is `-1` for `ArrowLeft` and `0` for `ArrowRight`.  The result is the new
`editingState` and whether `{ refocus: true }` was returned (`false` for a plain `return`). -/
def onArrowKey (fuel : Nat) (h : Heap) (es : EditingState) (key : String) (focusOffset : Nat)
    (tree : Ref) : Except Err (EditingState × Bool) :=
  let es1 : EditingState := { es with cursorOffset := focusOffset }
  -- don't do anything unless on textbox boundary
  if ¬ ((es1.cursorOffset = 0 ∧ key = "ArrowLeft")
      ∨ (es1.cursorOffset = (h tree).value.length ∧ key = "ArrowRight")) then
    .ok (es1, false)
  else
    match arrowStart fuel h key tree with
    | .error e => .error e
    | .ok none => .ok (es1, false)
    | .ok (some start) =>
      -- handle going in to non-literal nodes
      match descend fuel h (decide (key = "ArrowLeft")) start with
      | .error e => .error e
      | .ok target =>
        .ok ({ focused := true, focusedId := (h target).id,
               cursorOffset := if key = "ArrowLeft" then (h target).value.length else 0 },
             true)

/-! ## The deferred part of `treeUpdate` (lines 472-509) -/

/-- What the timer callback of `treeUpdate` does to the tree for the descriptor `ret`
returned by a handler: `deleteChild(ret.deleteNode)` when `ret.deleteNode` is set.  The
rendering that follows works on the DOM and is left out. -/
def treeUpdate (h : Heap) (deleteNode : Option Ref) : Except Err Heap :=
  match deleteNode with
  | none => .ok h
  | some d => deleteChild h d

/-- The delete command as a whole: the delete branch of the `keydown` handler, then the
deferred `deleteChild` of the node it names.  The result is the heap, the editing state and
the `refocus` field of the descriptor. -/
def deleteCommand (fuel : Nat) (h : Heap) (es : EditingState) (key : String) (tree : Ref) :
    Except Err (Heap × EditingState × Bool) :=
  match onDeleteKey fuel h es key tree with
  | .error e => .error e
  | .ok (es1, refocus, d) =>
    match treeUpdate h (some d) with
    | .error e => .error e
    | .ok h2 => .ok (h2, es1, refocus)

/-! ## The seed tree (lines 440-464) -/

/-- A literal object as written in the seed: `{ type, attr, value }`. -/
def seedLit (attr : List String) (value : String) : Node :=
  { blank with type := "symbol", attr := attr, value := value }

/-- A list object as written in the seed: `{ type: list, attr, children }`. -/
def seedList (attr : List String) (dropped : Bool) (children : List Ref) : Node :=
  { blank with type := "list", attr := attr, dropped := dropped, children := some children }

/-- The object graph of the seed `tree` before tagging; the root object is reference 10. -/
def seedHeap : Heap := fun r =>
  match r with
  | 10 => seedList ["definition"] false [11, 12, 15]
  | 11 => seedLit ["keyword", "definition"] "define"
  | 12 => seedList ["assignee"] false [13, 14]
  | 13 => seedLit ["assignee"] "goose"
  | 14 => seedLit ["boundVariable"] "n"
  | 15 => seedList [] true [16, 17, 18]
  | 16 => seedLit ["builtin"] "*"
  | 17 => seedLit [] "n"
  | 18 => seedLit [] "n"
  | _ => blank

/-- The root object of the seed tree. -/
def seedRoot : Ref := 10

/-! ## Tree shapes

A heap can hold any object graph.  The claims are about trees, so the shape of a tree is
made explicit: a `Forest` is an ordered sequence of subtrees, each given by the reference of
its root object and the forest of its children. -/

/-- An ordered sequence of sibling subtrees of object references. -/
inductive Forest where
  | nil
  | cons (r : Ref) (kids : Forest) (rest : Forest)
  deriving DecidableEq, Repr

/-- The root references of the subtrees of a forest, in order. -/
def Forest.roots : Forest → List Ref
  | .nil => []
  | .cons r _ rest => r :: rest.roots

/-- All references of a forest in pre-order (a node before its children, children in order). -/
def Forest.preorder : Forest → List Ref
  | .nil => []
  | .cons r kids rest => r :: (kids.preorder ++ rest.preorder)

/-- Number of levels of a forest. -/
def Forest.height : Forest → Nat
  | .nil => 0
  | .cons _ kids rest => max (kids.height + 1) rest.height

/-- The child sequence of an object: its `children` array, empty when the field is absent. -/
def Node.kids (n : Node) : List Ref := n.children.getD []

/-- The heap stores the forest: the child sequence of every node of the forest is the
sequence of roots of its sub-forest. -/
def Holds (h : Heap) : Forest → Prop
  | .nil => True
  | .cons r kids rest => (h r).kids = kids.roots ∧ Holds h kids ∧ Holds h rest

/-- The back-references of a forest whose trees are the children of `p` from index `i` on:
every root has `parent` equal to `p` and `siblingIndex` equal to its position, and so on
below. -/
def Linked (h : Heap) (p : Ref) : Nat → Forest → Prop
  | _, .nil => True
  | i, .cons r kids rest =>
    (h r).parent = some p ∧ (h r).siblingIndex = some i ∧ Linked h r 0 kids
      ∧ Linked h p (i + 1) rest

/-- The source expression `n.parent.children[n.siblingIndex] === n`. -/
def IndexOK (h : Heap) (n : Ref) : Prop :=
  ∃ p cs i, (h n).parent = some p ∧ (h p).children = some cs ∧ (h n).siblingIndex = some i
    ∧ cs[i]? = some n

/-- Back-references by shape: every root of the forest has `parent` equal to `q` (`none`
for `undefined`), and every node below has its tree parent as `parent`. -/
def Parents (h : Heap) : Option Ref → Forest → Prop
  | _, .nil => True
  | q, .cons r kids rest =>
    (h r).parent = q ∧ Parents h (some r) kids ∧ Parents h q rest

/-- The heap stores the tree with root object `root` and children `kids`: the `children`
arrays follow the shape, no object occurs twice, `parent` of every node is its tree parent
and `root.parent` is `undefined`. -/
structure TreeAt (h : Heap) (root : Ref) (kids : Forest) : Prop where
  holds : Holds h (.cons root kids .nil)
  nodup : (Forest.cons root kids .nil).preorder.Nodup
  parents : Parents h none (.cons root kids .nil)

/-- The shape after `insertSiblingAfter(s, n)`: the leaf `n` right after the subtree `s`. -/
def Forest.insertAfter (s n : Ref) : Forest → Forest
  | .nil => .nil
  | .cons r kids rest =>
    .cons r (kids.insertAfter s n)
      (if r = s then .cons n .nil (rest.insertAfter s n) else rest.insertAfter s n)

/-- The shape after `deleteChild(c)`: the subtree rooted at `c` is gone. -/
def Forest.remove (c : Ref) : Forest → Forest
  | .nil => .nil
  | .cons r kids rest =>
    if r = c then rest.remove c else .cons r (kids.remove c) (rest.remove c)

/-- What a run of the tagging loop over the forest `F` (children of `p`, from index `i`, after
`d` was the last id handed out) leaves behind. -/
structure Retagged (h h2 : Heap) (p : Ref) (i d : Nat) (F : Forest) : Prop where
  frame : ∀ x, x ∉ F.preorder → h2 x = h x
  content : ∀ x, (h2 x).type = (h x).type ∧ (h2 x).value = (h x).value
    ∧ (h2 x).children = (h x).children ∧ (h2 x).attr = (h x).attr
    ∧ (h2 x).dropped = (h x).dropped
  ids : ∀ k x, F.preorder[k]? = some x → (h2 x).id = some (d + 1 + k)
  linked : Linked h2 p i F

/-- The literal types. -/
def Node.literal (n : Node) : Prop :=
  n.type = "symbol" ∨ n.type = "numeric" ∨ n.type = "proto"

instance Node.literal.dec (n : Node) : Decidable n.literal :=
  inferInstanceAs (Decidable (n.type = "symbol" ∨ n.type = "numeric" ∨ n.type = "proto"))

/-- A node of the data model: its type is one of the four, a list owns a `children` array. -/
def Node.valid (n : Node) : Prop :=
  (n.type = "list" ∧ n.children ≠ none) ∨ n.type = "symbol" ∨ n.type = "numeric" ∨ n.type = "proto"

/-- The children of the seed root as a shape. -/
def seedKids : Forest :=
  .cons 11 .nil (.cons 12 (.cons 13 .nil (.cons 14 .nil .nil))
    (.cons 15 (.cons 16 .nil (.cons 17 .nil (.cons 18 .nil .nil))) .nil))

instance Node.valid.dec (n : Node) : Decidable n.valid :=
  inferInstanceAs (Decidable ((n.type = "list" ∧ n.children ≠ none) ∨ n.type = "symbol"
    ∨ n.type = "numeric" ∨ n.type = "proto"))

/-- The seed tree as a shape. -/
def seedShape : Forest := .cons 10 seedKids .nil

/-! ## Serialisation as the specification words it -/

/-- The indentation prefix of a node: a newline and two spaces iff `dropped` is set. -/
def indentOf (n : Node) : String := if n.dropped then "\n  " else ""

/-- The texts of the subtrees of a forest, as the specification describes them: a list is
its children joined by one space inside parentheses, a symbol or numeric literal is its raw
value, both after the indentation prefix; a proto is the empty string. -/
def specText (h : Heap) : Forest → List String
  | .nil => []
  | .cons r kids rest =>
    (if (h r).type = "list" then
        indentOf (h r) ++ "(" ++ " ".intercalate (specText h kids) ++ ")"
      else if (h r).type = "proto" then ""
      else indentOf (h r) ++ (h r).value) :: specText h rest

/-- The tagging step `const treeInfo = retagTree(tree)` on the seed (line 466). -/
def treeInfo : Except Err (Nat × Heap) := retagTree 3 seedHeap seedRoot 0

/-- The seed heap after tagging, and the global `lastId` (lines 466-468). -/
def taggedHeap : Heap := match treeInfo with
  | .ok p => p.2
  | .error _ => seedHeap

/-- The global `lastId` after `let { lastId } = treeInfo` (line 467). -/
def lastId0 : Nat := match treeInfo with
  | .ok p => p.1
  | .error _ => 0

/-- The heap `h2` left by `insertSiblingAfter(s, n)` on `h`, where `s.parent` is `p` with
`children` array `cs` and `s.siblingIndex` is `i`. -/
structure Inserted (h h2 : Heap) (lastId : Nat) (p : Ref) (cs : List Ref) (i : Nat)
    (n : Ref) : Prop where
  children : ∀ x, (h2 x).children
    = if x = p then some (spliceIn cs (i + 1) n) else (h x).children
  parent : ∀ x, (h2 x).parent = if x = n then some p else (h x).parent
  index : ∀ x ∈ spliceIn cs (i + 1) n,
    ∃ j, (spliceIn cs (i + 1) n)[j]? = some x ∧ (h2 x).siblingIndex = some j
  indexOther : ∀ x, x ∉ spliceIn cs (i + 1) n → (h2 x).siblingIndex = (h x).siblingIndex
  others : ∀ x, x ≠ n → (h2 x).id = (h x).id ∧ (h2 x).type = (h x).type
    ∧ (h2 x).value = (h x).value ∧ (h2 x).attr = (h x).attr ∧ (h2 x).dropped = (h x).dropped
  fresh : (h2 n).id = some (lastId + 1) ∧ (h2 n).type = "symbol" ∧ (h2 n).attr = []
    ∧ (h2 n).value = (h n).value ∧ (h2 n).dropped = (h n).dropped

/-- The heap `h2` left by `deleteChild(c)` on `h`, where `c.parent` is `p` with `children`
array `cs` and `c.siblingIndex` is `i`. -/
structure Deleted (h h2 : Heap) (p : Ref) (cs : List Ref) (i : Nat) : Prop where
  children : ∀ x, (h2 x).children = if x = p then some (spliceOut cs i) else (h x).children
  index : ∀ x ∈ spliceOut cs i,
    ∃ j, (spliceOut cs i)[j]? = some x ∧ (h2 x).siblingIndex = some j
  indexOther : ∀ x, x ∉ spliceOut cs i → (h2 x).siblingIndex = (h x).siblingIndex
  others : ∀ x, (h2 x).parent = (h x).parent ∧ (h2 x).id = (h x).id
    ∧ (h2 x).type = (h x).type ∧ (h2 x).value = (h x).value ∧ (h2 x).attr = (h x).attr
    ∧ (h2 x).dropped = (h x).dropped

/-- The indexing expression as a test, for evaluation on concrete heaps. -/
def indexOKb (h : Heap) (n : Ref) : Bool :=
  match (h n).parent with
  | none => false
  | some p =>
    match (h p).children, (h n).siblingIndex with
    | some cs, some i => cs[i]? == some n
    | _, _ => false

instance IndexOK.dec (h : Heap) (n : Ref) : Decidable (IndexOK h n) :=
  decidable_of_iff (indexOKb h n = true) (by
    unfold IndexOK indexOKb
    constructor
    · intro hb
      cases hp : (h n).parent with
      | none => simp [hp] at hb
      | some p =>
        cases hc : (h p).children with
        | none => simp [hp, hc] at hb
        | some cs =>
          cases hi : (h n).siblingIndex with
          | none => simp [hp, hc, hi] at hb
          | some i => exact ⟨p, cs, i, rfl, hc, rfl, by simpa [hp, hc, hi] using hb⟩
    · rintro ⟨p, cs, i, hp, hc, hi, hcs⟩
      simp [hp, hc, hi, hcs])

instance Holds.dec (h : Heap) : (F : Forest) → Decidable (Holds h F)
  | .nil => isTrue trivial
  | .cons r kids rest =>
    have := Holds.dec h kids
    have := Holds.dec h rest
    inferInstanceAs (Decidable ((h r).kids = kids.roots ∧ Holds h kids ∧ Holds h rest))

instance Parents.dec (h : Heap) : (q : Option Ref) → (F : Forest) → Decidable (Parents h q F)
  | _, .nil => isTrue trivial
  | q, .cons r kids rest =>
    have := Parents.dec h (some r) kids
    have := Parents.dec h q rest
    inferInstanceAs (Decidable ((h r).parent = q ∧ Parents h (some r) kids ∧ Parents h q rest))

/-- The editing state at start (lines 70-74). -/
def editingState0 : EditingState := { focused := false, focusedId := some 0, cursorOffset := 0 }

/-! ## Words of the specification about climbing and descending -/

/-- `Descends h left s y`: from `s`, going into the last child (`left`) or the first child
(otherwise) of every list on the way, the first node that is not a list is `y`. -/
inductive Descends (h : Heap) (left : Bool) : Ref → Ref → Prop
  | here (x : Ref) : (h x).type ≠ "list" → Descends h left x x
  | down (x c y : Ref) (cs : List Ref) : (h x).type = "list" → (h x).children = some cs →
      (if left then cs.getLast? else cs.head?) = some c → Descends h left c y →
      Descends h left x y

/-- `SoleChain h x d`: `d` is `x` or an ancestor of `x`, and every node strictly below `d`
on the way up from `x` is the only child of its parent. -/
inductive SoleChain (h : Heap) : Ref → Ref → Prop
  | self (x : Ref) : SoleChain h x x
  | up (x p d : Ref) : (h x).parent = some p → (h p).children = some [x] →
      SoleChain h p d → SoleChain h x d

/-- `Up h x n`: following `parent` from `x` reaches a node without parent after `n` steps. -/
inductive Up (h : Heap) : Ref → Nat → Prop
  | root (x : Ref) : (h x).parent = none → Up h x 0
  | step (x p : Ref) (n : Nat) : (h x).parent = some p → Up h p n → Up h x (n + 1)

/-- A tagged tree with an empty list: the list `( () _ )` whose second child is an empty
literal.  Object 0 is the root, object 1 the empty list, object 2 the literal. -/
def emptyListHeap : Heap := fun r =>
  match r with
  | 0 => { blank with type := "list", children := some [1, 2], id := some 0 }
  | 1 => { blank with type := "list", children := some [], id := some 1, parentId := some 0,
                        parent := some 0, siblingIndex := some 0 }
  | 2 => { blank with type := "proto", value := "", id := some 2, parentId := some 0,
                        parent := some 0, siblingIndex := some 1 }
  | _ => blank

/-- The shape of the children of the root of `emptyListHeap`. -/
def emptyListKids : Forest := .cons 1 .nil (.cons 2 .nil .nil)

/-- A tagged tree with a list of one child: `( (_) y )` with an empty literal inside the
inner list.  Object 0 is the root, object 1 the inner list, object 3 its empty literal and
object 2 the literal `y`. -/
def soleChildHeap : Heap := fun r =>
  match r with
  | 0 => { blank with type := "list", children := some [1, 2], id := some 0 }
  | 1 => { blank with type := "list", children := some [3], id := some 1, parentId := some 0,
                        parent := some 0, siblingIndex := some 0 }
  | 2 => { blank with type := "symbol", value := "y", id := some 3, parentId := some 0,
                        parent := some 0, siblingIndex := some 1 }
  | 3 => { blank with type := "proto", value := "", id := some 2, parentId := some 1,
                        parent := some 1, siblingIndex := some 0 }
  | _ => blank

/-- The shape of the children of the root of `soleChildHeap`. -/
def soleChildKids : Forest := .cons 1 (.cons 3 .nil .nil) (.cons 2 .nil .nil)

/-! ## What relabelling leaves alone -/

/-- Two node records agree on every field that relabelling never writes. -/
structure Frame (a b : Node) : Prop where
  value : a.value = b.value
  children : a.children = b.children
  dropped : a.dropped = b.dropped
  id : a.id = b.id
  parentId : a.parentId = b.parentId
  parent : a.parent = b.parent
  siblingIndex : a.siblingIndex = b.siblingIndex

/-- The heap `h2` differs from `h` in `attr` fields only. -/
def AttrOnly (h h2 : Heap) : Prop := ∀ x, Frame (h2 x) (h x) ∧ (h2 x).type = (h x).type

/-- The type the source derives for a literal from its value: `proto` for the empty value,
`numeric` when `parseFloat` of the value is not `NaN`, `symbol` otherwise. -/
def typeOfValue (v : String) : String :=
  if v.length = 0 then "proto" else if parseFloatIsNaN v then "symbol" else "numeric"

/-- The heap `h2` differs from `h` in `attr` fields, and in the `type` of literals, which is
then the type derived from the value. -/
def Pres (h h2 : Heap) : Prop :=
  ∀ x, Frame (h2 x) (h x)
    ∧ ((h2 x).type = (h x).type
        ∨ ((h x).literal ∧ (h2 x).type = typeOfValue (h x).value))

/-- The heap `h2` differs from `h` in `attr` fields and in the `type` of literals, which
stay literals. -/
def Soft (h h2 : Heap) : Prop :=
  ∀ x, Frame (h2 x) (h x)
    ∧ ((h2 x).type = (h x).type ∨ ((h x).literal ∧ (h2 x).literal))

/-- The world after start-up: the tagged seed tree, no dirty nodes, `lastId` from
`treeInfo`; objects from reference 50 on are unused. -/
def world0 : World :=
  { heap := taggedHeap, dirtyNodes := [], lastId := lastId0, editingState := editingState0,
    nextRef := 50 }

/-- The world after the second `n` of `(* n n)` was edited to `abn`. -/
def worldAbn : World :=
  { world0 with heap := taggedHeap.set 18 { taggedHeap 18 with value := "abn" } }

/-- The world after the `n` of `(goose n)` was edited to `definex` (typed as `efinex`, then
`d` in front, so that no intermediate value is a definition keyword). -/
def worldDefinex : World :=
  { world0 with heap := taggedHeap.set 14 { taggedHeap 14 with value := "definex" } }

/-- The seed tree with the `n` of `(goose n)` holding the value `define`. -/
def defineHeap : Heap := taggedHeap.set 14 { taggedHeap 14 with value := "define" }

/-- The seed tree with the first `n` of `(* n n)` holding the value `define-syntax`. -/
def defineSyntaxHeap : Heap :=
  taggedHeap.set 17 { taggedHeap 17 with value := "define-syntax" }

/-- The seed tree with the first `n` of `(* n n)` holding the value `Infinity`. -/
def infinityHeap : Heap := taggedHeap.set 17 { taggedHeap 17 with value := "Infinity" }

/-- The seed tree with the first `n` of `(* n n)` holding the value `42`, and the second
one holding the empty value. -/
def numberHeap : Heap :=
  (taggedHeap.set 17 { taggedHeap 17 with value := "42" }).set 18
    { taggedHeap 18 with value := "" }

/-- `Calm h n x`: the subtree at `x` has at most `n` levels of lists, is made of literals and
of lists whose children point back to them, and no list in it has a literal holding a
definition keyword as its child at index 1. -/
def Calm (h : Heap) : Nat → Ref → Prop
  | 0, x => (h x).literal
  | n + 1, x =>
    (h x).literal
      ∨ ((h x).type = "list" ∧ ∃ cs, (h x).children = some cs
          ∧ (∀ c ∈ cs, (h c).parent = some x ∧ Calm h n c)
          ∧ ∀ a, cs[1]? = some a →
              ¬ ((h a).literal ∧ DEFINITION_SYMBOLS.contains (h a).value = true))

/-- `Settles h n t`: the propagation of `relabelTree(t)` has an end.  The parent of `t` has
a `children` array, and its child at index 1, if there is one, is a literal of that parent
that holds no definition keyword, or a list that is calm up to depth `n`. -/
def Settles (h : Heap) (n : Nat) (t : Ref) : Prop :=
  ∃ p cs, (h t).parent = some p ∧ (h p).children = some cs
    ∧ ∀ a, cs[1]? = some a →
        ((h a).literal ∧ DEFINITION_SYMBOLS.contains (h a).value = false
          ∧ (h a).parent = some p)
        ∨ ((h a).type = "list" ∧ Calm h n a)

/-! ## Words of the specification about arrow navigation -/

/-- The key that travels in a direction. -/
def arrowKey (left : Bool) : String := if left then "ArrowLeft" else "ArrowRight"

/-- The boundary of the text of the literal `x` in a direction: offset 0 at the left, the
length of the value at the right. -/
def boundary (h : Heap) (left : Bool) (x : Ref) : Nat :=
  if left then 0 else (h x).value.length

/-- `EdgeChain h left x a`: `a` is `x` or an ancestor of `x`, and every node strictly below
`a` on the way up from `x` is the first child (`left`) or the last child (otherwise) of its
parent. -/
inductive EdgeChain (h : Heap) (left : Bool) : Ref → Ref → Prop
  | self (x : Ref) : EdgeChain h left x x
  | up (x p a : Ref) (cs : List Ref) (i : Nat) : (h x).parent = some p →
      (h p).children = some cs → (h x).siblingIndex = some i →
      (if left then i = 0 else i + 1 = cs.length) → EdgeChain h left p a →
      EdgeChain h left x a

/-- `Anc h a x`: `a` is `x` or an ancestor of `x`. -/
inductive Anc (h : Heap) (a : Ref) : Ref → Prop
  | self : Anc h a a
  | up (x q : Ref) : (h x).parent = some q → Anc h a q → Anc h a x

/-- A tagged tree whose only literal is the sole child of the root: `(_)`.  Object 0 is the
root list, object 1 the empty literal. -/
def lastNodeHeap : Heap := fun r =>
  match r with
  | 0 => { blank with type := "list", children := some [1], id := some 0 }
  | 1 => { blank with type := "proto", value := "", id := some 1, parentId := some 0,
                        parent := some 0, siblingIndex := some 0 }
  | _ => blank

/-- The shape of the children of the root of `lastNodeHeap`. -/
def lastNodeKids : Forest := .cons 1 .nil .nil

/-! ## Words of the specification about tags and types -/

/-- The tags named by an argument of `imbueAttr` or `depriveAttr`. -/
def AttrArg.toList : AttrArg → List String
  | .tag a => [a]
  | .tags as => as

/-- An untagged tree with a node of unknown type: the list `(x)` whose child has the type
`bogus`.  Object 0 is the root, object 1 the child. -/
def bogusHeap : Heap := fun r =>
  match r with
  | 0 => { blank with type := "list", children := some [1] }
  | 1 => { blank with type := "bogus", value := "x" }
  | _ => blank

/-- The shape of the children of the root of `bogusHeap`. -/
def bogusKids : Forest := .cons 1 .nil .nil

/-! ## Words of the specification about the assignee tag -/

/-- The assignee rule of the data model at the node `x`: a list with a parent holds
`assignee` iff the parent holds `definition` and its own `siblingIndex` is 1.  A node that is
not a list, or has no parent, passes. -/
def assigneeRule (h : Heap) (x : Ref) : Bool :=
  if (h x).type = "list" then
    match (h x).parent with
    | none => true
    | some p =>
      (h x).attr.contains "assignee"
        == ((h p).attr.contains "definition" && (h x).siblingIndex == some 1)
  else true

/-- The world an `input` event leaves behind (the start-up world if the handler threw). -/
def worldAfter (r : Except Err (World × Option Ref)) : World :=
  match r with
  | .ok p => p.1
  | .error _ => world0

/-- The world after `x` was typed at the end of `define` in the seed tree. -/
def worldDefinexTyped : World :=
  worldAfter (onInput 5 world0 11
    { data := some "x", textContent := "definex", focusOffset := 7 })

/-- The world after a space was then typed between `define` and `x`: the tree is
`(define x (goose n) (* n n))`, with the new literal as object 50. -/
def worldDefineX : World :=
  worldAfter (onInput 5 worldDefinexTyped 11
    { data := some " ", textContent := "define x", focusOffset := 7 })

/-- The world after the `x` was then deleted from the new literal, which is left empty. -/
def worldDefineProto : World :=
  worldAfter (onInput 5 worldDefineX 50 { data := none, textContent := "", focusOffset := 0 })

/-- The seed tree with the last `n` of `(* n n)` holding the value `define`. -/
def defineLastHeap : Heap := taggedHeap.set 18 { taggedHeap 18 with value := "define" }

/-! ## Where relabelling writes -/

/-- `BackLinked h N`: the objects in `N` are closed under `children` and `parent`, and every
element of a `children` array of an object in `N` points back at the owner of the array. -/
def BackLinked (h : Heap) (N : Ref → Prop) : Prop :=
  (∀ y cs c, N y → (h y).children = some cs → c ∈ cs → (h c).parent = some y ∧ N c)
    ∧ ∀ x q, N x → (h x).parent = some q → N q

/-- `Reach h t x`: `x` lies where `relabelTree(t)` may write: in the subtree of `t` when `t`
is a list, in the subtree of the parent of `t` otherwise. -/
def Reach (h : Heap) (t x : Ref) : Prop :=
  if (h t).type = "list" then Anc h t x else ∃ q, (h t).parent = some q ∧ Anc h q x

/-! ## Editing sessions -/

/-- What a sequence of structural edits works on: the heap, the global counter `lastId`, and
the shape of the tree below the root object (kept alongside to say which objects are nodes
of the tree). -/
structure Session where
  heap : Heap
  lastId : Nat
  kids : Forest

/-- The nodes of the tree of a session with root object `root`. -/
def Session.nodes (root : Ref) (σ : Session) : List Ref :=
  (Forest.cons root σ.kids .nil).preorder

/-- One structural edit on a session: `insertSiblingAfter(s, n)` for a non-root node `s` and
a new childless object `n`, or `deleteChild(c)` for a non-root node `c`. -/
inductive Step (root : Ref) : Session → Session → Prop
  | insert (σ : Session) (s n : Ref) (h2 : Heap) (l2 : Nat) :
      s ∈ σ.kids.preorder → n ∉ σ.nodes root → (σ.heap n).children = none →
      insertSiblingAfter σ.heap σ.lastId s n = .ok (h2, l2) →
      Step root σ ⟨h2, l2, σ.kids.insertAfter s n⟩
  | delete (σ : Session) (c : Ref) (h2 : Heap) :
      c ∈ σ.kids.preorder → deleteChild σ.heap c = .ok h2 →
      Step root σ ⟨h2, σ.lastId, σ.kids.remove c⟩

/-- The invariant of a session: the heap stores the tree, indexes are consistent, every
node of the tree has an id, ids of tree nodes are pairwise distinct, and no object of the
heap carries an id above `lastId`. -/
structure Session.Good (root : Ref) (σ : Session) : Prop where
  tree : TreeAt σ.heap root σ.kids
  index : ∀ x ∈ σ.kids.preorder, IndexOK σ.heap x
  idSome : ∀ x ∈ σ.nodes root, ∃ k, (σ.heap x).id = some k
  idInj : ∀ x ∈ σ.nodes root, ∀ y ∈ σ.nodes root, (σ.heap x).id = (σ.heap y).id → x = y
  idBound : ∀ x k, (σ.heap x).id = some k → k ≤ σ.lastId

/-! # Theorems -/

/-! ## Evaluations on the seed tree -/

example : (treeInfo.map fun p => (p.1, (p.2 18).id, (p.2 18).parent, (p.2 15).siblingIndex))
    = .ok (8, some 8, some 15, some 2) := by rfl

example : lastId0 = 8 := by rfl

example : ((insertSiblingAfter (taggedHeap.set 50 { blank with value := "x" }) lastId0 14 50).map
    fun p => ((p.1 12).children, (p.1 50).id, (p.1 50).siblingIndex, (p.1 50).parent, p.2,
      (syntaxTreeToText 5 p.1 10)))
    = .ok (some [13, 14, 50], some 9, some 2, some 12, 9,
        .ok "(define (goose n x) \n  (* n n))") := by rfl

example : ((deleteChild taggedHeap 12).map
    fun h => ((h 10).children, (h 15).siblingIndex, (syntaxTreeToText 5 h 10)))
    = .ok (some [11, 15], some 1, .ok "(define \n  (* n n))") := by rfl

example : parseFloatKind "42" = .decimal ∧ parseFloatKind "  -.5e3" = .decimal
    ∧ parseFloatKind "Infinity" = .infinity ∧ parseFloatKind "-Infinityx" = .infinity
    ∧ parseFloatKind "" = .nan ∧ parseFloatKind "define" = .nan ∧ parseFloatKind "." = .nan
    ∧ parseFloatKind "+-1" = .nan ∧ parseFloatKind "42abc" = .decimal := by decide

example : ((relabelTree 5 (taggedHeap, []) 10).map fun st =>
      ([10, 11, 12, 13, 14, 15, 16, 17, 18].map fun x => ((st.1 x).type, (st.1 x).attr), st.2))
    = .ok ([("list", ["definition"]), ("symbol", ["keyword", "definition"]),
        ("list", ["assignee"]), ("symbol", ["assignee"]), ("symbol", ["boundVariable"]),
        ("list", []), ("symbol", ["builtin"]), ("symbol", []), ("symbol", [])],
        [(some 2, 12)]) := by rfl

example : deleteNodeClimb 5 (taggedHeap.set 16 { taggedHeap 16 with value := "" })
      editingState0 "Backspace" 16
    = .ok ({ focused := true, focusedId := some 7, cursorOffset := 0 },
        { refocus := none, deleteNode := 16 }) := by rfl

example : deleteNodeClimb 5 (taggedHeap.set 17 { taggedHeap 17 with value := "" })
      editingState0 "Backspace" 17
    = .ok ({ focused := true, focusedId := some 6, cursorOffset := 1 },
        { refocus := none, deleteNode := 17 }) := by rfl

example : ((onInput 3 worldAbn 18 { data := some " ", textContent := "ab n", focusOffset := 3 }).map
    fun r => ((r.1.heap 18).value, (r.1.heap 50).value, (r.1.heap 50).type,
      (r.1.heap 15).children, r.1.editingState, r.1.lastId, r.2,
      syntaxTreeToText 5 r.1.heap 10))
    = .ok ("ab", "n", "symbol", some [16, 17, 18, 50],
        { focused := true, focusedId := some 9, cursorOffset := 0 }, 9, some 15,
        .ok "(define (goose n) \n  (* n ab n))") := by rfl

example : ((onInput 3 worldAbn 18 { data := some " ", textContent := "abn ", focusOffset := 4 }).map
    fun r => ((r.1.heap 18).value, (r.1.heap 50).value, (r.1.heap 50).type))
    = .ok ("abn", "", "proto") := by rfl

/-! ## Serialisation (C1) -/

theorem Holds_seed : Holds seedHeap seedShape := by
  simp [Holds, seedShape, seedKids, seedHeap, Forest.roots, Node.kids, seedList, seedLit, blank]

theorem syntaxTreeToText_forest (h : Heap) :
    ∀ (F : Forest), Holds h F → (∀ x ∈ F.preorder, (h x).valid) →
      ∀ fuel, F.height ≤ fuel →
        mapE (syntaxTreeToText fuel h) F.roots = .ok (specText h F) := by
  intro F
  induction F with
  | nil => intro _ _ fuel _; simp [Forest.roots, specText, mapE]
  | cons r kids rest ihk ihr =>
    intro hold typed fuel hf
    obtain ⟨hk, holdk, holdr⟩ := hold
    simp only [Forest.height] at hf
    have hrest := ihr holdr (fun x hx => typed x (by simp [Forest.preorder, hx])) fuel (by omega)
    obtain ⟨f, rfl⟩ : ∃ f, fuel = f + 1 := ⟨fuel - 1, by omega⟩
    have hkids := ihk holdk (fun x hx => typed x (by simp [Forest.preorder, hx])) f (by omega)
    have hv := typed r (by simp [Forest.preorder])
    simp only [Forest.roots, mapE, hrest, specText]
    rcases hv with ⟨hl, hc⟩ | hs | hn | hp
    · obtain ⟨cs, hcs⟩ := Option.ne_none_iff_exists'.mp hc
      have : cs = kids.roots := by simpa [Node.kids, hcs] using hk
      subst this
      simp [syntaxTreeToText, hl, hcs, hkids, indentOf]
    · simp [syntaxTreeToText, hs, indentOf]
    · simp [syntaxTreeToText, hn, indentOf]
    · simp [syntaxTreeToText, hp, indentOf]

theorem valid_seed : ∀ x ∈ seedShape.preorder, (seedHeap x).valid := by
  simp [seedShape, seedKids, Forest.preorder, seedHeap, Node.valid, seedList, seedLit, blank]

/-- Claim C1. On a heap that stores a tree whose nodes all have one of the four types,
`syntaxTreeToText` returns (at any fuel above the height of the tree): for a list the
serialisations of its children joined by one space inside parentheses, for a symbol or
numeric literal its raw value, both prefixed by a newline and two spaces iff `dropped` is
set, and for a proto the empty string.  On the seed tree the result is exactly
`(define (goose n) \n  (* n n))`. -/
theorem syntaxTreeToText_spec (h : Heap) (root : Ref) (kids : Forest)
    (hold : Holds h (.cons root kids .nil))
    (typed : ∀ x ∈ (Forest.cons root kids .nil).preorder, (h x).valid)
    (fuel : Nat) (hfuel : kids.height < fuel) :
    syntaxTreeToText fuel h root =
        .ok (if (h root).type = "list" then
              (if (h root).dropped then "\n  " else "") ++ "("
                ++ " ".intercalate (specText h kids) ++ ")"
            else if (h root).type = "proto" then ""
            else (if (h root).dropped then "\n  " else "") ++ (h root).value)
      ∧ syntaxTreeToText 3 seedHeap seedRoot = .ok "(define (goose n) \n  (* n n))" := by
  refine ⟨?_, rfl⟩
  have key := syntaxTreeToText_forest h (.cons root kids .nil) hold typed fuel
    (by simp [Forest.height]; omega)
  simp only [Forest.roots, mapE, specText] at key
  cases hres : syntaxTreeToText fuel h root with
  | error e => simp [hres] at key
  | ok t => simpa [hres, indentOf] using key

theorem syntaxTreeToText_spec_witness :
    syntaxTreeToText 3 seedHeap 15 = .ok "\n  (* n n)" :=
  (syntaxTreeToText_spec seedHeap 15 (.cons 16 .nil (.cons 17 .nil (.cons 18 .nil .nil)))
    (by simp [Holds, seedHeap, Forest.roots, Node.kids, seedList, seedLit, blank])
    (by simp [Forest.preorder, seedHeap, Node.valid, seedList, seedLit, blank])
    3 (by decide)).1

/-! ## Heap bookkeeping -/

@[simp] theorem Heap.set_same (h : Heap) (r : Ref) (n : Node) : (h.set r n) r = n := by
  simp [Heap.set]

theorem Heap.set_other (h : Heap) (r : Ref) (n : Node) (x : Ref) (hx : x ≠ r) :
    (h.set r n) x = h x := by
  simp [Heap.set, hx]

@[simp] theorem Heap.set_set (h : Heap) (r : Ref) (a b : Node) :
    (h.set r a).set r b = h.set r b := by
  funext x
  by_cases hx : x = r <;> simp [Heap.set, hx]

theorem Holds_congr {h h2 : Heap} (hc : ∀ x, (h2 x).children = (h x).children) :
    ∀ F, Holds h F → Holds h2 F := by
  intro F
  induction F with
  | nil => intro _; trivial
  | cons r kids rest ihk ihr =>
    intro ⟨a, b, c⟩
    exact ⟨by simpa [Node.kids, hc r] using a, ihk b, ihr c⟩

theorem Linked_congr {h h2 : Heap} :
    ∀ F p i, (∀ x ∈ F.preorder, h2 x = h x) → Linked h p i F → Linked h2 p i F := by
  intro F
  induction F with
  | nil => intro _ _ _ _; trivial
  | cons r kids rest ihk ihr =>
    intro p i heq ⟨a, b, c, d⟩
    have hr := heq r (by simp [Forest.preorder])
    refine ⟨by rw [hr]; exact a, by rw [hr]; exact b, ?_, ?_⟩
    · exact ihk r 0 (fun x hx => heq x (by simp [Forest.preorder, hx])) c
    · exact ihr p (i + 1) (fun x hx => heq x (by simp [Forest.preorder, hx])) d

theorem Forest.roots_subset_preorder : ∀ F : Forest, ∀ x ∈ F.roots, x ∈ F.preorder := by
  intro F
  induction F with
  | nil => intro x hx; simp [Forest.roots] at hx
  | cons r kids rest _ ihr =>
    intro x hx
    simp only [Forest.roots, List.mem_cons] at hx
    rcases hx with rfl | hx
    · simp [Forest.preorder]
    · simp [Forest.preorder, ihr x hx]

/-! ## Tagging (C2) -/

theorem retagChildren_forest :
    ∀ (F : Forest) (fuel : Nat) (h : Heap) (p pid i d : Nat),
      Holds h F → F.preorder.Nodup → F.height ≤ fuel →
      ∃ h2, retagChildren (retagTree fuel) p pid F.roots i d h
          = .ok (d + F.preorder.length, h2) ∧ Retagged h h2 p i d F := by
  intro F
  induction F with
  | nil =>
    intro fuel h p pid i d _ _ _
    exact ⟨h, by simp [retagChildren, Forest.roots, Forest.preorder],
      ⟨fun _ _ => rfl, fun _ => ⟨rfl, rfl, rfl, rfl, rfl⟩,
        fun k x hk => by simp [Forest.preorder] at hk, trivial⟩⟩
  | cons r kids rest ihk ihr =>
    intro fuel h p pid i d hold nd hf
    obtain ⟨hk, holdk, holdr⟩ := hold
    simp only [Forest.height] at hf
    obtain ⟨f, rfl⟩ : ∃ f, fuel = f + 1 := ⟨fuel - 1, by omega⟩
    simp only [Forest.preorder, List.nodup_cons, List.mem_append, not_or,
      List.nodup_append] at nd
    obtain ⟨⟨hrk, hrr⟩, ndk, ndr, disj⟩ := nd
    -- the recursive call on `r`
    obtain ⟨h1, hh1⟩ : ∃ h1 : Heap, h1 = h.set r { h r with id := some (d + 1) } := ⟨_, rfl⟩
    have h1c : ∀ x, (h1 x).children = (h x).children := by
      intro x
      by_cases hx : x = r
      · subst hx; simp [hh1]
      · simp [hh1, Heap.set_other _ _ _ _ hx]
    obtain ⟨h2, run2, R2⟩ := ihk f h1 r (d + 1) 0 (d + 1) (Holds_congr h1c _ holdk) ndk
      (by omega)
    have call : retagTree (f + 1) h r (d + 1) = .ok (d + 1 + kids.preorder.length, h2) := by
      simp only [retagTree, ← hh1, h1c r]
      cases hch : (h r).children with
      | none =>
        have hnil : kids.roots = [] := by simpa [Node.kids, hch] using hk.symm
        have : kids = .nil := by
          cases kids with
          | nil => rfl
          | cons a b c => simp [Forest.roots] at hnil
        subst this
        simpa [Forest.roots, retagChildren, Forest.preorder] using run2
      | some cs =>
        have : cs = kids.roots := by simpa [Node.kids, hch] using hk
        subst this
        exact run2
    -- the loop goes on with the rest
    obtain ⟨h3, hh3⟩ : ∃ h3 : Heap, h3 = h2.set r
      { h2 r with parentId := some pid, parent := some p, siblingIndex := some i } := ⟨_, rfl⟩
    have h3c : ∀ x, (h3 x).children = (h x).children := by
      intro x
      by_cases hx : x = r
      · subst hx; simp [hh3, (R2.content x).2.2.1, h1c]
      · simp [hh3, Heap.set_other _ _ _ _ hx, (R2.content x).2.2.1, h1c]
    obtain ⟨h4, run4, R4⟩ := ihr (f + 1) h3 p pid (i + 1) (d + 1 + kids.preorder.length)
      (Holds_congr h3c _ holdr) ndr (by omega)
    refine ⟨h4, ?_, ?_⟩
    · simp only [Forest.roots, retagChildren, call, ← hh3]
      rw [run4]
      simp [Forest.preorder]; omega
    · have h4r : h4 r = h3 r := R4.frame r hrr
      have h2r : h2 r = h1 r := R2.frame r hrk
      constructor
      · intro x hx
        simp only [Forest.preorder, List.mem_cons, List.mem_append, not_or] at hx
        rw [R4.frame x hx.2.2]
        simp only [hh3, Heap.set_other _ _ _ _ hx.1]
        rw [R2.frame x hx.2.1]
        simp only [hh1, Heap.set_other _ _ _ _ hx.1]
      · intro x
        have a := R4.content x
        have b : (h3 x).type = (h x).type ∧ (h3 x).value = (h x).value
            ∧ (h3 x).children = (h x).children ∧ (h3 x).attr = (h x).attr
            ∧ (h3 x).dropped = (h x).dropped := by
          have c := R2.content x
          by_cases hx : x = r
          · subst hx; simpa [hh3, hh1] using c
          · simpa [hh3, hh1, Heap.set_other _ _ _ _ hx] using c
        exact ⟨a.1.trans b.1, a.2.1.trans b.2.1, a.2.2.1.trans b.2.2.1,
          a.2.2.2.1.trans b.2.2.2.1, a.2.2.2.2.trans b.2.2.2.2⟩
      · intro k x hkx
        simp only [Forest.preorder] at hkx
        cases k with
        | zero =>
          simp only [List.getElem?_cons_zero, Option.some.injEq] at hkx
          subst hkx
          rw [h4r]; simp [hh3, h2r, hh1]
        | succ k =>
          simp only [List.getElem?_cons_succ] at hkx
          by_cases hlt : k < kids.preorder.length
          · rw [List.getElem?_append_left hlt] at hkx
            have hxk : x ∈ kids.preorder := List.getElem?_mem hkx
            have hxr : x ∉ rest.preorder := fun hxr => disj hxk hxr
            have hne : x ≠ r := fun e => hrk (e ▸ hxk)
            rw [R4.frame x hxr]
            simp only [hh3, Heap.set_other _ _ _ _ hne]
            rw [R2.ids k x hkx]; congr 1; omega
          · rw [List.getElem?_append_right (by omega)] at hkx
            rw [R4.ids _ x hkx]; congr 1; omega
      · refine ⟨?_, ?_, ?_, R4.linked⟩
        · rw [h4r]; simp [hh3]
        · rw [h4r]; simp [hh3]
        · refine Linked_congr kids r 0 ?_ R2.linked
          intro x hx
          have hxr : x ∉ rest.preorder := fun hxr => disj hx hxr
          have hne : x ≠ r := fun e => hrk (e ▸ hx)
          rw [R4.frame x hxr]
          simp only [hh3, Heap.set_other _ _ _ _ hne]

theorem children_of_kids {n : Node} {a : Ref} {l : List Ref} (hk : n.kids = a :: l) :
    n.children = some (a :: l) := by
  cases hc : n.children with
  | none => simp [Node.kids, hc] at hk
  | some cs => simpa [Node.kids, hc] using hk

/-- Back-references that follow the shape give the indexing expression at every node. -/
theorem IndexOK_of_Linked (h : Heap) :
    ∀ (F : Forest) (p : Ref) (i : Nat) (pre : List Ref),
      (h p).kids = pre ++ F.roots → pre.length = i → Holds h F → Linked h p i F →
      ∀ x ∈ F.preorder, IndexOK h x := by
  intro F
  induction F with
  | nil => intro _ _ _ _ _ _ _ x hx; simp [Forest.preorder] at hx
  | cons r kids rest ihk ihr =>
    intro p i pre hp hi hold lk x hx
    obtain ⟨hk, holdk, holdr⟩ := hold
    obtain ⟨lp, li, lkids, lrest⟩ := lk
    simp only [Forest.preorder, List.mem_cons, List.mem_append] at hx
    rcases hx with rfl | hx | hx
    · have hne : (h p).kids = (pre ++ [x]) ++ rest.roots := by simp [hp, Forest.roots]
      cases hc : (h p).children with
      | none => simp [Node.kids, hc, Forest.roots] at hp
      | some cs =>
        refine ⟨p, cs, i, lp, hc, li, ?_⟩
        have : cs = pre ++ x :: rest.roots := by simpa [Node.kids, hc, Forest.roots] using hp
        subst this; subst hi
        rw [List.getElem?_append_right (le_refl _)]; simp
    · exact ihk r 0 [] (by simpa using hk) rfl holdk lkids x hx
    · exact ihr p (i + 1) (pre ++ [r]) (by simp [hp, Forest.roots]) (by simp [hi]) holdr
        lrest x hx

/-- The run of `retagTree(tree)` with start id 0 on a heap that stores a finite tree. -/
theorem retagTree_root (h : Heap) (root : Ref) (kids : Forest)
    (hold : Holds h (.cons root kids .nil))
    (nodup : (Forest.cons root kids .nil).preorder.Nodup)
    (fuel : Nat) (hfuel : kids.height < fuel) :
    ∃ h2, retagTree fuel h root 0 = .ok (kids.preorder.length, h2)
      ∧ (∀ k x, (Forest.cons root kids .nil).preorder[k]? = some x → (h2 x).id = some k)
      ∧ Linked h2 root 0 kids
      ∧ (∀ x, (h2 x).type = (h x).type ∧ (h2 x).value = (h x).value
          ∧ (h2 x).children = (h x).children ∧ (h2 x).attr = (h x).attr
          ∧ (h2 x).dropped = (h x).dropped)
      ∧ (h2 root).parent = (h root).parent
      ∧ (∀ x, x ∉ (Forest.cons root kids .nil).preorder → h2 x = h x) := by
  obtain ⟨hk, holdk, -⟩ := hold
  obtain ⟨f, rfl⟩ : ∃ f, fuel = f + 1 := ⟨fuel - 1, by omega⟩
  simp only [Forest.preorder, List.append_nil, List.nodup_cons] at nodup
  obtain ⟨hrk, ndk⟩ := nodup
  obtain ⟨h1, hh1⟩ : ∃ h1 : Heap, h1 = h.set root { h root with id := some 0 } := ⟨_, rfl⟩
  have h1c : ∀ x, (h1 x).type = (h x).type ∧ (h1 x).value = (h x).value
      ∧ (h1 x).children = (h x).children ∧ (h1 x).attr = (h x).attr
      ∧ (h1 x).dropped = (h x).dropped := by
    intro x
    by_cases hx : x = root
    · subst hx; simp [hh1]
    · simp [hh1, Heap.set_other _ _ _ _ hx]
  have holdk1 : Holds h1 kids := Holds_congr (fun x => (h1c x).2.2.1) _ holdk
  obtain ⟨h2, run2, R2⟩ := retagChildren_forest kids f h1 root 0 0 0 holdk1 ndk (by omega)
  refine ⟨h2, ?_, ?_, R2.linked, ?_, ?_, ?_⟩
  · simp only [retagTree, ← hh1, (h1c root).2.2.1]
    cases hch : (h root).children with
    | none =>
      have hnil : kids.roots = [] := by simpa [Node.kids, hch] using hk.symm
      have : kids = .nil := by
        cases kids with
        | nil => rfl
        | cons a b c => simp [Forest.roots] at hnil
      subst this
      simpa [Forest.roots, retagChildren, Forest.preorder] using run2
    | some cs =>
      have : cs = kids.roots := by simpa [Node.kids, hch] using hk
      subst this
      simpa [Forest.preorder] using run2
  · intro k x hkx
    simp only [Forest.preorder, List.append_nil] at hkx
    cases k with
    | zero =>
      simp only [List.getElem?_cons_zero, Option.some.injEq] at hkx
      rw [← hkx, R2.frame root hrk]; simp [hh1]
    | succ k =>
      simp only [List.getElem?_cons_succ] at hkx
      rw [R2.ids k x hkx]; congr 1; omega
  · intro x
    have a := R2.content x
    have b := h1c x
    exact ⟨a.1.trans b.1, a.2.1.trans b.2.1, a.2.2.1.trans b.2.2.1,
      a.2.2.2.1.trans b.2.2.2.1, a.2.2.2.2.trans b.2.2.2.2⟩
  · rw [R2.frame root hrk]; simp [hh1]
  · intro x hx
    simp only [Forest.preorder, List.append_nil, List.mem_cons, not_or] at hx
    rw [R2.frame x hx.2, hh1, Heap.set_other _ _ _ _ hx.1]

/-- Claim C2. On a heap that stores a finite tree, `retagTree(tree)` with start id 0 returns
(at any fuel above the height of the tree) with `lastId = n - 1` for the `n` nodes of the
tree, gives the node at pre-order position `k` the id `k`, and leaves every non-root node
`x` with `x.parent.children[x.siblingIndex]` equal to `x`; the `children` arrays are as
before. -/
theorem retagTree_preorder (h : Heap) (root : Ref) (kids : Forest)
    (hold : Holds h (.cons root kids .nil))
    (nodup : (Forest.cons root kids .nil).preorder.Nodup)
    (fuel : Nat) (hfuel : kids.height < fuel) :
    ∃ h2, retagTree fuel h root 0
          = .ok ((Forest.cons root kids .nil).preorder.length - 1, h2)
      ∧ (∀ k x, (Forest.cons root kids .nil).preorder[k]? = some x → (h2 x).id = some k)
      ∧ (∀ x ∈ kids.preorder, IndexOK h2 x)
      ∧ (∀ x, (h2 x).children = (h x).children) := by
  obtain ⟨h2, run, ids, lk, content, -, -⟩ := retagTree_root h root kids hold nodup fuel hfuel
  have hc : ∀ x, (h2 x).children = (h x).children := fun x => (content x).2.2.1
  refine ⟨h2, by simpa [Forest.preorder] using run, ids, ?_, hc⟩
  have h2k : (h2 root).kids = kids.roots := by simpa [Node.kids, hc root] using hold.1
  exact IndexOK_of_Linked h2 kids root 0 [] (by simpa using h2k) rfl
    (Holds_congr hc _ hold.2.1) lk

theorem retagTree_preorder_witness :
    ∃ h2, retagTree 3 seedHeap 10 0 = .ok (8, h2)
      ∧ (∀ k x, (Forest.cons 10 seedKids .nil).preorder[k]? = some x → (h2 x).id = some k)
      ∧ (∀ x ∈ seedKids.preorder, IndexOK h2 x)
      ∧ (∀ x, (h2 x).children = (seedHeap x).children) :=
  retagTree_preorder seedHeap 10 seedKids Holds_seed (by decide) 3 (by decide)

/-! ## Facts about `reindexChildren` -/

theorem reindexLoop_fields : ∀ (cs : List Ref) (i : Nat) (h : Heap) (x : Ref),
    ∃ si, reindexLoop cs i h x = { h x with siblingIndex := si } := by
  intro cs
  induction cs with
  | nil => intro i h x; exact ⟨(h x).siblingIndex, rfl⟩
  | cons c cs ih =>
    intro i h x
    obtain ⟨si, hsi⟩ := ih (i + 1) (h.set c { h c with siblingIndex := some i }) x
    simp only [reindexLoop, hsi]
    by_cases hx : x = c
    · subst hx; exact ⟨si, by simp⟩
    · exact ⟨si, by simp [Heap.set_other _ _ _ _ hx]⟩

theorem reindexLoop_other : ∀ (cs : List Ref) (i : Nat) (h : Heap) (x : Ref),
    x ∉ cs → reindexLoop cs i h x = h x := by
  intro cs
  induction cs with
  | nil => intro i h x _; rfl
  | cons c cs ih =>
    intro i h x hx
    simp only [List.mem_cons, not_or] at hx
    simp only [reindexLoop]
    rw [ih _ _ _ hx.2, Heap.set_other _ _ _ _ hx.1]

theorem reindexLoop_index : ∀ (cs : List Ref) (i : Nat) (h : Heap) (x : Ref),
    x ∈ cs → ∃ j, cs[j]? = some x ∧ (reindexLoop cs i h x).siblingIndex = some (i + j) := by
  intro cs
  induction cs with
  | nil => intro i h x hx; simp at hx
  | cons c cs ih =>
    intro i h x hx
    by_cases hin : x ∈ cs
    · obtain ⟨j, hj, hs⟩ := ih (i + 1) (h.set c { h c with siblingIndex := some i }) x hin
      exact ⟨j + 1, by simpa using hj, by simp only [reindexLoop, hs]; congr 1; omega⟩
    · have hxc : x = c := by
        rcases List.mem_cons.mp hx with e | e
        · exact e
        · exact absurd e hin
      subst hxc
      refine ⟨0, by simp, ?_⟩
      simp only [reindexLoop]
      rw [reindexLoop_other _ _ _ _ hin]; simp

/-! ## What `insertSiblingAfter` and `deleteChild` do to the heap -/

theorem mem_spliceIn (cs : List Ref) (k : Nat) (n x : Ref) :
    x ∈ spliceIn cs k n ↔ x = n ∨ x ∈ cs := by
  unfold spliceIn
  constructor
  · intro hx
    rcases List.mem_append.mp hx with hx | hx
    · exact Or.inr (List.mem_of_mem_take hx)
    · rcases List.mem_cons.mp hx with hx | hx
      · exact Or.inl hx
      · exact Or.inr (List.mem_of_mem_drop hx)
  · intro hx
    rcases hx with rfl | hx
    · simp
    · rw [← List.take_append_drop k cs] at hx
      rcases List.mem_append.mp hx with hx | hx
      · exact List.mem_append_left _ hx
      · exact List.mem_append_right _ (List.mem_cons_of_mem _ hx)

theorem insertSiblingAfter_run (h : Heap) (lastId : Nat) (s n p : Ref) (cs : List Ref)
    (i : Nat) (hp : (h s).parent = some p) (hc : (h p).children = some cs)
    (hi : (h s).siblingIndex = some i) (hns : n ≠ s) (hnp : n ≠ p) :
    ∃ h2, insertSiblingAfter h lastId s n = .ok (h2, lastId + 1)
      ∧ Inserted h h2 lastId p cs i n := by
  have hsn : s ≠ n := fun e => hns e.symm
  have hpn : p ≠ n := fun e => hnp e.symm
  obtain ⟨h3, hh3⟩ : ∃ h3 : Heap, h3 = h.set n
      { h n with id := some (lastId + 1), attr := [], type := "symbol",
                 parentId := (h s).parentId, parent := some p } := ⟨_, rfl⟩
  obtain ⟨h4, hh4⟩ : ∃ h4 : Heap, h4 = h3.set p
      { h3 p with children := some (spliceIn cs (i + 1) n) } := ⟨_, rfl⟩
  have e3 : ∀ x, x ≠ n → h3 x = h x := fun x hx => by rw [hh3, Heap.set_other _ _ _ _ hx]
  have e4 : ∀ x, x ≠ p → h4 x = h3 x := fun x hx => by rw [hh4, Heap.set_other _ _ _ _ hx]
  have e4p : h4 p = { h p with children := some (spliceIn cs (i + 1) n) } := by
    rw [hh4, Heap.set_same, e3 p hpn]
  have e4s : (h4 s).parent = some p ∧ (h4 s).siblingIndex = some i := by
    by_cases hsp : s = p
    · subst hsp; rw [e4p]; exact ⟨hp, hi⟩
    · rw [e4 s hsp, e3 s hsn]; exact ⟨hp, hi⟩
  have e4n : h4 n =
      { h n with id := some (lastId + 1), attr := [], type := "symbol",
                 parentId := (h s).parentId, parent := some p } := by
    rw [e4 n hnp, hh3, Heap.set_same]
  refine ⟨reindexLoop (spliceIn cs (i + 1) n) 0 h4, ?_, ?_⟩
  · have step : insertSiblingAfter h lastId s n
        = (match (h4 s).parent with
            | none => Except.error Err.typeError
            | some p2 =>
              match reindexChildren h4 p2 with
              | .error e => .error e
              | .ok h5 => .ok (h5, lastId + 1)) := by
      simp only [insertSiblingAfter, Heap.set_same, Heap.set_other _ _ _ _ hsn,
        Heap.set_other _ _ _ _ hpn, Heap.set_set, hp, hc, hi]
      rw [hh4, hh3]
      simp only [Heap.set_same, Heap.set_other _ _ _ _ hpn]
    rw [step, e4s.1]
    simp [reindexChildren, e4p]
  · constructor
    · intro x
      obtain ⟨si, hsi⟩ := reindexLoop_fields (spliceIn cs (i + 1) n) 0 h4 x
      rw [hsi]
      by_cases hx : x = p
      · subst hx; simp [e4p]
      · by_cases hxn : x = n
        · subst hxn; simp [e4n, hx]
        · simp [hx, e4 x hx, e3 x hxn]
    · intro x
      obtain ⟨si, hsi⟩ := reindexLoop_fields (spliceIn cs (i + 1) n) 0 h4 x
      rw [hsi]
      by_cases hxn : x = n
      · subst hxn; simp [e4n]
      · by_cases hx : x = p
        · subst hx; simp [e4p, hxn]
        · simp [hxn, e4 x hx, e3 x hxn]
    · intro x hx
      obtain ⟨j, hj, hs⟩ := reindexLoop_index (spliceIn cs (i + 1) n) 0 h4 x hx
      exact ⟨j, hj, by simpa using hs⟩
    · intro x hx
      rw [reindexLoop_other _ _ _ _ hx]
      have hxn : x ≠ n := fun e => hx ((mem_spliceIn _ _ _ _).mpr (Or.inl e))
      by_cases hxp : x = p
      · subst hxp; simp [e4p]
      · rw [e4 x hxp, e3 x hxn]
    · intro x hxn
      obtain ⟨si, hsi⟩ := reindexLoop_fields (spliceIn cs (i + 1) n) 0 h4 x
      rw [hsi]
      by_cases hxp : x = p
      · subst hxp; simp [e4p]
      · simp [e4 x hxp, e3 x hxn]
    · obtain ⟨si, hsi⟩ := reindexLoop_fields (spliceIn cs (i + 1) n) 0 h4 n
      rw [hsi]; simp [e4n]

/-! ## Shapes after an insertion or a removal -/

theorem Forest.roots_sublist : ∀ F : Forest, F.roots.Sublist F.preorder := by
  intro F
  induction F with
  | nil => simp [Forest.roots, Forest.preorder]
  | cons r kids rest _ ihr =>
    simp only [Forest.roots, Forest.preorder]
    exact List.Sublist.cons₂ r (ihr.trans (List.sublist_append_right _ _))

theorem Forest.roots_nodup {F : Forest} (nd : F.preorder.Nodup) : F.roots.Nodup :=
  nd.sublist F.roots_sublist

theorem Forest.mem_insertAfter (s n : Ref) : ∀ (F : Forest) (x : Ref),
    x ∈ (F.insertAfter s n).preorder ↔ x ∈ F.preorder ∨ (x = n ∧ s ∈ F.preorder) := by
  intro F
  induction F with
  | nil => intro x; simp [Forest.insertAfter, Forest.preorder]
  | cons r kids rest ihk ihr =>
    intro x
    by_cases hrs : r = s
    · subst hrs
      simp only [Forest.insertAfter, if_true, Forest.preorder, List.mem_cons, List.mem_append,
        ihk, ihr, List.nil_append]
      tauto
    · have hsr : ¬ s = r := fun e => hrs e.symm
      simp only [Forest.insertAfter, if_neg hrs, Forest.preorder, List.mem_cons,
        List.mem_append, ihk, ihr, hsr, false_or]
      tauto

theorem Forest.nodup_insertAfter (s n : Ref) : ∀ (F : Forest),
    F.preorder.Nodup → n ∉ F.preorder → (F.insertAfter s n).preorder.Nodup := by
  intro F
  induction F with
  | nil => intro _ _; simp [Forest.insertAfter, Forest.preorder]
  | cons r kids rest ihk ihr =>
    intro nd hn
    simp only [Forest.preorder, List.nodup_cons, List.mem_append, not_or, List.nodup_append,
      List.mem_cons] at nd hn
    obtain ⟨⟨hrk, hrr⟩, ndk, ndr, disj⟩ := nd
    obtain ⟨hnr, hnk, hnrest⟩ := hn
    have nk := ihk ndk hnk
    have nr := ihr ndr hnrest
    have hrn : r ≠ n := fun e => hnr e.symm
    by_cases hrs : r = s
    · subst hrs
      simp only [Forest.insertAfter, if_true, Forest.preorder, List.nodup_cons, List.mem_append,
        List.mem_cons, not_or, List.nodup_append, List.nil_append, Forest.mem_insertAfter]
      refine ⟨⟨by tauto, hrn, by tauto⟩, nk, ⟨by tauto, nr⟩, ?_⟩
      intro x hx hx2
      simp only [Forest.mem_insertAfter, List.mem_cons] at hx hx2
      rcases hx with hx | ⟨_, hx⟩
      · rcases hx2 with rfl | hx2 | ⟨rfl, _⟩
        · exact hnk hx
        · exact disj hx hx2
        · exact hnk hx
      · exact hrk hx
    · simp only [Forest.insertAfter, if_neg hrs, Forest.preorder, List.nodup_cons,
        List.mem_append, not_or, List.nodup_append, Forest.mem_insertAfter]
      refine ⟨⟨by tauto, by tauto⟩, nk, nr, ?_⟩
      intro x hx hx2
      simp only [Forest.mem_insertAfter] at hx hx2
      rcases hx with hx | ⟨rfl, hx⟩
      · rcases hx2 with hx2 | ⟨rfl, _⟩
        · exact disj hx hx2
        · exact hnk hx
      · rcases hx2 with hx2 | ⟨_, hx2⟩
        · exact hnrest hx2
        · exact disj hx hx2

theorem Forest.roots_insertAfter_of_not_mem (s n : Ref) : ∀ (F : Forest),
    s ∉ F.roots → (F.insertAfter s n).roots = F.roots := by
  intro F
  induction F with
  | nil => intro _; rfl
  | cons r kids rest _ ihr =>
    intro hs
    simp only [Forest.roots, List.mem_cons, not_or] at hs
    have hrs : r ≠ s := fun e => hs.1 e.symm
    simp [Forest.insertAfter, if_neg hrs, Forest.roots, ihr hs.2]

theorem Forest.roots_insertAfter (s n : Ref) : ∀ (F : Forest) (i : Nat),
    F.roots.Nodup → F.roots[i]? = some s →
      (F.insertAfter s n).roots = spliceIn F.roots (i + 1) n := by
  intro F
  induction F with
  | nil => intro i _ hi; simp [Forest.roots] at hi
  | cons r kids rest _ ihr =>
    intro i nd hi
    simp only [Forest.roots, List.nodup_cons] at nd hi
    by_cases hrs : r = s
    · subst hrs
      have hi0 : i = 0 := by
        cases i with
        | zero => rfl
        | succ j =>
          simp only [List.getElem?_cons_succ] at hi
          exact absurd (List.getElem?_mem hi) nd.1
      subst hi0
      simp [Forest.insertAfter, Forest.roots, spliceIn,
        Forest.roots_insertAfter_of_not_mem _ n rest nd.1]
    · cases i with
      | zero => simp at hi; exact absurd hi hrs
      | succ j =>
        simp only [List.getElem?_cons_succ] at hi
        simp [Forest.insertAfter, if_neg hrs, Forest.roots, ihr j nd.2 hi, spliceIn]

/-! ## Back-references in a stored tree -/

theorem Parents_root {h : Heap} : ∀ (F : Forest) (q : Option Ref),
    Parents h q F → ∀ x ∈ F.roots, (h x).parent = q := by
  intro F
  induction F with
  | nil => intro _ _ x hx; simp [Forest.roots] at hx
  | cons r kids rest _ ihr =>
    intro q ⟨a, _, c⟩ x hx
    rcases List.mem_cons.mp hx with rfl | hx
    · exact a
    · exact ihr q c x hx

theorem kids_parent {h : Heap} : ∀ (F : Forest) (q : Option Ref),
    Holds h F → Parents h q F → ∀ y ∈ F.preorder, ∀ c ∈ (h y).kids, (h c).parent = some y := by
  intro F
  induction F with
  | nil => intro _ _ _ y hy; simp [Forest.preorder] at hy
  | cons r kids rest ihk ihr =>
    intro q ⟨hk, holdk, holdr⟩ ⟨_, pk, pr⟩ y hy c hc
    simp only [Forest.preorder, List.mem_cons, List.mem_append] at hy
    rcases hy with rfl | hy | hy
    · exact Parents_root kids _ pk c (hk ▸ hc)
    · exact ihk _ holdk pk y hy c hc
    · exact ihr _ holdr pr y hy c hc

theorem parent_mem {h : Heap} : ∀ (F : Forest) (q : Option Ref),
    Parents h q F → ∀ x ∈ F.preorder,
      (h x).parent = q ∨ ∃ y ∈ F.preorder, (h x).parent = some y := by
  intro F
  induction F with
  | nil => intro _ _ x hx; simp [Forest.preorder] at hx
  | cons r kids rest ihk ihr =>
    intro q ⟨a, pk, pr⟩ x hx
    simp only [Forest.preorder, List.mem_cons, List.mem_append] at hx
    rcases hx with rfl | hx | hx
    · exact Or.inl a
    · rcases ihk _ pk x hx with e | ⟨y, hy, e⟩
      · exact Or.inr ⟨r, by simp [Forest.preorder], e⟩
      · exact Or.inr ⟨y, by simp [Forest.preorder, hy], e⟩
    · rcases ihr _ pr x hx with e | ⟨y, hy, e⟩
      · exact Or.inl e
      · exact Or.inr ⟨y, by simp [Forest.preorder, hy], e⟩

/-- In a stored tree the `parent` of a non-root node is a node of the tree. -/
theorem TreeAt.parent_in_tree {h : Heap} {root : Ref} {kids : Forest} (T : TreeAt h root kids)
    {x : Ref} (hx : x ∈ kids.preorder) :
    ∃ y ∈ (Forest.cons root kids .nil).preorder, (h x).parent = some y := by
  obtain ⟨_, pk, _⟩ := T.parents
  rcases parent_mem kids _ pk x hx with e | ⟨y, hy, e⟩
  · exact ⟨root, by simp [Forest.preorder], e⟩
  · exact ⟨y, by simp [Forest.preorder, hy], e⟩

/-! ## `insertSiblingAfter` on a stored tree -/

theorem Holds_insert {h h2 : Heap} {lastId : Nat} {p : Ref} {cs : List Ref} {i : Nat}
    {s n : Ref} (I : Inserted h h2 lastId p cs i n) (hp : (h s).parent = some p)
    (hc : (h p).children = some cs) (hcs : cs[i]? = some s) (hnk : (h n).children = none)
    (hnp : n ≠ p) :
    ∀ (F : Forest) (q : Option Ref), Holds h F → Parents h q F → F.preorder.Nodup →
      Holds h2 (F.insertAfter s n) := by
  intro F
  induction F with
  | nil => intro _ _ _ _; trivial
  | cons r kids rest ihk ihr =>
    intro q ⟨hk, holdk, holdr⟩ ⟨_, pk, pr⟩ nd
    simp only [Forest.preorder, List.nodup_cons, List.nodup_append] at nd
    obtain ⟨_, ndk, ndr, _⟩ := nd
    have hrest := ihr q holdr pr ndr
    refine ⟨?_, ihk _ holdk pk ndk, ?_⟩
    · by_cases hrp : r = p
      · subst hrp
        have hcsk : cs = kids.roots := by simpa [Node.kids, hc] using hk
        subst hcsk
        rw [Forest.roots_insertAfter s n kids i (Forest.roots_nodup ndk) hcs]
        simp [Node.kids, I.children]
      · have hs : s ∉ kids.roots := by
          intro hs
          have := Parents_root kids _ pk s hs
          rw [hp] at this
          exact hrp (Option.some.inj this).symm
        rw [Forest.roots_insertAfter_of_not_mem s n kids hs, ← hk]
        simp [Node.kids, I.children, hrp]
    · by_cases hrs : r = s
      · simp only [if_pos hrs]
        refine ⟨?_, trivial, hrest⟩
        simp [Node.kids, I.children, hnp, hnk, Forest.roots, Forest.insertAfter]
      · simpa only [if_neg hrs] using hrest

theorem Parents_insert {h h2 : Heap} {lastId : Nat} {p : Ref} {cs : List Ref} {i : Nat}
    {s n : Ref} (I : Inserted h h2 lastId p cs i n) (hp : (h s).parent = some p) :
    ∀ (F : Forest) (q : Option Ref), Parents h q F → n ∉ F.preorder →
      Parents h2 q (F.insertAfter s n) := by
  intro F
  induction F with
  | nil => intro _ _ _; trivial
  | cons r kids rest ihk ihr =>
    intro q ⟨a, pk, pr⟩ hn
    simp only [Forest.preorder, List.mem_cons, List.mem_append, not_or] at hn
    have hrn : r ≠ n := fun e => hn.1 e.symm
    have hrest := ihr q pr hn.2.2
    refine ⟨by simp [I.parent, hrn, a], ihk _ pk hn.2.1, ?_⟩
    by_cases hrs : r = s
    · subst hrs
      simp only [if_true]
      refine ⟨?_, trivial, hrest⟩
      rw [I.parent, if_pos rfl, ← hp, a]
    · simpa only [if_neg hrs] using hrest

/-- The whole effect of `insertSiblingAfter(s, n)` on a stored, index-consistent tree, for a
non-root node `s` and a new object `n` that has no `children`. -/
theorem insertSiblingAfter_tree (h : Heap) (lastId : Nat) (root : Ref) (kids : Forest)
    (s n : Ref) (T : TreeAt h root kids) (inv : ∀ x ∈ kids.preorder, IndexOK h x)
    (hs : s ∈ kids.preorder) (hn : n ∉ (Forest.cons root kids .nil).preorder)
    (hnk : (h n).children = none) :
    ∃ h2 p cs i, insertSiblingAfter h lastId s n = .ok (h2, lastId + 1)
      ∧ (h s).parent = some p ∧ (h p).children = some cs ∧ (h s).siblingIndex = some i
      ∧ cs[i]? = some s ∧ p ∈ (Forest.cons root kids .nil).preorder
      ∧ Inserted h h2 lastId p cs i n
      ∧ TreeAt h2 root (kids.insertAfter s n)
      ∧ (∀ x ∈ (kids.insertAfter s n).preorder, IndexOK h2 x) := by
  obtain ⟨p, cs, i, hp, hc, hi, hcs⟩ := inv s hs
  obtain ⟨y, hy, hpy⟩ := T.parent_in_tree hs
  have hyp : y = p := Option.some.inj (hpy.symm.trans hp)
  subst hyp
  have hnp : n ≠ y := fun e => hn (e ▸ hy)
  have hns : n ≠ s := fun e => hn (by simp [Forest.preorder, e ▸ hs])
  have hroot : root ≠ s := by
    have := T.nodup
    simp only [Forest.preorder, List.append_nil, List.nodup_cons] at this
    exact fun e => this.1 (e ▸ hs)
  obtain ⟨h2, run, I⟩ := insertSiblingAfter_run h lastId s n y cs i hp hc hi hns hnp
  have shape : (Forest.cons root kids .nil).insertAfter s n
      = .cons root (kids.insertAfter s n) .nil := by
    simp [Forest.insertAfter, hroot]
  refine ⟨h2, y, cs, i, run, hp, hc, hi, hcs, hy, I, ⟨?_, ?_, ?_⟩, ?_⟩
  · rw [← shape]
    exact Holds_insert I hp hc hcs hnk hnp _ none T.holds T.parents T.nodup
  · rw [← shape]
    exact Forest.nodup_insertAfter s n _ T.nodup hn
  · rw [← shape]
    exact Parents_insert I hp _ none T.parents hn
  · intro x hx
    by_cases hxc : x ∈ spliceIn cs (i + 1) n
    · obtain ⟨j, hj, hsj⟩ := I.index x hxc
      refine ⟨y, spliceIn cs (i + 1) n, j, ?_, by simp [I.children], hsj, hj⟩
      rw [I.parent]
      by_cases hxn : x = n
      · simp [hxn]
      · simp only [if_neg hxn]
        rcases (mem_spliceIn _ _ _ _).mp hxc with e | e
        · exact absurd e hxn
        · exact kids_parent _ none T.holds T.parents y hy x (by simp [Node.kids, hc, e])
    · have hxn : x ≠ n := fun e => hxc ((mem_spliceIn _ _ _ _).mpr (Or.inl e))
      have hxk : x ∈ kids.preorder := by
        rcases (Forest.mem_insertAfter s n kids x).mp hx with e | ⟨e, _⟩
        · exact e
        · exact absurd e hxn
      obtain ⟨p2, cs2, j, hp2, hc2, hj, hcj⟩ := inv x hxk
      have hp2y : p2 ≠ y := by
        intro e
        subst e
        rw [hc] at hc2
        have : cs2 = cs := (Option.some.inj hc2).symm
        subst this
        exact hxc ((mem_spliceIn _ _ _ _).mpr (Or.inr (List.getElem?_mem hcj)))
      refine ⟨p2, cs2, j, by simp [I.parent, hxn, hp2], by simp [I.children, hp2y, hc2], ?_,
        hcj⟩
      rw [I.indexOther x hxc, hj]

/-! ## `deleteChild` on a stored tree -/

theorem mem_of_mem_spliceOut {cs : List Ref} {i : Nat} {x : Ref} (hx : x ∈ spliceOut cs i) :
    x ∈ cs := by
  unfold spliceOut at hx
  rcases List.mem_append.mp hx with hx | hx
  · exact List.mem_of_mem_take hx
  · exact List.mem_of_mem_drop hx

theorem mem_spliceOut_of_ne {cs : List Ref} {i j : Nat} {x : Ref} (hj : cs[j]? = some x)
    (hne : j ≠ i) : x ∈ spliceOut cs i := by
  unfold spliceOut
  have hlt : j < cs.length := by
    by_contra hge
    rw [List.getElem?_eq_none (by omega)] at hj
    exact Option.noConfusion hj
  rcases Nat.lt_or_gt_of_ne hne with hlt2 | hgt
  · apply List.mem_append_left
    have : (cs.take i)[j]? = some x := by rw [List.getElem?_take_of_lt hlt2]; exact hj
    exact List.getElem?_mem this
  · apply List.mem_append_right
    have : (cs.drop (i + 1))[j - (i + 1)]? = some x := by
      rw [List.getElem?_drop]
      have : i + 1 + (j - (i + 1)) = j := by omega
      rw [this]; exact hj
    exact List.getElem?_mem this

theorem deleteChild_run (h : Heap) (c p : Ref) (cs : List Ref) (i : Nat)
    (hp : (h c).parent = some p) (hc : (h p).children = some cs)
    (hi : (h c).siblingIndex = some i) :
    ∃ h2, deleteChild h c = .ok h2 ∧ Deleted h h2 p cs i := by
  obtain ⟨h1, hh1⟩ : ∃ h1 : Heap, h1 = h.set p
      { h p with children := some (spliceOut cs i) } := ⟨_, rfl⟩
  have e1 : ∀ x, x ≠ p → h1 x = h x := fun x hx => by rw [hh1, Heap.set_other _ _ _ _ hx]
  have e1p : h1 p = { h p with children := some (spliceOut cs i) } := by
    rw [hh1, Heap.set_same]
  have e1c : (h1 c).parent = some p := by
    by_cases hcp : c = p
    · subst hcp; rw [e1p]; exact hp
    · rw [e1 c hcp]; exact hp
  refine ⟨reindexLoop (spliceOut cs i) 0 h1, ?_, ?_⟩
  · simp only [deleteChild, hp, hc, hi, ← hh1, e1c]
    simp [reindexChildren, e1p]
  · constructor
    · intro x
      obtain ⟨si, hsi⟩ := reindexLoop_fields (spliceOut cs i) 0 h1 x
      rw [hsi]
      by_cases hx : x = p
      · subst hx; simp [e1p]
      · simp [hx, e1 x hx]
    · intro x hx
      obtain ⟨j, hj, hs⟩ := reindexLoop_index (spliceOut cs i) 0 h1 x hx
      exact ⟨j, hj, by simpa using hs⟩
    · intro x hx
      rw [reindexLoop_other _ _ _ _ hx]
      by_cases hxp : x = p
      · subst hxp; simp [e1p]
      · rw [e1 x hxp]
    · intro x
      obtain ⟨si, hsi⟩ := reindexLoop_fields (spliceOut cs i) 0 h1 x
      rw [hsi]
      by_cases hxp : x = p
      · subst hxp; simp [e1p]
      · simp [e1 x hxp]

theorem Forest.remove_sublist (c : Ref) : ∀ F : Forest,
    (F.remove c).preorder.Sublist F.preorder := by
  intro F
  induction F with
  | nil => simp [Forest.remove, Forest.preorder]
  | cons r kids rest ihk ihr =>
    by_cases hrc : r = c
    · simp only [Forest.remove, if_pos hrc, Forest.preorder]
      exact (ihr.trans (List.sublist_append_right _ _)).trans (List.sublist_cons_self _ _)
    · simp only [Forest.remove, if_neg hrc, Forest.preorder]
      exact List.Sublist.cons₂ r (List.Sublist.append ihk ihr)

theorem Forest.not_mem_remove (c : Ref) : ∀ F : Forest, c ∉ (F.remove c).preorder := by
  intro F
  induction F with
  | nil => simp [Forest.remove, Forest.preorder]
  | cons r kids rest ihk ihr =>
    by_cases hrc : r = c
    · simpa only [Forest.remove, if_pos hrc] using ihr
    · have hcr : ¬ c = r := fun e => hrc e.symm
      simp only [Forest.remove, if_neg hrc, Forest.preorder, List.mem_cons, List.mem_append,
        hcr, false_or, not_or]
      exact ⟨ihk, ihr⟩

theorem Forest.roots_remove_of_not_mem (c : Ref) : ∀ (F : Forest),
    c ∉ F.roots → (F.remove c).roots = F.roots := by
  intro F
  induction F with
  | nil => intro _; rfl
  | cons r kids rest _ ihr =>
    intro hc
    simp only [Forest.roots, List.mem_cons, not_or] at hc
    have hrc : r ≠ c := fun e => hc.1 e.symm
    simp [Forest.remove, if_neg hrc, Forest.roots, ihr hc.2]

theorem Forest.roots_remove (c : Ref) : ∀ (F : Forest) (i : Nat),
    F.roots.Nodup → F.roots[i]? = some c → (F.remove c).roots = spliceOut F.roots i := by
  intro F
  induction F with
  | nil => intro i _ hi; simp [Forest.roots] at hi
  | cons r kids rest _ ihr =>
    intro i nd hi
    simp only [Forest.roots, List.nodup_cons] at nd hi
    by_cases hrc : r = c
    · subst hrc
      have hi0 : i = 0 := by
        cases i with
        | zero => rfl
        | succ j =>
          simp only [List.getElem?_cons_succ] at hi
          exact absurd (List.getElem?_mem hi) nd.1
      subst hi0
      simp [Forest.remove, Forest.roots, spliceOut,
        Forest.roots_remove_of_not_mem _ rest nd.1]
    · cases i with
      | zero => simp at hi; exact absurd hi hrc
      | succ j =>
        simp only [List.getElem?_cons_succ] at hi
        simp [Forest.remove, if_neg hrc, Forest.roots, ihr j nd.2 hi, spliceOut]

theorem Holds_remove {h h2 : Heap} {p : Ref} {cs : List Ref} {i : Nat} {c : Ref}
    (D : Deleted h h2 p cs i) (hp : (h c).parent = some p)
    (hc : (h p).children = some cs) (hcs : cs[i]? = some c) :
    ∀ (F : Forest) (q : Option Ref), Holds h F → Parents h q F → F.preorder.Nodup →
      Holds h2 (F.remove c) := by
  intro F
  induction F with
  | nil => intro _ _ _ _; trivial
  | cons r kids rest ihk ihr =>
    intro q ⟨hk, holdk, holdr⟩ ⟨_, pk, pr⟩ nd
    simp only [Forest.preorder, List.nodup_cons, List.nodup_append] at nd
    obtain ⟨_, ndk, ndr, _⟩ := nd
    have hrest := ihr q holdr pr ndr
    by_cases hrc : r = c
    · simpa only [Forest.remove, if_pos hrc] using hrest
    · simp only [Forest.remove, if_neg hrc]
      refine ⟨?_, ihk _ holdk pk ndk, hrest⟩
      by_cases hrp : r = p
      · subst hrp
        have hcsk : cs = kids.roots := by simpa [Node.kids, hc] using hk
        subst hcsk
        rw [Forest.roots_remove c kids i (Forest.roots_nodup ndk) hcs]
        simp [Node.kids, D.children]
      · have hs : c ∉ kids.roots := by
          intro hs
          have := Parents_root kids _ pk c hs
          rw [hp] at this
          exact hrp (Option.some.inj this).symm
        rw [Forest.roots_remove_of_not_mem c kids hs, ← hk]
        simp [Node.kids, D.children, hrp]

theorem Parents_remove {h h2 : Heap} (c : Ref)
    (hpar : ∀ x, (h2 x).parent = (h x).parent) :
    ∀ (F : Forest) (q : Option Ref), Parents h q F → Parents h2 q (F.remove c) := by
  intro F
  induction F with
  | nil => intro _ _; trivial
  | cons r kids rest ihk ihr =>
    intro q ⟨a, pk, pr⟩
    by_cases hrc : r = c
    · simpa only [Forest.remove, if_pos hrc] using ihr q pr
    · simp only [Forest.remove, if_neg hrc]
      exact ⟨by rw [hpar, a], ihk _ pk, ihr q pr⟩

/-- The whole effect of `deleteChild(c)` on a stored, index-consistent tree, for a non-root
node `c`. -/
theorem deleteChild_tree (h : Heap) (root : Ref) (kids : Forest) (c : Ref)
    (T : TreeAt h root kids) (inv : ∀ x ∈ kids.preorder, IndexOK h x)
    (hc : c ∈ kids.preorder) :
    ∃ h2 p cs i, deleteChild h c = .ok h2
      ∧ (h c).parent = some p ∧ (h p).children = some cs ∧ (h c).siblingIndex = some i
      ∧ cs[i]? = some c
      ∧ Deleted h h2 p cs i
      ∧ TreeAt h2 root (kids.remove c)
      ∧ (∀ x ∈ (kids.remove c).preorder, IndexOK h2 x) := by
  obtain ⟨p, cs, i, hp, hch, hi, hcs⟩ := inv c hc
  obtain ⟨y, hy, hpy⟩ := T.parent_in_tree hc
  have hyp : y = p := Option.some.inj (hpy.symm.trans hp)
  subst hyp
  have hroot : root ≠ c := by
    have := T.nodup
    simp only [Forest.preorder, List.append_nil, List.nodup_cons] at this
    exact fun e => this.1 (e ▸ hc)
  obtain ⟨h2, run, D⟩ := deleteChild_run h c y cs i hp hch hi
  have shape : (Forest.cons root kids .nil).remove c = .cons root (kids.remove c) .nil := by
    simp [Forest.remove, hroot]
  refine ⟨h2, y, cs, i, run, hp, hch, hi, hcs, D, ⟨?_, ?_, ?_⟩, ?_⟩
  · rw [← shape]
    exact Holds_remove D hp hch hcs _ none T.holds T.parents T.nodup
  · rw [← shape]
    exact T.nodup.sublist (Forest.remove_sublist c _)
  · rw [← shape]
    exact Parents_remove c (fun x => (D.others x).1) _ none T.parents
  · intro x hx
    have hxk : x ∈ kids.preorder := (Forest.remove_sublist c kids).subset hx
    have hxc : x ≠ c := fun e => Forest.not_mem_remove c kids (e ▸ hx)
    by_cases hxs : x ∈ spliceOut cs i
    · obtain ⟨j, hj, hsj⟩ := D.index x hxs
      refine ⟨y, spliceOut cs i, j, ?_, by simp [D.children], hsj, hj⟩
      rw [(D.others x).1]
      exact kids_parent _ none T.holds T.parents y hy x
        (by simp [Node.kids, hch, mem_of_mem_spliceOut hxs])
    · obtain ⟨p2, cs2, j, hp2, hc2, hj, hcj⟩ := inv x hxk
      have hp2y : p2 ≠ y := by
        intro e
        subst e
        rw [hch] at hc2
        have : cs2 = cs := (Option.some.inj hc2).symm
        subst this
        have hji : j ≠ i := by
          intro e
          subst e
          rw [hcs] at hcj
          exact hxc (Option.some.inj hcj).symm
        exact hxs (mem_spliceOut_of_ne hcj hji)
      refine ⟨p2, cs2, j, by simp [(D.others x).1, hp2], by simp [D.children, hp2y, hc2], ?_,
        hcj⟩
      rw [D.indexOther x hxs, hj]

/-! ## The indexing invariant (C3) -/

theorem TreeAt_tagged : TreeAt taggedHeap 10 seedKids :=
  ⟨by decide, by decide, by decide⟩

theorem IndexOK_tagged : ∀ x ∈ seedKids.preorder, IndexOK taggedHeap x := by
  decide

/-- Claim C3. On a heap that stores a tree in which every non-root node `n` satisfies
`n.parent.children[n.siblingIndex] === n`: `insertSiblingAfter(sibling, node)`, for a
non-root `sibling` and a new childless object `node`, returns and leaves the tree with `node`
right after `sibling`, and `deleteChild(child)`, for a non-root `child`, returns and leaves
the tree without the subtree of `child`; in both results every non-root node of the tree,
the inserted one included, satisfies the indexing expression again. -/
theorem indexing_invariant (h : Heap) (lastId : Nat) (root : Ref) (kids : Forest)
    (T : TreeAt h root kids) (inv : ∀ x ∈ kids.preorder, IndexOK h x) :
    (∀ sibling node, sibling ∈ kids.preorder →
        node ∉ (Forest.cons root kids .nil).preorder → (h node).children = none →
        ∃ h2, insertSiblingAfter h lastId sibling node = .ok (h2, lastId + 1)
          ∧ TreeAt h2 root (kids.insertAfter sibling node)
          ∧ node ∈ (kids.insertAfter sibling node).preorder
          ∧ ∀ x ∈ (kids.insertAfter sibling node).preorder, IndexOK h2 x)
    ∧ (∀ child, child ∈ kids.preorder →
        ∃ h2, deleteChild h child = .ok h2
          ∧ TreeAt h2 root (kids.remove child)
          ∧ ∀ x ∈ (kids.remove child).preorder, IndexOK h2 x) := by
  constructor
  · intro sibling node hs hn hnk
    obtain ⟨h2, p, cs, i, run, -, -, -, -, -, -, T2, inv2⟩ :=
      insertSiblingAfter_tree h lastId root kids sibling node T inv hs hn hnk
    exact ⟨h2, run, T2, (Forest.mem_insertAfter _ _ _ _).mpr (Or.inr ⟨rfl, hs⟩), inv2⟩
  · intro child hc
    obtain ⟨h2, p, cs, i, run, -, -, -, -, -, T2, inv2⟩ :=
      deleteChild_tree h root kids child T inv hc
    exact ⟨h2, run, T2, inv2⟩

theorem indexing_invariant_witness :
    (∃ h2, insertSiblingAfter taggedHeap 8 14 50 = .ok (h2, 9)
        ∧ TreeAt h2 10 (seedKids.insertAfter 14 50)
        ∧ 50 ∈ (seedKids.insertAfter 14 50).preorder
        ∧ ∀ x ∈ (seedKids.insertAfter 14 50).preorder, IndexOK h2 x)
    ∧ (∃ h2, deleteChild taggedHeap 12 = .ok h2
        ∧ TreeAt h2 10 (seedKids.remove 12)
        ∧ ∀ x ∈ (seedKids.remove 12).preorder, IndexOK h2 x) :=
  ⟨(indexing_invariant taggedHeap 8 10 seedKids TreeAt_tagged IndexOK_tagged).1 14 50
      (by decide) (by decide) rfl,
    (indexing_invariant taggedHeap 8 10 seedKids TreeAt_tagged IndexOK_tagged).2 12
      (by decide)⟩

/-! ## Ids (C4) -/

theorem Parents_of_Linked {h : Heap} : ∀ (F : Forest) (p : Ref) (i : Nat),
    Linked h p i F → Parents h (some p) F := by
  intro F
  induction F with
  | nil => intro _ _ _; trivial
  | cons r kids rest ihk ihr =>
    intro p i ⟨a, _, c, d⟩
    exact ⟨a, ihk r 0 c, ihr p (i + 1) d⟩

/-- The session right after tagging satisfies the invariant. -/
theorem Good_tagged (h : Heap) (root : Ref) (kids : Forest)
    (hold : Holds h (.cons root kids .nil))
    (nodup : (Forest.cons root kids .nil).preorder.Nodup)
    (hroot : (h root).parent = none)
    (hout : ∀ x, x ∉ (Forest.cons root kids .nil).preorder → (h x).id = none)
    (fuel : Nat) (hfuel : kids.height < fuel) :
    ∃ h2, retagTree fuel h root 0 = .ok (kids.preorder.length, h2)
      ∧ Session.Good root ⟨h2, kids.preorder.length, kids⟩ := by
  obtain ⟨h2, run, ids, lk, content, hpar, frame⟩ :=
    retagTree_root h root kids hold nodup fuel hfuel
  have hc : ∀ x, (h2 x).children = (h x).children := fun x => (content x).2.2.1
  have hold2 : Holds h2 (.cons root kids .nil) := Holds_congr hc _ hold
  have idOf : ∀ x ∈ (Forest.cons root kids .nil).preorder,
      ∃ k, (Forest.cons root kids .nil).preorder[k]? = some x ∧ (h2 x).id = some k := by
    intro x hx
    obtain ⟨k, hk⟩ := List.getElem?_of_mem hx
    exact ⟨k, hk, ids k x hk⟩
  refine ⟨h2, run, ⟨⟨hold2, nodup, ⟨by rw [hpar, hroot], Parents_of_Linked _ _ _ lk, trivial⟩⟩,
    ?_, ?_, ?_, ?_⟩⟩
  · have h2k : (h2 root).kids = kids.roots := hold2.1
    exact IndexOK_of_Linked h2 kids root 0 [] (by simpa using h2k) rfl hold2.2.1 lk
  · intro x hx
    obtain ⟨k, _, hk⟩ := idOf x hx
    exact ⟨k, hk⟩
  · intro x hx y hy e
    obtain ⟨k, hkx, hk⟩ := idOf x hx
    obtain ⟨k2, hky, hk2⟩ := idOf y hy
    rw [hk, hk2] at e
    have : k = k2 := Option.some.inj e
    subst this
    rw [hkx] at hky
    exact Option.some.inj hky
  · intro x k hk0
    have hk : (h2 x).id = some k := hk0
    by_cases hx : x ∈ (Forest.cons root kids .nil).preorder
    · obtain ⟨k2, hkx, hk2⟩ := idOf x hx
      rw [hk2] at hk
      have : k2 = k := Option.some.inj hk
      subst this
      have hlt : k2 < (Forest.cons root kids .nil).preorder.length := by
        by_contra hge
        rw [List.getElem?_eq_none (by omega)] at hkx
        exact Option.noConfusion hkx
      simp only [Forest.preorder, List.append_nil, List.length_cons] at hlt
      show k2 ≤ kids.preorder.length
      omega
    · rw [frame x hx, hout x hx] at hk
      exact Option.noConfusion hk

/-- What `insertSiblingAfter` does to a session that satisfies the invariant. -/
theorem Good_insert (root : Ref) (σ : Session) (G : σ.Good root) (s n : Ref)
    (hs : s ∈ σ.kids.preorder) (hn : n ∉ σ.nodes root) (hnk : (σ.heap n).children = none) :
    ∃ h2, insertSiblingAfter σ.heap σ.lastId s n = .ok (h2, σ.lastId + 1)
      ∧ (h2 n).id = some (σ.lastId + 1)
      ∧ (∀ x, x ≠ n → (h2 x).id = (σ.heap x).id)
      ∧ Session.Good root ⟨h2, σ.lastId + 1, σ.kids.insertAfter s n⟩ := by
  obtain ⟨h2, p, cs, i, run, -, -, -, -, -, I, T2, inv2⟩ :=
    insertSiblingAfter_tree σ.heap σ.lastId root σ.kids s n G.tree G.index hs hn hnk
  have hmem : ∀ x, x ∈ (Forest.cons root (σ.kids.insertAfter s n) .nil).preorder →
      x = n ∨ x ∈ σ.nodes root := by
    intro x hx
    simp only [Forest.preorder, List.append_nil, List.mem_cons, Forest.mem_insertAfter] at hx
    simp only [Session.nodes, Forest.preorder, List.append_nil, List.mem_cons]
    tauto
  have hid : ∀ x, x ≠ n → (h2 x).id = (σ.heap x).id := fun x hx => (I.others x hx).1
  have hold : ∀ x ∈ σ.nodes root, ∀ k, (h2 x).id = some k → k ≤ σ.lastId := by
    intro x hx k hk
    have hxn : x ≠ n := fun e => hn (e ▸ hx)
    rw [hid x hxn] at hk
    exact G.idBound x k hk
  refine ⟨h2, run, I.fresh.1, hid, ⟨T2, inv2, ?_, ?_, ?_⟩⟩
  · intro x hx
    rcases hmem x hx with rfl | hx
    · exact ⟨_, I.fresh.1⟩
    · have hxn : x ≠ n := fun e => hn (e ▸ hx)
      rw [hid x hxn]; exact G.idSome x hx
  · intro x hx y hy e0
    have e : (h2 x).id = (h2 y).id := e0
    rcases hmem x hx with hxn | hx1
    · rcases hmem y hy with hyn | hy1
      · rw [hxn, hyn]
      · rw [hxn, I.fresh.1] at e
        have := hold y hy1 (σ.lastId + 1) e.symm
        omega
    · rcases hmem y hy with hyn | hy1
      · rw [hyn, I.fresh.1] at e
        have := hold x hx1 (σ.lastId + 1) e
        omega
      · have hxn : x ≠ n := fun e => hn (e ▸ hx1)
        have hyn : y ≠ n := fun e => hn (e ▸ hy1)
        rw [hid x hxn, hid y hyn] at e
        exact G.idInj x hx1 y hy1 e
  · intro x k hk
    by_cases hxn : x = n
    · subst hxn
      rw [I.fresh.1] at hk
      have : σ.lastId + 1 = k := Option.some.inj hk
      show k ≤ σ.lastId + 1
      omega
    · rw [hid x hxn] at hk
      have := G.idBound x k hk
      show k ≤ σ.lastId + 1
      omega

/-- What `deleteChild` does to a session that satisfies the invariant. -/
theorem Good_delete (root : Ref) (σ : Session) (G : σ.Good root) (c : Ref)
    (hc : c ∈ σ.kids.preorder) :
    ∃ h2, deleteChild σ.heap c = .ok h2
      ∧ (∀ x, (h2 x).id = (σ.heap x).id)
      ∧ Session.Good root ⟨h2, σ.lastId, σ.kids.remove c⟩ := by
  obtain ⟨h2, p, cs, i, run, -, -, -, -, D, T2, inv2⟩ :=
    deleteChild_tree σ.heap root σ.kids c G.tree G.index hc
  have hid : ∀ x, (h2 x).id = (σ.heap x).id := fun x => (D.others x).2.1
  have hmem : ∀ x, x ∈ (Forest.cons root (σ.kids.remove c) .nil).preorder →
      x ∈ σ.nodes root := by
    intro x hx
    simp only [Forest.preorder, List.append_nil, List.mem_cons] at hx
    simp only [Session.nodes, Forest.preorder, List.append_nil, List.mem_cons]
    rcases hx with e | hx
    · exact Or.inl e
    · exact Or.inr ((Forest.remove_sublist c σ.kids).subset hx)
  refine ⟨h2, run, hid, ⟨T2, inv2, ?_, ?_, ?_⟩⟩
  · intro x hx
    rw [hid x]; exact G.idSome x (hmem x hx)
  · intro x hx y hy e
    rw [hid x, hid y] at e
    exact G.idInj x (hmem x hx) y (hmem y hy) e
  · intro x k hk
    rw [hid x] at hk
    exact G.idBound x k hk

theorem Good_step (root : Ref) (σ τ : Session) (G : σ.Good root) (st : Step root σ τ) :
    τ.Good root := by
  cases st with
  | insert s n h2 l2 hs hn hnk run =>
    obtain ⟨h3, run3, -, -, G3⟩ := Good_insert root σ G s n hs hn hnk
    rw [run] at run3
    injection run3 with e
    injection e with e1 e2
    subst e1; subst e2
    exact G3
  | delete c h2 hc run =>
    obtain ⟨h3, run3, -, G3⟩ := Good_delete root σ G c hc
    rw [run] at run3
    injection run3 with e
    subst e
    exact G3

theorem Good_reachable (root : Ref) (σ τ : Session) (G : σ.Good root)
    (r : Relation.ReflTransGen (Step root) σ τ) : τ.Good root := by
  induction r with
  | refl => exact G
  | tail _ st ih => exact Good_step root _ _ ih st

theorem seedHeap_id : ∀ x, (seedHeap x).id = none := by
  intro x
  unfold seedHeap
  split <;> rfl

/-- Claim C4. Start from a heap that stores a finite tree whose root has no parent and in
which no object outside the tree carries an id.  `retagTree` returns, and with `lastId` set
to its result, after every finite sequence of `insertSiblingAfter` and `deleteChild` calls:
every node of the tree has an id and the ids of the tree are pairwise distinct; a further
`insertSiblingAfter` returns, gives the new node the id `lastId + 1`, which is strictly
greater than every id carried by any object of the heap (nodes of the tree and deleted nodes
alike), and changes the id of no other object; a further `deleteChild` returns and changes
no id. -/
theorem ids_unique_and_stable (h : Heap) (root : Ref) (kids : Forest)
    (hold : Holds h (.cons root kids .nil))
    (nodup : (Forest.cons root kids .nil).preorder.Nodup)
    (hroot : (h root).parent = none)
    (hout : ∀ x, x ∉ (Forest.cons root kids .nil).preorder → (h x).id = none)
    (fuel : Nat) (hfuel : kids.height < fuel) :
    ∃ h1 l1, retagTree fuel h root 0 = .ok (l1, h1)
      ∧ ∀ σ, Relation.ReflTransGen (Step root) ⟨h1, l1, kids⟩ σ →
        (∀ x ∈ σ.nodes root, ∃ k, (σ.heap x).id = some k)
        ∧ (∀ x ∈ σ.nodes root, ∀ y ∈ σ.nodes root, (σ.heap x).id = (σ.heap y).id → x = y)
        ∧ (∀ s n, s ∈ σ.kids.preorder → n ∉ σ.nodes root → (σ.heap n).children = none →
            ∃ h2, insertSiblingAfter σ.heap σ.lastId s n = .ok (h2, σ.lastId + 1)
              ∧ (h2 n).id = some (σ.lastId + 1)
              ∧ (∀ x k, (σ.heap x).id = some k → k < σ.lastId + 1)
              ∧ (∀ x, x ≠ n → (h2 x).id = (σ.heap x).id))
        ∧ (∀ c, c ∈ σ.kids.preorder →
            ∃ h2, deleteChild σ.heap c = .ok h2 ∧ ∀ x, (h2 x).id = (σ.heap x).id) := by
  obtain ⟨h1, run, G⟩ := Good_tagged h root kids hold nodup hroot hout fuel hfuel
  refine ⟨h1, kids.preorder.length, run, ?_⟩
  intro σ reach
  have Gσ := Good_reachable root _ σ G reach
  refine ⟨Gσ.idSome, Gσ.idInj, ?_, ?_⟩
  · intro s n hs hn hnk
    obtain ⟨h2, run2, hnew, hid, -⟩ := Good_insert root σ Gσ s n hs hn hnk
    exact ⟨h2, run2, hnew, fun x k hk => Nat.lt_succ_of_le (Gσ.idBound x k hk), hid⟩
  · intro c hc
    obtain ⟨h2, run2, hid, -⟩ := Good_delete root σ Gσ c hc
    exact ⟨h2, run2, hid⟩

theorem ids_unique_and_stable_witness :
    ∃ h1 l1, retagTree 3 seedHeap 10 0 = .ok (l1, h1)
      ∧ ∀ σ, Relation.ReflTransGen (Step 10) ⟨h1, l1, seedKids⟩ σ →
        (∀ x ∈ σ.nodes 10, ∃ k, (σ.heap x).id = some k)
        ∧ (∀ x ∈ σ.nodes 10, ∀ y ∈ σ.nodes 10, (σ.heap x).id = (σ.heap y).id → x = y)
        ∧ (∀ s n, s ∈ σ.kids.preorder → n ∉ σ.nodes 10 → (σ.heap n).children = none →
            ∃ h2, insertSiblingAfter σ.heap σ.lastId s n = .ok (h2, σ.lastId + 1)
              ∧ (h2 n).id = some (σ.lastId + 1)
              ∧ (∀ x k, (σ.heap x).id = some k → k < σ.lastId + 1)
              ∧ (∀ x, x ≠ n → (h2 x).id = (σ.heap x).id))
        ∧ (∀ c, c ∈ σ.kids.preorder →
            ∃ h2, deleteChild σ.heap c = .ok h2 ∧ ∀ x, (h2 x).id = (σ.heap x).id) :=
  ids_unique_and_stable seedHeap 10 seedKids Holds_seed (by decide) rfl
    (fun x _ => seedHeap_id x) 3 (by decide)

/-! ## Descending to a literal -/

theorem descend_total {h : Heap} (left : Bool) :
    ∀ (F : Forest), Holds h F →
      (∀ x ∈ F.preorder, (h x).type = "list" → (h x).kids ≠ []) →
      ∀ x ∈ F.preorder, ∃ y ∈ F.preorder, Descends h left x y ∧ (h y).type ≠ "list"
        ∧ ∀ fuel, F.height ≤ fuel → descend fuel h left (some x) = .ok y := by
  intro F
  induction F with
  | nil => intro _ _ x hx; simp [Forest.preorder] at hx
  | cons r kids rest ihk ihr =>
    intro ⟨hk, holdk, holdr⟩ ne x hx
    have nek : ∀ x ∈ kids.preorder, (h x).type = "list" → (h x).kids ≠ [] :=
      fun x hx => ne x (by simp [Forest.preorder, hx])
    have ner : ∀ x ∈ rest.preorder, (h x).type = "list" → (h x).kids ≠ [] :=
      fun x hx => ne x (by simp [Forest.preorder, hx])
    simp only [Forest.preorder, List.mem_cons, List.mem_append] at hx
    rcases hx with rfl | hx | hx
    · by_cases hl : (h x).type = "list"
      · have hne := ne x (by simp [Forest.preorder]) hl
        obtain ⟨a, l, hal⟩ := List.exists_cons_of_ne_nil hne
        have hch := children_of_kids hal
        have hroots : kids.roots = a :: l := by rw [← hk, hal]
        obtain ⟨c, hc, hcmem⟩ : ∃ c, (if left then (a :: l).getLast? else (a :: l).head?)
            = some c ∧ c ∈ a :: l := by
          cases left with
          | true =>
            refine ⟨(a :: l).getLast (by simp), ?_, List.getLast_mem _⟩
            simp [List.getLast?_eq_getLast]
          | false => exact ⟨a, by simp, by simp⟩
        have hck : c ∈ kids.preorder :=
          Forest.roots_subset_preorder kids c (by rw [hroots]; exact hcmem)
        obtain ⟨y, hy, hd, hty, hrun⟩ := ihk holdk nek c hck
        refine ⟨y, by simp [Forest.preorder, hy], Descends.down x c y _ hl hch hc hd, hty, ?_⟩
        intro fuel hf
        simp only [Forest.height] at hf
        obtain ⟨f, rfl⟩ : ∃ f, fuel = f + 1 := ⟨fuel - 1, by omega⟩
        simp only [descend, hl, if_true, hch, hc]
        exact hrun f (by omega)
      · refine ⟨x, by simp [Forest.preorder], Descends.here x hl, hl, ?_⟩
        intro fuel hf
        simp only [Forest.height] at hf
        obtain ⟨f, rfl⟩ : ∃ f, fuel = f + 1 := ⟨fuel - 1, by omega⟩
        simp [descend, hl]
    · obtain ⟨y, hy, hd, hty, hrun⟩ := ihk holdk nek x hx
      refine ⟨y, by simp [Forest.preorder, hy], hd, hty, ?_⟩
      intro fuel hf
      simp only [Forest.height] at hf
      exact hrun fuel (by omega)
    · obtain ⟨y, hy, hd, hty, hrun⟩ := ihr holdr ner x hx
      refine ⟨y, by simp [Forest.preorder, hy], hd, hty, ?_⟩
      intro fuel hf
      simp only [Forest.height] at hf
      exact hrun fuel (by omega)

theorem Up_exists {h : Heap} : ∀ (F : Forest) (q : Option Ref),
    Parents h q F → (q = none ∨ ∃ p n, q = some p ∧ Up h p n) →
    ∀ x ∈ F.preorder, ∃ n, Up h x n := by
  intro F
  induction F with
  | nil => intro _ _ _ x hx; simp [Forest.preorder] at hx
  | cons r kids rest ihk ihr =>
    intro q ⟨a, pk, pr⟩ hq x hx
    have hr : ∃ n, Up h r n := by
      rcases hq with rfl | ⟨p, n, rfl, hp⟩
      · exact ⟨0, Up.root r a⟩
      · exact ⟨n + 1, Up.step r p n a hp⟩
    simp only [Forest.preorder, List.mem_cons, List.mem_append] at hx
    rcases hx with rfl | hx | hx
    · exact hr
    · obtain ⟨n, hn⟩ := hr
      exact ihk (some r) pk (Or.inr ⟨r, n, rfl, hn⟩) x hx
    · exact ihr q pr hq x hx

/-! ## The refocus step of `deleteNodeClimb` -/

theorem arrayAt_succ (cs : List Ref) (i : Nat) : arrayAt cs ((i : Int) + 1) = cs[i + 1]? := by
  unfold arrayAt
  have h1 : ¬ ((i : Int) + 1 < 0) := by omega
  have h2 : ((i : Int) + 1).toNat = i + 1 := by omega
  rw [if_neg h1, h2]

theorem arrayAt_pred (cs : List Ref) (i : Nat) (hi : 1 ≤ i) :
    arrayAt cs ((i : Int) + -1) = cs[i - 1]? := by
  unfold arrayAt
  have h1 : ¬ ((i : Int) + -1 < 0) := by omega
  have h2 : ((i : Int) + -1).toNat = i - 1 := by omega
  rw [if_neg h1, h2]

theorem kids_mem {h : Heap} : ∀ (F : Forest), Holds h F →
    ∀ y ∈ F.preorder, ∀ c ∈ (h y).kids, c ∈ F.preorder := by
  intro F
  induction F with
  | nil => intro _ y hy; simp [Forest.preorder] at hy
  | cons r kids rest ihk ihr =>
    intro ⟨hk, holdk, holdr⟩ y hy c hc
    simp only [Forest.preorder, List.mem_cons, List.mem_append] at hy ⊢
    rcases hy with rfl | hy | hy
    · exact Or.inr (Or.inl (Forest.roots_subset_preorder kids c (hk ▸ hc)))
    · exact Or.inr (Or.inl (ihk holdk y hy c hc))
    · exact Or.inr (Or.inr (ihr holdr y hy c hc))

/-- A child of a node of a stored tree is a non-root node of the tree. -/
theorem TreeAt.child_mem {h : Heap} {root : Ref} {kids : Forest} (T : TreeAt h root kids)
    {p c : Ref} {cs : List Ref} (hp : p ∈ (Forest.cons root kids .nil).preorder)
    (hcs : (h p).children = some cs) (hc : c ∈ cs) : c ∈ kids.preorder := by
  have hck : c ∈ (h p).kids := by simp [Node.kids, hcs, hc]
  have hmem := kids_mem _ T.holds p hp c hck
  have hpar := kids_parent _ none T.holds T.parents p hp c hck
  simp only [Forest.preorder, List.append_nil, List.mem_cons] at hmem
  rcases hmem with e | e
  · have hroot := T.parents.1
    rw [e, hroot] at hpar
    exact Option.noConfusion hpar
  · exact e

/-- The run of `deleteNodeClimb` on a node whose parent has at least two children. -/
theorem deleteNodeClimb_at (h : Heap) (root : Ref) (kids : Forest) (T : TreeAt h root kids)
    (ne : ∀ x ∈ kids.preorder, (h x).type = "list" → (h x).kids ≠ [])
    (D p : Ref) (cs : List Ref) (i : Nat) (hD : D ∈ kids.preorder)
    (hp : (h D).parent = some p) (hc : (h p).children = some cs)
    (hi : (h D).siblingIndex = some i) (hcs : cs[i]? = some D) (h2 : 2 ≤ cs.length)
    (key : String) (es : EditingState) (jumpLeft : Bool)
    (hj : jumpLeft = if i + 1 = cs.length then true else if i = 0 then false
      else decide (key = "Backspace")) :
    ∃ s y, cs[if jumpLeft then i - 1 else i + 1]? = some s ∧ s ∈ kids.preorder
      ∧ y ∈ kids.preorder ∧ (h y).type ≠ "list"
      ∧ (∀ fuel, kids.height ≤ fuel → descend fuel h jumpLeft (some s) = .ok y)
      ∧ Descends h jumpLeft s y
      ∧ ∀ fuel, kids.height < fuel → deleteNodeClimb fuel h es key D
          = .ok ({ focused := true, focusedId := (h y).id,
                   cursorOffset := if jumpLeft then (h y).value.length else 0 },
                 { refocus := none, deleteNode := D }) := by
  have hilt : i < cs.length := by
    by_contra hge
    rw [List.getElem?_eq_none (by omega)] at hcs
    exact Option.noConfusion hcs
  obtain ⟨pp, hpp, hpe⟩ := T.parent_in_tree hD
  have hppp : pp = p := Option.some.inj (hpe.symm.trans hp)
  subst hppp
  have hjt : jumpLeft = true → 1 ≤ i := by
    intro hjl
    by_contra hlt
    have h0 : i = 0 := by omega
    have h1 : ¬ (i + 1 = cs.length) := by omega
    rw [hj, if_neg h1, if_pos h0] at hjl
    exact Bool.noConfusion hjl
  have hjf : jumpLeft = false → i + 1 < cs.length := by
    intro hjl
    by_contra hge
    have h1 : i + 1 = cs.length := by omega
    rw [hj, if_pos h1] at hjl
    exact Bool.noConfusion hjl
  -- the adjacent sibling exists
  obtain ⟨s, hs⟩ : ∃ s, cs[if jumpLeft then i - 1 else i + 1]? = some s := by
    have hlt : (if jumpLeft then i - 1 else i + 1) < cs.length := by
      cases hjl : jumpLeft with
      | true => simp only [if_true]; omega
      | false =>
        have := hjf hjl
        simp only [Bool.false_eq_true, if_false]; omega
    exact ⟨cs[if jumpLeft then i - 1 else i + 1], List.getElem?_eq_getElem hlt⟩
  have hsk : s ∈ kids.preorder := T.child_mem hpp hc (List.getElem?_mem hs)
  obtain ⟨y, hy, hdesc, hty, hrun⟩ := descend_total jumpLeft kids T.holds.2.1 ne s hsk
  refine ⟨s, y, hs, hsk, hy, hty, hrun, hdesc, ?_⟩
  intro fuel hf
  obtain ⟨f, rfl⟩ : ∃ f, fuel = f + 1 := ⟨fuel - 1, by omega⟩
  have hlen : cs.length ≠ 1 := by omega
  have hlast : isLastChild h D = .ok (decide (i + 1 = cs.length)) := by
    simp only [isLastChild, hp, hc, hi]
    congr 1
    simp only [decide_eq_decide]
    omega
  have hfirst : isFirstChild h D = decide (i = 0) := by
    cases i <;> simp [isFirstChild, hi]
  have hjump : (if decide (i + 1 = cs.length) = true then true
      else if isFirstChild h D = true then false
      else if key = "Backspace" then true else false) = jumpLeft := by
    rw [hj, hfirst]
    by_cases h1 : i + 1 = cs.length
    · simp [h1]
    · by_cases h0 : i = 0
      · simp [h1, h0]
      · by_cases hk : key = "Backspace" <;> simp [h1, h0, hk]
  have hstart : (if jumpLeft = true then childBefore h D 1 else childAfter h D 1)
      = .ok (some s) := by
    cases hjl : jumpLeft with
    | true =>
      have hi1 : 1 ≤ i := hjt hjl
      simp only [hjl, if_true] at hs
      simp [childBefore, childAfter, hp, hc, hi, arrayAt_pred cs i hi1, hs]
    | false =>
      simp only [hjl, Bool.false_eq_true, if_false] at hs
      simp [childAfter, hp, hc, hi, arrayAt_succ, hs]
  simp only [deleteNodeClimb, hp, hc, hlen, if_false, hlast, hjump, hstart, hrun f (by omega)]

/-! ## The deletion climb (C9) and the refocus rule (C10) -/

/-- The node a climb stops at: its parent is absent or has at least two children. -/
theorem SoleChain_unique {h : Heap} {x d : Ref} (c : SoleChain h x d) :
    ((h d).parent = none ∨ ∃ p cs, (h d).parent = some p ∧ (h p).children = some cs
      ∧ 2 ≤ cs.length) →
    ∀ d2, SoleChain h x d2 →
      ((h d2).parent = none ∨ ∃ p cs, (h d2).parent = some p ∧ (h p).children = some cs
        ∧ 2 ≤ cs.length) → d = d2 := by
  have stop : ∀ (x p : Ref), (h x).parent = some p → (h p).children = some [x] →
      ((h x).parent = none ∨ ∃ p cs, (h x).parent = some p ∧ (h p).children = some cs
        ∧ 2 ≤ cs.length) → False := by
    intro x p hp hc hb
    rcases hb with e | ⟨p2, cs, e, ec, e2⟩
    · rw [hp] at e; exact Option.noConfusion e
    · rw [hp] at e
      have : p = p2 := Option.some.inj e
      subst this
      rw [hc] at ec
      have : [x] = cs := Option.some.inj ec
      subst this
      simp at e2
  induction c with
  | self x =>
    intro hb d2 c2 _
    cases c2 with
    | self => rfl
    | up _ p _ hp hc _ => exact (stop x p hp hc hb).elim
  | up x p d hp hc _ ih =>
    intro hb d2 c2 hb2
    cases c2 with
    | self => exact (stop x p hp hc hb2).elim
    | up _ p2 _ hp2 hc2 c3 =>
      have : p = p2 := Option.some.inj (hp.symm.trans hp2)
      subst this
      exact ih hb d2 c3 hb2

theorem climb_aux (h : Heap) (root : Ref) (kids : Forest) (T : TreeAt h root kids)
    (inv : ∀ x ∈ kids.preorder, IndexOK h x)
    (ne : ∀ x ∈ kids.preorder, (h x).type = "list" → (h x).kids ≠ [])
    (key : String) (es : EditingState) :
    ∀ (n : Nat) (x : Ref), x ∈ (Forest.cons root kids .nil).preorder → Up h x n →
      ∃ d r, SoleChain h x d
        ∧ ((h d).parent = none ∨ ∃ p cs, (h d).parent = some p ∧ (h p).children = some cs
            ∧ 2 ≤ cs.length)
        ∧ r.2.deleteNode = d
        ∧ (∀ fuel, kids.height + n + 1 ≤ fuel → deleteNodeClimb fuel h es key x = .ok r)
        ∧ (∀ fuel, kids.height + n + 1 ≤ fuel → deleteNodeClimb fuel h es key d = .ok r) := by
  intro n
  induction n with
  | zero =>
    intro x _ up
    cases up with
    | root _ hp =>
      have run : ∀ fuel, kids.height + 0 + 1 ≤ fuel → deleteNodeClimb fuel h es key x
          = .ok (es, { refocus := some false, deleteNode := x }) := by
        intro fuel hf
        obtain ⟨f, rfl⟩ : ∃ f, fuel = f + 1 := ⟨fuel - 1, by omega⟩
        simp [deleteNodeClimb, hp]
      exact ⟨x, _, SoleChain.self x, Or.inl hp, rfl, run, run⟩
  | succ n ih =>
    intro x hx up
    cases up with
    | step _ p _ hp upp =>
      have hxk : x ∈ kids.preorder := by
        simp only [Forest.preorder, List.append_nil, List.mem_cons] at hx
        rcases hx with e | e
        · have hroot := T.parents.1
          rw [e, hroot] at hp
          exact Option.noConfusion hp
        · exact e
      obtain ⟨p2, cs, i, hp2, hc, hi, hcs⟩ := inv x hxk
      have : p = p2 := Option.some.inj (hp.symm.trans hp2)
      subst this
      obtain ⟨pp, hpp, hpe⟩ := T.parent_in_tree hxk
      have : pp = p := Option.some.inj (hpe.symm.trans hp)
      subst this
      have hilt : i < cs.length := by
        by_contra hge
        rw [List.getElem?_eq_none (by omega)] at hcs
        exact Option.noConfusion hcs
      by_cases hlen : cs.length = 1
      · have hcsx : cs = [x] := by
          match cs, hlen, hcs, hilt with
          | [a], _, hcs, hilt =>
            have : i = 0 := by simp at hilt; omega
            subst this
            simp at hcs
            rw [hcs]
        subst hcsx
        obtain ⟨d, r, chain, hb, hr, runp, rund⟩ := ih pp hpp upp
        refine ⟨d, r, SoleChain.up x pp d hp hc chain, hb, hr, ?_, ?_⟩
        · intro fuel hf
          obtain ⟨f, rfl⟩ : ∃ f, fuel = f + 1 := ⟨fuel - 1, by omega⟩
          simp only [deleteNodeClimb, hp, hc, List.length_singleton, if_true]
          exact runp f (by omega)
        · intro fuel hf
          exact rund fuel (by omega)
      · have h2 : 2 ≤ cs.length := by omega
        obtain ⟨s, y, -, -, -, -, -, -, run⟩ := deleteNodeClimb_at h root kids T ne x pp cs i
          hxk hp hc hi hcs h2 key es _ rfl
        have run2 : ∀ fuel, kids.height + (n + 1) + 1 ≤ fuel →
            deleteNodeClimb fuel h es key x = .ok _ := fun fuel hf => run fuel (by omega)
        exact ⟨x, _, SoleChain.self x, Or.inr ⟨pp, cs, hp, hc, h2⟩, rfl, run2, run2⟩

/-- Claim C9, as stated, fails on a tree with an empty list.  `emptyListHeap` stores an
index-consistent tree `( () _ )` whose second child is an empty literal; `deleteNodeClimb`
on that literal returns nothing at any fuel, and from fuel 3 on it ends in the `TypeError`
of reading `type` of `undefined` inside the empty list. -/
theorem deleteNodeClimb_empty_list_throws :
    TreeAt emptyListHeap 0 emptyListKids
      ∧ (∀ x ∈ emptyListKids.preorder, IndexOK emptyListHeap x)
      ∧ (emptyListHeap 2).type = "proto" ∧ (emptyListHeap 2).value = ""
      ∧ (∀ fuel es key r, deleteNodeClimb fuel emptyListHeap es key 2 ≠ .ok r)
      ∧ (∀ fuel es key, deleteNodeClimb (fuel + 3) emptyListHeap es key 2
          = .error .typeError) := by
  refine ⟨⟨by decide, by decide, by decide⟩, by decide, rfl, rfl, ?_, ?_⟩
  · intro fuel es key r
    rcases fuel with _ | _ | _ | f <;>
      simp [deleteNodeClimb, emptyListHeap, blank, isLastChild, isFirstChild, childBefore,
        childAfter, arrayAt, descend]
  · intro fuel es key
    simp [deleteNodeClimb, emptyListHeap, blank, isLastChild, isFirstChild, childBefore,
      childAfter, arrayAt, descend]

/-- Claim C9, amended.  On a heap that stores an index-consistent tree without empty lists,
`deleteNodeClimb` on any node `x` of the tree (in particular on an empty literal) returns,
at every fuel from some bound on, a result whose `deleteNode` is the node `d` reached from
`x` by climbing while the node is the sole child of its parent: `d` is `x` or an ancestor of
`x`, every node strictly below `d` on the way is the sole child of its parent, and the
parent of `d` is absent or has at least two children.  The whole result is the one of the
call on `d` itself, so the refocus is decided from the position of `d` among its own
siblings; in particular, when `x` is the only child of a list `l` whose parent has at least
two children, `d` is `l`. -/
theorem deleteNodeClimb_target (h : Heap) (root : Ref) (kids : Forest)
    (T : TreeAt h root kids) (inv : ∀ x ∈ kids.preorder, IndexOK h x)
    (ne : ∀ x ∈ kids.preorder, (h x).type = "list" → (h x).kids ≠ [])
    (x : Ref) (hx : x ∈ (Forest.cons root kids .nil).preorder)
    (key : String) (es : EditingState) :
    ∃ d r N, SoleChain h x d
      ∧ ((h d).parent = none ∨ ∃ p cs, (h d).parent = some p ∧ (h p).children = some cs
          ∧ 2 ≤ cs.length)
      ∧ r.2.deleteNode = d
      ∧ (∀ fuel, N ≤ fuel → deleteNodeClimb fuel h es key x = .ok r)
      ∧ (∀ fuel, N ≤ fuel → deleteNodeClimb fuel h es key d = .ok r)
      ∧ (∀ l p cs, (h x).parent = some l → (h l).children = some [x] →
          (h l).parent = some p → (h p).children = some cs → 2 ≤ cs.length → d = l) := by
  obtain ⟨n, up⟩ := Up_exists _ none T.parents (Or.inl rfl) x hx
  obtain ⟨d, r, chain, hb, hr, runx, rund⟩ := climb_aux h root kids T inv ne key es n x hx up
  refine ⟨d, r, kids.height + n + 1, chain, hb, hr, runx, rund, ?_⟩
  intro l p cs hl hlc hlp hpc h2
  exact SoleChain_unique chain hb l (SoleChain.up x l l hl hlc (SoleChain.self l))
    (Or.inr ⟨p, cs, hlp, hpc, h2⟩)

theorem deleteNodeClimb_target_witness :
    ∃ d r N, SoleChain soleChildHeap 3 d
      ∧ ((soleChildHeap d).parent = none ∨ ∃ p cs, (soleChildHeap d).parent = some p
          ∧ (soleChildHeap p).children = some cs ∧ 2 ≤ cs.length)
      ∧ r.2.deleteNode = d
      ∧ (∀ fuel, N ≤ fuel → deleteNodeClimb fuel soleChildHeap editingState0 "Delete" 3
          = .ok r)
      ∧ (∀ fuel, N ≤ fuel → deleteNodeClimb fuel soleChildHeap editingState0 "Delete" d
          = .ok r)
      ∧ (∀ l p cs, (soleChildHeap 3).parent = some l → (soleChildHeap l).children = some [3] →
          (soleChildHeap l).parent = some p → (soleChildHeap p).children = some cs →
          2 ≤ cs.length → d = l) :=
  deleteNodeClimb_target soleChildHeap 0 soleChildKids ⟨by decide, by decide, by decide⟩
    (by decide) (by decide) 3 (by decide) "Delete" editingState0

/-- Claim C10. On a heap that stores an index-consistent tree of valid nodes without empty
lists, let `d` be a non-root node whose parent has at least two children, at index `i`.
`deleteNodeClimb` on `d` returns (at any fuel above the height of the tree) with `deleteNode = d` and jumps left if `d` is the last child, right if
`d` is the first child, and otherwise left for `Backspace` and right for `Delete`; the new
`focusedId` is the id of the literal `y` reached from the adjacent sibling in that direction
by descending into the last child (left) or the first child (right) of every list on the
way, and `cursorOffset` is the length of the value of `y` when jumping left and 0 when
jumping right. -/
theorem refocus_rule (h : Heap) (root : Ref) (kids : Forest) (T : TreeAt h root kids)
    (inv : ∀ x ∈ kids.preorder, IndexOK h x)
    (typed : ∀ x ∈ kids.preorder, (h x).valid)
    (ne : ∀ x ∈ kids.preorder, (h x).type = "list" → (h x).kids ≠ [])
    (d p : Ref) (cs : List Ref) (hd : d ∈ kids.preorder)
    (hp : (h d).parent = some p) (hc : (h p).children = some cs) (h2 : 2 ≤ cs.length)
    (key : String) (es : EditingState) :
    ∃ i jumpLeft s y,
      (h d).siblingIndex = some i ∧ cs[i]? = some d
      ∧ (i + 1 = cs.length → jumpLeft = true)
      ∧ (i = 0 → jumpLeft = false)
      ∧ (i + 1 ≠ cs.length → i ≠ 0 →
          (key = "Backspace" → jumpLeft = true) ∧ (key = "Delete" → jumpLeft = false))
      ∧ cs[if jumpLeft then i - 1 else i + 1]? = some s
      ∧ Descends h jumpLeft s y ∧ (h y).literal
      ∧ ∀ fuel, kids.height < fuel → deleteNodeClimb fuel h es key d
          = .ok ({ focused := true, focusedId := (h y).id,
                   cursorOffset := if jumpLeft then (h y).value.length else 0 },
                 { refocus := none, deleteNode := d }) := by
  obtain ⟨p2, cs2, i, hp2, hc2, hi, hcs⟩ := inv d hd
  have : p2 = p := Option.some.inj (hp2.symm.trans hp)
  subst this
  have : cs2 = cs := Option.some.inj (hc2.symm.trans hc)
  subst this
  obtain ⟨s, y, hs, -, hy, hty, -, hdesc, run⟩ := deleteNodeClimb_at h root kids T ne d p2 cs2 i
    hd hp hc hi hcs h2 key es
    (if i + 1 = cs2.length then true else if i = 0 then false else decide (key = "Backspace"))
    rfl
  refine ⟨i, _, s, y, hi, hcs, ?_, ?_, ?_, hs, hdesc, ?_, run⟩
  · intro h1; simp [h1]
  · intro h0
    have h1 : ¬ (i + 1 = cs2.length) := by omega
    rw [if_neg h1, if_pos h0]
  · intro h1 h0
    rw [if_neg h1, if_neg h0]
    refine ⟨fun hk => by simp [hk], fun hk => ?_⟩
    have : key ≠ "Backspace" := by rw [hk]; decide
    simp [this]
  · rcases typed y hy with ⟨hl, _⟩ | hlit
    · exact absurd hl hty
    · exact hlit

theorem refocus_rule_witness :
    ∃ i jumpLeft s y,
      (taggedHeap 17).siblingIndex = some i ∧ [16, 17, 18][i]? = some 17
      ∧ (i + 1 = [16, 17, 18].length → jumpLeft = true)
      ∧ (i = 0 → jumpLeft = false)
      ∧ (i + 1 ≠ [16, 17, 18].length → i ≠ 0 →
          ("Backspace" = "Backspace" → jumpLeft = true)
            ∧ ("Backspace" = "Delete" → jumpLeft = false))
      ∧ [16, 17, 18][if jumpLeft then i - 1 else i + 1]? = some s
      ∧ Descends taggedHeap jumpLeft s y ∧ (taggedHeap y).literal
      ∧ ∀ fuel, seedKids.height < fuel → deleteNodeClimb fuel taggedHeap editingState0
          "Backspace" 17
          = .ok ({ focused := true, focusedId := (taggedHeap y).id,
                   cursorOffset := if jumpLeft then (taggedHeap y).value.length else 0 },
                 { refocus := none, deleteNode := 17 }) :=
  refocus_rule taggedHeap 10 seedKids TreeAt_tagged IndexOK_tagged (by decide) (by decide)
    17 15 [16, 17, 18] (by decide) rfl rfl (by decide) "Backspace" editingState0

/-! ## Relabelling: what is left alone -/

theorem Frame.sameFrame (a : Node) : Frame a a :=
  ⟨Eq.refl _, Eq.refl _, Eq.refl _, Eq.refl _, Eq.refl _, Eq.refl _, Eq.refl _⟩

theorem Frame.transFrame {a b c : Node} (x : Frame a b) (y : Frame b c) : Frame a c :=
  ⟨x.value.trans y.value, x.children.trans y.children, x.dropped.trans y.dropped,
    x.id.trans y.id, x.parentId.trans y.parentId, x.parent.trans y.parent,
    x.siblingIndex.trans y.siblingIndex⟩

theorem AttrOnly.sameAttr (h : Heap) : AttrOnly h h := fun _ => ⟨Frame.sameFrame _, Eq.refl _⟩

theorem AttrOnly.transAttr {h h2 h3 : Heap} (a : AttrOnly h h2) (b : AttrOnly h2 h3) :
    AttrOnly h h3 :=
  fun x => ⟨(b x).1.transFrame (a x).1, (b x).2.trans (a x).2⟩

theorem AttrOnly_set (h : Heap) (t : Ref) (as : List String) :
    AttrOnly h (h.set t { h t with attr := as }) := by
  intro x
  by_cases hx : x = t
  · subst hx
    rw [Heap.set_same]
    exact ⟨⟨Eq.refl _, Eq.refl _, Eq.refl _, Eq.refl _, Eq.refl _, Eq.refl _, Eq.refl _⟩,
      Eq.refl _⟩
  · rw [Heap.set_other _ _ _ _ hx]; exact ⟨Frame.sameFrame _, Eq.refl _⟩

theorem Frame_setType (h : Heap) (t : Ref) (ty : String) (x : Ref) :
    Frame ((h.set t { h t with type := ty }) x) (h x)
      ∧ ((h.set t { h t with type := ty }) x).type = (if x = t then ty else (h x).type)
      ∧ ((h.set t { h t with type := ty }) x).attr = (h x).attr := by
  by_cases hx : x = t
  · subst hx
    rw [Heap.set_same, if_pos (Eq.refl _)]
    exact ⟨⟨Eq.refl _, Eq.refl _, Eq.refl _, Eq.refl _, Eq.refl _, Eq.refl _, Eq.refl _⟩,
      Eq.refl _, Eq.refl _⟩
  · rw [Heap.set_other _ _ _ _ hx, if_neg hx]
    exact ⟨Frame.sameFrame _, Eq.refl _, Eq.refl _⟩

theorem AttrOnly_imbueOne (h : Heap) (t : Ref) (a : String) :
    AttrOnly h (imbueOne h t a).2 := by
  unfold imbueOne
  split
  · exact AttrOnly.sameAttr h
  · exact AttrOnly_set h t _

theorem AttrOnly_depriveOne (h : Heap) (t : Ref) (a : String) :
    AttrOnly h (depriveOne h t a).2 := by
  unfold depriveOne
  split
  · exact AttrOnly_set h t _
  · exact AttrOnly.sameAttr h

theorem AttrOnly_imbueAttr (h : Heap) (t : Ref) (arg : AttrArg) :
    AttrOnly h (imbueAttr h t arg).2 := by
  cases arg with
  | tag a => exact AttrOnly_imbueOne h t a
  | tags as =>
    simp only [imbueAttr]
    have : ∀ (as : List String) (acc : Bool × Heap), AttrOnly h acc.2 →
        AttrOnly h (as.foldl (fun (acc : Bool × Heap) a =>
          ((imbueOne acc.2 t a).1 || acc.1, (imbueOne acc.2 t a).2)) acc).2 := by
      intro as
      induction as with
      | nil => intro acc hacc; exact hacc
      | cons a as ih =>
        intro acc hacc
        exact ih _ (hacc.transAttr (AttrOnly_imbueOne acc.2 t a))
    exact this as (false, h) (AttrOnly.sameAttr h)

theorem AttrOnly_depriveAttr (h : Heap) (t : Ref) (arg : AttrArg) :
    AttrOnly h (depriveAttr h t arg).2 := by
  cases arg with
  | tag a => exact AttrOnly_depriveOne h t a
  | tags as =>
    simp only [depriveAttr]
    have : ∀ (as : List String) (acc : Bool × Heap), AttrOnly h acc.2 →
        AttrOnly h (as.foldl (fun (acc : Bool × Heap) a =>
          ((depriveOne acc.2 t a).1 || acc.1, (depriveOne acc.2 t a).2)) acc).2 := by
      intro as
      induction as with
      | nil => intro acc hacc; exact hacc
      | cons a as ih =>
        intro acc hacc
        exact ih _ (hacc.transAttr (AttrOnly_depriveOne acc.2 t a))
    exact this as (false, h) (AttrOnly.sameAttr h)

/-- What `literalHead` does to fields other than `attr`: the type of `tree` becomes
`symbol`, nothing else changes, and `defnParent` is `tree.parent` or `null`. -/
theorem literalHead_frame (h1 : Heap) (oldAttr : List String) (tree : Ref) :
    (∀ x, Frame ((literalHead h1 oldAttr tree).1 x) (h1 x)
      ∧ ((literalHead h1 oldAttr tree).1 x).type
          = if x = tree then "symbol" else (h1 x).type)
    ∧ ((literalHead h1 oldAttr tree).2 = none
        ∨ (literalHead h1 oldAttr tree).2 = (h1 tree).parent) := by
  obtain ⟨h2, hh2⟩ : ∃ h2 : Heap, h2 = h1.set tree { h1 tree with type := "symbol" } :=
    ⟨_, Eq.refl _⟩
  have f2 : ∀ x, Frame (h2 x) (h1 x) ∧ (h2 x).type = if x = tree then "symbol"
      else (h1 x).type := by
    intro x
    rw [hh2]
    exact ⟨(Frame_setType h1 tree "symbol" x).1, (Frame_setType h1 tree "symbol" x).2.1⟩
  have lift : ∀ h3 : Heap, AttrOnly h2 h3 → ∀ x, Frame (h3 x) (h1 x)
      ∧ (h3 x).type = if x = tree then "symbol" else (h1 x).type :=
    fun h3 a x => ⟨(a x).1.transFrame (f2 x).1, (a x).2.trans (f2 x).2⟩
  obtain ⟨h3, hh3⟩ : ∃ h3 : Heap, h3 = if BUILTIN_SYMBOLS.contains (h2 tree).value
      then (imbueAttr h2 tree (.tag "builtin")).2 else h2 := ⟨_, Eq.refl _⟩
  have a3 : AttrOnly h2 h3 := by
    rw [hh3]; split
    · exact AttrOnly_imbueAttr _ _ _
    · exact AttrOnly.sameAttr _
  have hpar3 : ∀ h4 : Heap, AttrOnly h3 h4 → (h4 tree).parent = (h1 tree).parent :=
    fun h4 a => ((a tree).1.parent.trans (a3 tree).1.parent).trans (f2 tree).1.parent
  simp only [literalHead, ← hh2, ← hh3]
  split
  · split
    · next p hp =>
      refine ⟨lift _ (a3.transAttr ((AttrOnly_imbueAttr _ _ _).transAttr (AttrOnly_imbueAttr _ _ _))),
        Or.inr ?_⟩
      rw [← hp]; exact hpar3 _ (AttrOnly_imbueAttr _ _ _)
    · exact ⟨lift _ (a3.transAttr (AttrOnly_imbueAttr _ _ _)), Or.inl (Eq.refl _)⟩
  · split
    · split
      · next p hp =>
        refine ⟨lift _ (a3.transAttr (AttrOnly_depriveAttr _ _ _)), Or.inr ?_⟩
        rw [← hp]; exact hpar3 _ (AttrOnly.sameAttr _)
      · exact ⟨lift _ a3, Or.inl (Eq.refl _)⟩
    · exact ⟨lift _ a3, Or.inl (Eq.refl _)⟩

/-- What `literalTail` does to fields other than `attr` when it returns: the type of `tree`
becomes `proto` for an empty value and `numeric` for a value that `parseFloat` reads, and
nothing else changes. -/
theorem literalTail_frame (h6 : Heap) (tree : Ref) (h9 : Heap)
    (run : literalTail h6 tree = .ok h9) :
    ∀ x, Frame (h9 x) (h6 x)
      ∧ (h9 x).type = if x = tree then
          (if (h6 tree).value.length = 0 then "proto"
            else if parseFloatIsNaN (h6 tree).value then (h6 tree).type else "numeric")
          else (h6 x).type := by
  obtain ⟨h7, hh7⟩ : ∃ h7 : Heap, h7 = if ¬ parseFloatIsNaN (h6 tree).value
      then h6.set tree { h6 tree with type := "numeric" } else h6 := ⟨_, Eq.refl _⟩
  have f7 : ∀ x, Frame (h7 x) (h6 x) ∧ (h7 x).type = if x = tree then
      (if parseFloatIsNaN (h6 tree).value then (h6 tree).type else "numeric")
      else (h6 x).type := by
    intro x
    rw [hh7]
    by_cases hn : parseFloatIsNaN (h6 tree).value = true
    · rw [if_neg (not_not.mpr hn), if_pos hn]
      refine ⟨Frame.sameFrame _, ?_⟩
      by_cases hx : x = tree
      · rw [if_pos hx, hx]
      · rw [if_neg hx]
    · rw [if_pos hn, if_neg hn]
      exact ⟨(Frame_setType h6 tree "numeric" x).1, (Frame_setType h6 tree "numeric" x).2.1⟩
  obtain ⟨h8, hh8⟩ : ∃ h8 : Heap, h8 = if (h7 tree).value.length = 0
      then h7.set tree { h7 tree with type := "proto" } else h7 := ⟨_, Eq.refl _⟩
  have hv : (h7 tree).value = (h6 tree).value := (f7 tree).1.value
  have f8 : ∀ x, Frame (h8 x) (h6 x) ∧ (h8 x).type = if x = tree then
      (if (h6 tree).value.length = 0 then "proto"
        else if parseFloatIsNaN (h6 tree).value then (h6 tree).type else "numeric")
      else (h6 x).type := by
    intro x
    rw [hh8, hv]
    by_cases hl : (h6 tree).value.length = 0
    · rw [if_pos hl, if_pos hl]
      refine ⟨(Frame_setType h7 tree "proto" x).1.transFrame (f7 x).1, ?_⟩
      rw [(Frame_setType h7 tree "proto" x).2.1]
      by_cases hx : x = tree
      · rw [if_pos hx, if_pos hx]
      · rw [if_neg hx, if_neg hx, (f7 x).2, if_neg hx]
    · rw [if_neg hl, if_neg hl]
      exact f7 x
  have lift : ∀ h9 : Heap, AttrOnly h8 h9 → ∀ x, Frame (h9 x) (h6 x)
      ∧ (h9 x).type = if x = tree then
          (if (h6 tree).value.length = 0 then "proto"
            else if parseFloatIsNaN (h6 tree).value then (h6 tree).type else "numeric")
          else (h6 x).type :=
    fun h9 a x => ⟨(a x).1.transFrame (f8 x).1, (a x).2.trans (f8 x).2⟩
  simp only [literalTail, ← hh7, ← hh8] at run
  split at run
  · exact Except.noConfusion run
  · split at run
    · split at run
      · injection run with e; subst e; exact lift _ (AttrOnly_imbueAttr _ _ _)
      · injection run with e; subst e; exact lift _ (AttrOnly_imbueAttr _ _ _)
    · injection run with e; subst e; exact lift _ (AttrOnly.sameAttr _)

theorem isLiteral_true {h : Heap} {t : Ref} (hl : isLiteral h t = .ok true) :
    (h t).literal := by
  by_cases hlit : (h t).literal
  · exact hlit
  · unfold Node.literal at hlit
    unfold isLiteral at hl
    simp only [if_neg hlit] at hl
    split at hl
    · injection hl with e; exact absurd e (by decide)
    · exact Except.noConfusion hl

theorem Pres.samePres (h : Heap) : Pres h h := fun _ => ⟨Frame.sameFrame _, Or.inl (Eq.refl _)⟩

theorem Pres.transPres {h h2 h3 : Heap} (a : Pres h h2) (b : Pres h2 h3) : Pres h h3 := by
  intro x
  refine ⟨(b x).1.transFrame (a x).1, ?_⟩
  rcases (a x).2 with e1 | ⟨n1, e1⟩
  · rcases (b x).2 with e2 | ⟨n2, e2⟩
    · exact Or.inl (e2.trans e1)
    · refine Or.inr ⟨by unfold Node.literal at n2 ⊢; rw [← e1]; exact n2, ?_⟩
      rw [e2, (a x).1.value]
  · rcases (b x).2 with e2 | ⟨_, e2⟩
    · exact Or.inr ⟨n1, e2.trans e1⟩
    · refine Or.inr ⟨n1, ?_⟩
      rw [e2, (a x).1.value]

theorem AttrOnly.toPres {h h2 : Heap} (a : AttrOnly h h2) : Pres h h2 :=
  fun x => ⟨(a x).1, Or.inl (a x).2⟩

theorem relabelChildren_pres (rec : Heap × Dirty → Ref → Except Err (Heap × Dirty))
    (hrec : ∀ st a st2, rec st a = .ok st2 → Pres st.1 st2.1) :
    ∀ (cs : List Ref) (st st2 : Heap × Dirty),
      relabelChildren rec cs st = .ok st2 → Pres st.1 st2.1 := by
  intro cs
  induction cs with
  | nil =>
    intro st st2 run
    simp only [relabelChildren] at run
    injection run with e
    subst e
    exact Pres.samePres _
  | cons c cs ih =>
    intro st st2 run
    simp only [relabelChildren] at run
    cases hc : rec st c with
    | error e => rw [hc] at run; exact Except.noConfusion run
    | ok st1 =>
      rw [hc] at run
      exact (hrec st c st1 hc).transPres (ih st1 st2 run)

theorem propagate_pres (rec : Heap × Dirty → Ref → Except Err (Heap × Dirty))
    (hrec : ∀ st a st2, rec st a = .ok st2 → Pres st.1 st2.1)
    (h5 : Heap) (d : Dirty) (dp : Option Ref) (tree : Ref) (st2 : Heap × Dirty)
    (run : propagate rec h5 d dp tree = .ok st2) : Pres h5 st2.1 := by
  unfold propagate at run
  split at run
  · injection run with e; subst e; exact Pres.samePres _
  · split at run
    · exact Except.noConfusion run
    · split at run
      · exact Except.noConfusion run
      · split at run
        · split at run
          · exact Except.noConfusion run
          · next assignee _ =>
            cases hc : rec (h5, d) assignee with
            | error e => rw [hc] at run; exact Except.noConfusion run
            | ok st1 =>
              rw [hc] at run
              obtain ⟨h6, d6⟩ := st1
              injection run with e
              subst e
              exact hrec (h5, d) assignee (h6, d6) hc
        · injection run with e; subst e; exact Pres.samePres _

/-- Whenever `relabelTree` returns, it has changed `attr` fields and the types of literals
only, and the node it was called on, if not a list, has the type derived from its value. -/
theorem relabelTree_pres : ∀ (fuel : Nat) (st : Heap × Dirty) (tree : Ref)
    (st2 : Heap × Dirty), relabelTree fuel st tree = .ok st2 →
      Pres st.1 st2.1
        ∧ ((st.1 tree).type ≠ "list" → (st2.1 tree).type = typeOfValue (st.1 tree).value) := by
  intro fuel
  induction fuel with
  | zero => intro st tree st2 run; exact Except.noConfusion run
  | succ fuel ih =>
    intro st tree st2 run
    obtain ⟨h0, d⟩ := st
    have hrec : ∀ st a st2, relabelTree fuel st a = .ok st2 → Pres st.1 st2.1 :=
      fun st a st2 r => (ih st a st2 r).1
    obtain ⟨h1, hh1⟩ : ∃ h1 : Heap, h1 = h0.set tree { h0 tree with attr := [] } :=
      ⟨_, Eq.refl _⟩
    have a1 : AttrOnly h0 h1 := by rw [hh1]; exact AttrOnly_set h0 tree []
    have t1 : (h1 tree).type = (h0 tree).type := (a1 tree).2
    simp only [relabelTree, ← hh1] at run
    by_cases hl : (h1 tree).type = "list"
    · rw [if_pos hl] at run
      obtain ⟨h2, hh2⟩ : ∃ h2 : Heap, h2 = (match (h1 tree).parent with
          | none => h1
          | some p =>
            if (h1 p).attr.contains "definition" ∧ (h1 tree).siblingIndex = some 1 then
              (imbueAttr h1 tree (.tag "assignee")).2
            else h1) := ⟨_, Eq.refl _⟩
      have a2 : AttrOnly h1 h2 := by
        rw [hh2]
        split
        · exact AttrOnly.sameAttr _
        · split
          · exact AttrOnly_imbueAttr _ _ _
          · exact AttrOnly.sameAttr _
      rw [← hh2] at run
      split at run
      · exact Except.noConfusion run
      · next cs _ =>
        have p3 := relabelChildren_pres (relabelTree fuel) hrec cs (h2, d) st2 run
        exact ⟨(a1.transAttr a2).toPres.transPres p3, fun hn => absurd (t1 ▸ hl) hn⟩
    · rw [if_neg hl] at run
      split at run
      · exact Except.noConfusion run
      · exact Except.noConfusion run
      · rename_i hisl
        have hlit1 : (h1 tree).literal := isLiteral_true hisl
        obtain ⟨fH, -⟩ := literalHead_frame h1 (h0 tree).attr tree
        cases hprop : propagate (relabelTree fuel) (literalHead h1 (h0 tree).attr tree).1 d
            (literalHead h1 (h0 tree).attr tree).2 tree with
        | error e => rw [hprop] at run; exact Except.noConfusion run
        | ok st6 =>
          obtain ⟨h6, d6⟩ := st6
          rw [hprop] at run
          dsimp only at run
          have p6 := propagate_pres (relabelTree fuel) hrec _ d _ tree (h6, d6) hprop
          cases htail : literalTail h6 tree with
          | error e => rw [htail] at run; exact Except.noConfusion run
          | ok h9 =>
            rw [htail] at run
            dsimp only at run
            injection run with e
            subst e
            have fT := literalTail_frame h6 tree h9 htail
            have hl0 : (h0 tree).literal := by
              unfold Node.literal at hlit1 ⊢; rw [← t1]; exact hlit1
            have v6 : (h6 tree).value = (h0 tree).value :=
              ((p6 tree).1.value.trans (fH tree).1.value).trans (a1 tree).1.value
            have ty6 : (h6 tree).type = "symbol"
                ∨ (h6 tree).type = typeOfValue (h0 tree).value := by
              rcases (p6 tree).2 with e | ⟨_, e⟩
              · left; rw [e, (fH tree).2, if_pos (Eq.refl _)]
              · right; rw [e, (fH tree).1.value, (a1 tree).1.value]
            have ty9 : (h9 tree).type = typeOfValue (h0 tree).value := by
              rw [(fT tree).2, if_pos (Eq.refl _), v6]
              unfold typeOfValue
              by_cases hlen : (h0 tree).value.length = 0
              · rw [if_pos hlen, if_pos hlen]
              · rw [if_neg hlen, if_neg hlen]
                by_cases hn : parseFloatIsNaN (h0 tree).value = true
                · rw [if_pos hn, if_pos hn]
                  rcases ty6 with e | e
                  · exact e
                  · rw [e]; unfold typeOfValue; rw [if_neg hlen, if_pos hn]
                · rw [if_neg hn, if_neg hn]
            refine ⟨?_, fun _ => ty9⟩
            intro x
            refine ⟨(fT x).1.transFrame ((p6 x).1.transFrame ((fH x).1.transFrame (a1 x).1)), ?_⟩
            by_cases hx : x = tree
            · subst hx
              exact Or.inr ⟨hl0, ty9⟩
            · have e9 : (h9 x).type = (h6 x).type := by rw [(fT x).2, if_neg hx]
              have e5 : ((literalHead h1 (h0 tree).attr tree).1 x).type = (h0 x).type := by
                rw [(fH x).2, if_neg hx, (a1 x).2]
              rcases (p6 x).2 with e | ⟨n, e⟩
              · exact Or.inl (e9.trans (e.trans e5))
              · refine Or.inr ⟨by unfold Node.literal at n ⊢; rw [← e5]; exact n, ?_⟩
                rw [e9, e, (fH x).1.value, (a1 x).1.value]

/-! ## The propagation that never ends -/

theorem literalHead_defn (h1 : Heap) (oldAttr : List String) (tree p : Ref)
    (hv : DEFINITION_SYMBOLS.contains (h1 tree).value = true)
    (hp : (h1 tree).parent = some p) :
    (literalHead h1 oldAttr tree).2 = some p := by
  obtain ⟨h2, hh2⟩ : ∃ h2 : Heap, h2 = h1.set tree { h1 tree with type := "symbol" } :=
    ⟨_, Eq.refl _⟩
  have f2 : ∀ x, Frame (h2 x) (h1 x) := by
    intro x; rw [hh2]; exact (Frame_setType h1 tree "symbol" x).1
  obtain ⟨h3, hh3⟩ : ∃ h3 : Heap, h3 = if BUILTIN_SYMBOLS.contains (h2 tree).value
      then (imbueAttr h2 tree (.tag "builtin")).2 else h2 := ⟨_, Eq.refl _⟩
  have a3 : AttrOnly h2 h3 := by
    rw [hh3]; split
    · exact AttrOnly_imbueAttr _ _ _
    · exact AttrOnly.sameAttr _
  have v3 : (h3 tree).value = (h1 tree).value := (a3 tree).1.value.trans (f2 tree).value
  have p4 : ((imbueAttr h3 tree (.tags ["keyword", "definition"])).2 tree).parent = some p := by
    rw [((AttrOnly_imbueAttr h3 tree _) tree).1.parent, (a3 tree).1.parent, (f2 tree).parent]
    exact hp
  simp only [literalHead, ← hh2, ← hh3, v3, hv, if_true, p4]

/-- A literal that holds a definition keyword and is the index-1 child of its parent:
`relabelTree` on it calls itself on the same node again, without end.  In the embedding the
call is out of fuel at every fuel; in JavaScript it overflows the call stack. -/
theorem relabelTree_diverges : ∀ (fuel : Nat) (h : Heap) (d : Dirty) (t p : Ref)
    (cs : List Ref), (h t).literal → DEFINITION_SYMBOLS.contains (h t).value = true →
    (h t).parent = some p → (h p).children = some cs → cs[1]? = some t →
    relabelTree fuel (h, d) t = .error .fuel := by
  intro fuel
  induction fuel with
  | zero => intro h d t p cs _ _ _ _ _; rfl
  | succ fuel ih =>
    intro h0 d t p cs hlit hv hp hc hcs
    obtain ⟨h1, hh1⟩ : ∃ h1 : Heap, h1 = h0.set t { h0 t with attr := [] } :=
      ⟨_, Eq.refl _⟩
    have a1 : AttrOnly h0 h1 := by rw [hh1]; exact AttrOnly_set h0 t []
    have t1 : (h1 t).type = (h0 t).type := (a1 t).2
    have hlit1 : (h1 t).literal := by unfold Node.literal; rw [t1]; exact hlit
    have hl : ¬ (h1 t).type = "list" := by
      rcases hlit1 with e | e | e <;> rw [e] <;> decide
    have hisl : isLiteral h1 t = .ok true := by
      unfold isLiteral
      rcases hlit1 with e | e | e <;> simp [e]
    have hv1 : DEFINITION_SYMBOLS.contains (h1 t).value = true := by
      rw [(a1 t).1.value]; exact hv
    have hp1 : (h1 t).parent = some p := by rw [(a1 t).1.parent]; exact hp
    obtain ⟨fH, -⟩ := literalHead_frame h1 (h0 t).attr t
    have hdp := literalHead_defn h1 (h0 t).attr t p hv1 hp1
    have hp5 : ((literalHead h1 (h0 t).attr t).1 t).parent = some p := by
      rw [(fH t).1.parent]; exact hp1
    have hc5 : ((literalHead h1 (h0 t).attr t).1 p).children = some cs := by
      rw [(fH p).1.children, (a1 p).1.children]; exact hc
    have hlen : cs.length ≥ 2 := by
      by_contra hlt
      rw [List.getElem?_eq_none (by omega)] at hcs
      exact Option.noConfusion hcs
    have hrec := ih (literalHead h1 (h0 t).attr t).1 d t p cs
      (by unfold Node.literal; rw [(fH t).2, if_pos (Eq.refl _)]; exact Or.inl (Eq.refl _))
      (by rw [(fH t).1.value]; exact hv1) hp5 hc5 hcs
    have hprop : propagate (relabelTree fuel) (literalHead h1 (h0 t).attr t).1 d
        (literalHead h1 (h0 t).attr t).2 t = .error .fuel := by
      unfold propagate
      rw [hdp]
      simp only [hp5, hc5, hlen, if_true, hcs, hrec]
    simp only [relabelTree, ← hh1, if_neg hl, hisl, hprop]

/-! ## Split on space (C5) -/

theorem substr_left (v : String) (c : Nat) (h1 : 1 ≤ c) (h2 : c ≤ v.length + 1) :
    substr v 0 (some ((c : Int) - 1)) = String.mk (v.data.take (c - 1)) := by
  unfold substr
  have hs : min (0 : Int) (v.length : Int) = 0 := by omega
  have hl : min (max ((c : Int) - 1) 0) (v.length : Int) = ((c - 1 : Nat) : Int) := by omega
  have he : min ((0 : Int) + ((c - 1 : Nat) : Int)) (v.length : Int) = ((c - 1 : Nat) : Int) := by
    omega
  simp only [lt_irrefl, if_false, hs, hl, he, Int.toNat_zero, List.drop_zero, sub_zero,
    Int.toNat_ofNat]

theorem substr_right (v : String) (c : Nat) (h1 : 1 ≤ c) (h2 : c ≤ v.length + 1) :
    substr v ((c : Int) - 1) none = String.mk (v.data.drop (c - 1)) := by
  unfold substr
  have hneg : ¬ ((c : Int) - 1 < 0) := by omega
  have hs : min ((c : Int) - 1) (v.length : Int) = ((c - 1 : Nat) : Int) := by omega
  have he : min (((c - 1 : Nat) : Int) + (v.length : Int)) (v.length : Int)
      = (v.length : Int) := by omega
  have ht : ((v.length : Int) - ((c - 1 : Nat) : Int)).toNat = v.length - (c - 1) := by omega
  simp only [if_neg hneg]
  rw [hs, he, Int.toNat_ofNat, ht]
  congr 1
  apply List.take_of_length_le
  show (List.drop (c - 1) v.data).length ≤ v.data.length - (c - 1)
  rw [List.length_drop]

/-- Claim C5 at a failing input.  In the seed tree the `n` of `(goose n)` holds `definex`
and a space is typed after `define` (cursor offset 7 after the keystroke).  The handler
sets the value to `define` and inserts the sibling `x`, but `relabelTree(tree)` then calls
itself on the same node without end (the node is the index-1 child of its parent and holds
a definition keyword): the handler never reaches `relabelTree(proto)` nor the focus
assignment.  In the embedding the run is out of fuel at every fuel. -/
theorem split_never_returns : ∀ fuel,
    onInput fuel worldDefinex 14 { data := some " ", textContent := "define x", focusOffset := 7 }
      = .error .fuel := by
  intro fuel
  obtain ⟨h2, hh2⟩ : ∃ h2 : Heap, h2 = ((taggedHeap.set 14 { taggedHeap 14 with value := "definex" }).set 14
      { (taggedHeap.set 14 { taggedHeap 14 with value := "definex" }) 14 with
        value := substr "definex" 0 (some (((7 : Nat) : Int) - 1)) }).set 50
      { blank with value := substr "definex" (((7 : Nat) : Int) - 1) none } := ⟨_, Eq.refl _⟩
  obtain ⟨h3, run, I⟩ := insertSiblingAfter_run h2 8 14 50 12 [13, 14] 1
    (by rw [hh2]; rfl) (by rw [hh2]; rfl) (by rw [hh2]; rfl) (by decide) (by decide)
  have hdiv := relabelTree_diverges fuel h3 [] 14 12 (spliceIn [13, 14] 2 50)
    (by
      unfold Node.literal
      rw [(I.others 14 (by decide)).2.1, hh2]
      exact Or.inl rfl)
    (by rw [(I.others 14 (by decide)).2.2.1, hh2]; rfl)
    (by rw [I.parent, hh2]; rfl)
    (by rw [I.children]; rfl)
    (by rfl)
  have hv : (worldDefinex.heap 14).value = "definex" := rfl
  simp only [onInput, if_true, hv]
  have e1 : worldDefinex.heap = taggedHeap.set 14 { taggedHeap 14 with value := "definex" } :=
    rfl
  have e2 : worldDefinex.lastId = 8 := rfl
  have e3 : worldDefinex.nextRef = 50 := rfl
  have e4 : worldDefinex.dirtyNodes = [] := rfl
  rw [e1, e2, e3, e4, ← hh2, run]
  simp only [hdiv]

/-! ## Relabelling returns -/

theorem literal_not_list {n : Node} (hl : n.literal) : ¬ n.type = "list" := by
  rcases hl with e | e | e <;> rw [e] <;> decide

theorem typeOfValue_literal (v : String) :
    typeOfValue v = "symbol" ∨ typeOfValue v = "numeric" ∨ typeOfValue v = "proto" := by
  unfold typeOfValue
  split
  · exact Or.inr (Or.inr (Eq.refl _))
  · split
    · exact Or.inl (Eq.refl _)
    · exact Or.inr (Or.inl (Eq.refl _))

theorem Soft.sameSoft (h : Heap) : Soft h h := fun _ => ⟨Frame.sameFrame _, Or.inl (Eq.refl _)⟩

theorem Soft.literal {h h2 : Heap} (P : Soft h h2) {x : Ref} (hl : (h x).literal) :
    (h2 x).literal := by
  rcases (P x).2 with e | ⟨_, e⟩
  · unfold Node.literal; rw [e]; exact hl
  · exact e

theorem Soft.list {h h2 : Heap} (P : Soft h h2) {x : Ref} (hl : (h x).type = "list") :
    (h2 x).type = "list" := by
  rcases (P x).2 with e | ⟨n, _⟩
  · rw [e]; exact hl
  · exact absurd hl (literal_not_list n)

theorem Soft.transSoft {h h2 h3 : Heap} (a : Soft h h2) (b : Soft h2 h3) : Soft h h3 := by
  intro x
  refine ⟨(b x).1.transFrame (a x).1, ?_⟩
  rcases (a x).2 with e1 | ⟨n1, n2⟩
  · rcases (b x).2 with e2 | ⟨m1, m2⟩
    · exact Or.inl (e2.trans e1)
    · exact Or.inr ⟨by unfold Node.literal at m1 ⊢; rw [← e1]; exact m1, m2⟩
  · exact Or.inr ⟨n1, b.literal n2⟩

theorem Pres.presSoft {h h2 : Heap} (P : Pres h h2) : Soft h h2 := by
  intro x
  refine ⟨(P x).1, ?_⟩
  rcases (P x).2 with e | ⟨n, e⟩
  · exact Or.inl e
  · exact Or.inr ⟨n, by unfold Node.literal; rw [e]; exact typeOfValue_literal _⟩

theorem AttrOnly.toSoft {h h2 : Heap} (a : AttrOnly h h2) : Soft h h2 :=
  fun x => ⟨(a x).1, Or.inl (a x).2⟩

/-- `literalHead` on a literal keeps literals literal and everything else as it is. -/
theorem literalHead_soft (h1 : Heap) (oldAttr : List String) (tree : Ref)
    (hlit : (h1 tree).literal) : Soft h1 (literalHead h1 oldAttr tree).1 := by
  obtain ⟨fH, -⟩ := literalHead_frame h1 oldAttr tree
  intro x
  refine ⟨(fH x).1, ?_⟩
  by_cases hx : x = tree
  · subst hx
    refine Or.inr ⟨hlit, ?_⟩
    unfold Node.literal
    rw [(fH x).2, if_pos (Eq.refl _)]
    exact Or.inl (Eq.refl _)
  · left
    rw [(fH x).2, if_neg hx]

theorem Calm.literal_or_list {h : Heap} : ∀ {n : Nat} {x : Ref}, Calm h n x →
    (h x).literal ∨ (h x).type = "list" := by
  intro n x c
  cases n with
  | zero => exact Or.inl c
  | succ n =>
    rcases c with c | ⟨c, _⟩
    · exact Or.inl c
    · exact Or.inr c

theorem Calm.calmSoft {h h2 : Heap} (P : Soft h h2) : ∀ (n : Nat) (x : Ref),
    Calm h n x → Calm h2 n x := by
  intro n
  induction n with
  | zero => intro x c; exact P.literal c
  | succ n ih =>
    intro x c
    rcases c with c | ⟨hl, cs, hc, hkids, hone⟩
    · exact Or.inl (P.literal c)
    · refine Or.inr ⟨P.list hl, cs, by rw [(P x).1.children]; exact hc, ?_, ?_⟩
      · intro c hcm
        exact ⟨by rw [(P c).1.parent]; exact (hkids c hcm).1, ih c (hkids c hcm).2⟩
      · intro a ha ⟨hlit2, hdef2⟩
        have hca := (hkids a (List.getElem?_mem ha)).2
        rcases hca.literal_or_list with hlit | hlist
        · exact hone a ha ⟨hlit, by rw [← (P a).1.value]; exact hdef2⟩
        · exact literal_not_list hlit2 (P.list hlist)

theorem Settles.settlesSoft {h h2 : Heap} (P : Soft h h2) {n : Nat} {t : Ref}
    (S : Settles h n t) : Settles h2 n t := by
  obtain ⟨p, cs, hp, hc, ht⟩ := S
  refine ⟨p, cs, by rw [(P t).1.parent]; exact hp, by rw [(P p).1.children]; exact hc, ?_⟩
  intro a ha
  rcases ht a ha with ⟨hl, hv, hpa⟩ | ⟨hl, hcalm⟩
  · exact Or.inl ⟨P.literal hl, by rw [(P a).1.value]; exact hv,
      by rw [(P a).1.parent]; exact hpa⟩
  · exact Or.inr ⟨P.list hl, Calm.calmSoft P n a hcalm⟩

/-- `literalTail` returns as soon as `tree.parent` is present. -/
theorem literalTail_returns (h6 : Heap) (tree p : Ref) (hp : (h6 tree).parent = some p) :
    ∃ h9, literalTail h6 tree = .ok h9 := by
  obtain ⟨h7, hh7⟩ : ∃ h7 : Heap, h7 = if ¬ parseFloatIsNaN (h6 tree).value
      then h6.set tree { h6 tree with type := "numeric" } else h6 := ⟨_, Eq.refl _⟩
  have f7 : (h7 tree).parent = (h6 tree).parent := by
    rw [hh7]; split
    · exact (Frame_setType h6 tree "numeric" tree).1.parent
    · exact Eq.refl _
  obtain ⟨h8, hh8⟩ : ∃ h8 : Heap, h8 = if (h7 tree).value.length = 0
      then h7.set tree { h7 tree with type := "proto" } else h7 := ⟨_, Eq.refl _⟩
  have f8 : (h8 tree).parent = some p := by
    rw [hh8]; split
    · rw [(Frame_setType h7 tree "proto" tree).1.parent, f7]; exact hp
    · rw [f7]; exact hp
  simp only [literalTail, ← hh7, ← hh8, f8]
  split
  · split
    · exact ⟨_, Eq.refl _⟩
    · exact ⟨_, Eq.refl _⟩
  · exact ⟨_, Eq.refl _⟩

/-- `relabelTree` on a literal with a parent returns as soon as its propagation does. -/
theorem relabelTree_literal_returns (fuel : Nat) (h0 : Heap) (d : Dirty) (t p : Ref)
    (hlit : (h0 t).literal) (hp : (h0 t).parent = some p)
    (hprop : ∃ st6, propagate (relabelTree fuel)
      (literalHead (h0.set t { h0 t with attr := [] }) (h0 t).attr t).1 d
      (literalHead (h0.set t { h0 t with attr := [] }) (h0 t).attr t).2 t = .ok st6) :
    ∃ st2, relabelTree (fuel + 1) (h0, d) t = .ok st2 := by
  obtain ⟨h1, hh1⟩ : ∃ h1 : Heap, h1 = h0.set t { h0 t with attr := [] } := ⟨_, Eq.refl _⟩
  rw [← hh1] at hprop
  have a1 : AttrOnly h0 h1 := by rw [hh1]; exact AttrOnly_set h0 t []
  have hlit1 : (h1 t).literal := a1.toSoft.literal hlit
  have hl : ¬ (h1 t).type = "list" := literal_not_list hlit1
  have hisl : isLiteral h1 t = .ok true := by
    unfold isLiteral
    rcases hlit1 with e | e | e <;> simp [e]
  obtain ⟨⟨h6, d6⟩, hprop⟩ := hprop
  obtain ⟨fH, -⟩ := literalHead_frame h1 (h0 t).attr t
  have hrec : ∀ st a st2, relabelTree fuel st a = .ok st2 → Pres st.1 st2.1 :=
    fun st a st2 r => (relabelTree_pres fuel st a st2 r).1
  have p6 := propagate_pres (relabelTree fuel) hrec _ d _ t (h6, d6) hprop
  have hp6 : (h6 t).parent = some p := by
    rw [(p6 t).1.parent, (fH t).1.parent, (a1 t).1.parent]; exact hp
  obtain ⟨h9, htail⟩ := literalTail_returns h6 t p hp6
  exact ⟨(h9, d6), by simp only [relabelTree, ← hh1, if_neg hl, hisl, hprop, htail]⟩

theorem mem_imbueOne (h : Heap) (t : Ref) (a b : String) (x : Ref) :
    b ∈ ((imbueOne h t a).2 x).attr ↔ b ∈ (h x).attr ∨ (x = t ∧ b = a) := by
  unfold imbueOne
  by_cases hc : (h t).attr.contains a = true
  · rw [if_pos hc]
    constructor
    · exact Or.inl
    · rintro (e | ⟨rfl, rfl⟩)
      · exact e
      · simpa using hc
  · rw [if_neg hc]
    dsimp only
    by_cases hx : x = t
    · subst hx
      rw [Heap.set_same]
      simp only [List.mem_append, List.mem_singleton, true_and]
    · rw [Heap.set_other _ _ _ _ hx]
      simp [hx]

theorem mem_depriveOne (h : Heap) (t : Ref) (a b : String) (x : Ref)
    (hb : b ∈ ((depriveOne h t a).2 x).attr) : b ∈ (h x).attr := by
  unfold depriveOne at hb
  by_cases hc : (h t).attr.contains a = true
  · rw [if_pos hc] at hb
    dsimp only at hb
    by_cases hx : x = t
    · subst hx
      rw [Heap.set_same] at hb
      exact List.mem_of_mem_erase hb
    · rw [Heap.set_other _ _ _ _ hx] at hb
      exact hb
  · rw [if_neg hc] at hb
    exact hb

/-- Without a definition keyword and without a former `definition` tag, `literalHead` sets
no `defnParent`. -/
theorem literalHead_none (h1 : Heap) (oldAttr : List String) (tree : Ref)
    (hv : DEFINITION_SYMBOLS.contains (h1 tree).value = false)
    (hold : oldAttr.contains "definition" = false) :
    (literalHead h1 oldAttr tree).2 = none := by
  obtain ⟨h2, hh2⟩ : ∃ h2 : Heap, h2 = h1.set tree { h1 tree with type := "symbol" } :=
    ⟨_, Eq.refl _⟩
  have f2 : ∀ x, Frame (h2 x) (h1 x) := by
    intro x; rw [hh2]; exact (Frame_setType h1 tree "symbol" x).1
  obtain ⟨h3, hh3⟩ : ∃ h3 : Heap, h3 = if BUILTIN_SYMBOLS.contains (h2 tree).value
      then (imbueAttr h2 tree (.tag "builtin")).2 else h2 := ⟨_, Eq.refl _⟩
  have a3 : AttrOnly h2 h3 := by
    rw [hh3]; split
    · exact AttrOnly_imbueAttr _ _ _
    · exact AttrOnly.sameAttr _
  have v3 : (h3 tree).value = (h1 tree).value := (a3 tree).1.value.trans (f2 tree).value
  simp only [literalHead, ← hh2, ← hh3, v3, hv, hold, Bool.false_eq_true, if_false]

/-- After `literalHead` on a literal that holds no definition keyword and whose `attr` was
reset, the literal does not hold `definition`. -/
theorem literalHead_attr (h1 : Heap) (oldAttr : List String) (tree : Ref)
    (hv : DEFINITION_SYMBOLS.contains (h1 tree).value = false)
    (hattr : (h1 tree).attr = []) :
    "definition" ∉ ((literalHead h1 oldAttr tree).1 tree).attr := by
  obtain ⟨h2, hh2⟩ : ∃ h2 : Heap, h2 = h1.set tree { h1 tree with type := "symbol" } :=
    ⟨_, Eq.refl _⟩
  have f2 : ∀ x, Frame (h2 x) (h1 x) := by
    intro x; rw [hh2]; exact (Frame_setType h1 tree "symbol" x).1
  have at2 : (h2 tree).attr = [] := by
    rw [hh2, (Frame_setType h1 tree "symbol" tree).2.2]; exact hattr
  obtain ⟨h3, hh3⟩ : ∃ h3 : Heap, h3 = if BUILTIN_SYMBOLS.contains (h2 tree).value
      then (imbueAttr h2 tree (.tag "builtin")).2 else h2 := ⟨_, Eq.refl _⟩
  have a3 : AttrOnly h2 h3 := by
    rw [hh3]; split
    · exact AttrOnly_imbueAttr _ _ _
    · exact AttrOnly.sameAttr _
  have at3 : "definition" ∉ (h3 tree).attr := by
    rw [hh3]; split
    · intro hm
      rcases (mem_imbueOne h2 tree "builtin" "definition" tree).mp hm with e | ⟨_, e⟩
      · rw [at2] at e; exact List.not_mem_nil _ e
      · exact absurd e (by decide)
    · rw [at2]; exact List.not_mem_nil _
  have v3 : (h3 tree).value = (h1 tree).value := (a3 tree).1.value.trans (f2 tree).value
  simp only [literalHead, ← hh2, ← hh3, v3, hv]
  split
  · rename_i hf; exact absurd hf (by decide)
  · split
    · split
      · intro hm
        exact at3 (mem_depriveOne h3 _ "definition" "definition" tree hm)
      · exact at3
    · exact at3

/-- A literal that holds no definition keyword and is the index-1 child of its parent:
`relabelTree` returns from fuel 2 on. -/
theorem relabelTree_nondef_returns (h0 : Heap) (d : Dirty) (a p : Ref) (cs : List Ref)
    (hlit : (h0 a).literal) (hv : DEFINITION_SYMBOLS.contains (h0 a).value = false)
    (hp : (h0 a).parent = some p) (hc : (h0 p).children = some cs)
    (hcs : ∀ b, cs[1]? = some b → b = a) :
    ∀ fuel, 2 ≤ fuel → ∃ st2, relabelTree fuel (h0, d) a = .ok st2 := by
  intro fuel hf
  obtain ⟨f, rfl⟩ : ∃ f, fuel = f + 2 := ⟨fuel - 2, by omega⟩
  apply relabelTree_literal_returns (f + 1) h0 d a p hlit hp
  obtain ⟨h1, hh1⟩ : ∃ h1 : Heap, h1 = h0.set a { h0 a with attr := [] } := ⟨_, Eq.refl _⟩
  rw [← hh1]
  have a1 : AttrOnly h0 h1 := by rw [hh1]; exact AttrOnly_set h0 a []
  have hat1 : (h1 a).attr = [] := by rw [hh1, Heap.set_same]
  have hv1 : DEFINITION_SYMBOLS.contains (h1 a).value = false := by
    rw [(a1 a).1.value]; exact hv
  obtain ⟨fH, hdp⟩ := literalHead_frame h1 (h0 a).attr a
  obtain ⟨h5, hh5⟩ : ∃ h5 : Heap, h5 = (literalHead h1 (h0 a).attr a).1 := ⟨_, Eq.refl _⟩
  rw [← hh5] at fH ⊢
  have hlit5 : (h5 a).literal := by
    unfold Node.literal; rw [(fH a).2, if_pos (Eq.refl _)]; exact Or.inl (Eq.refl _)
  have hp5 : (h5 a).parent = some p := by
    rw [(fH a).1.parent, (a1 a).1.parent]; exact hp
  have hc5 : (h5 p).children = some cs := by
    rw [(fH p).1.children, (a1 p).1.children]; exact hc
  have hv5 : DEFINITION_SYMBOLS.contains (h5 a).value = false := by
    rw [(fH a).1.value]; exact hv1
  have hat5 : "definition" ∉ (h5 a).attr := by
    rw [hh5]; exact literalHead_attr h1 (h0 a).attr a hv1 hat1
  -- the nested call does not propagate
  have inner : ∃ st2, relabelTree (f + 1) (h5, d) a = .ok st2 := by
    apply relabelTree_literal_returns f h5 d a p hlit5 hp5
    have hv6 : DEFINITION_SYMBOLS.contains ((h5.set a { h5 a with attr := [] }) a).value
        = false := by
      rw [Heap.set_same]; exact hv5
    have hold : (h5 a).attr.contains "definition" = false := by
      simpa using hat5
    rw [literalHead_none _ _ a hv6 hold]
    exact ⟨_, Eq.refl _⟩
  unfold propagate
  split
  · exact ⟨_, Eq.refl _⟩
  · simp only [hp5, hc5]
    by_cases hlen : cs.length ≥ 2
    · rw [if_pos hlen]
      obtain ⟨b, hb⟩ : ∃ b, cs[1]? = some b := ⟨cs[1], List.getElem?_eq_getElem (by omega)⟩
      have hba := hcs b hb
      subst hba
      obtain ⟨⟨h6, d6⟩, hin⟩ := inner
      rw [hb]
      simp only [hin]
      exact ⟨_, Eq.refl _⟩
    · rw [if_neg hlen]
      exact ⟨_, Eq.refl _⟩

theorem relabelChildren_returns (rec : Heap × Dirty → Ref → Except Err (Heap × Dirty))
    (Q : Heap → Prop) (hQ : ∀ st c st2, Q st.1 → rec st c = .ok st2 → Q st2.1) :
    ∀ cs : List Ref, (∀ c ∈ cs, ∀ st, Q st.1 → ∃ st2, rec st c = .ok st2) →
      ∀ st, Q st.1 → ∃ st2, relabelChildren rec cs st = .ok st2 := by
  intro cs
  induction cs with
  | nil => intro _ st _; exact ⟨st, Eq.refl _⟩
  | cons c cs ih =>
    intro hret st hq
    obtain ⟨st1, h1⟩ := hret c (List.mem_cons_self _ _) st hq
    obtain ⟨st2, h2⟩ := ih (fun c2 hc2 => hret c2 (List.mem_cons_of_mem _ hc2)) st1
      (hQ st c st1 hq h1)
    exact ⟨st2, by simp only [relabelChildren, h1, h2]⟩

/-- A literal whose propagation settles: `relabelTree` returns, given that it returns on
calm lists of the same bound. -/
theorem relabelTree_settles (n : Nat)
    (HL : ∀ (h : Heap) (d : Dirty) (x : Ref), Calm h n x → (h x).type = "list" →
      ∀ fuel, 2 * n + 2 ≤ fuel → ∃ st2, relabelTree fuel (h, d) x = .ok st2)
    (h0 : Heap) (d : Dirty) (t : Ref) (hlit : (h0 t).literal) (S : Settles h0 n t) :
    ∀ fuel, 2 * n + 3 ≤ fuel → ∃ st2, relabelTree fuel (h0, d) t = .ok st2 := by
  intro fuel hf
  obtain ⟨f, rfl⟩ : ∃ f, fuel = f + 1 := ⟨fuel - 1, by omega⟩
  have hp0 : ∃ p0, (h0 t).parent = some p0 := by
    obtain ⟨p0, _, hp0, _, _⟩ := S
    exact ⟨p0, hp0⟩
  obtain ⟨p0, hp0⟩ := hp0
  apply relabelTree_literal_returns f h0 d t p0 hlit hp0
  obtain ⟨h1, hh1⟩ : ∃ h1 : Heap, h1 = h0.set t { h0 t with attr := [] } := ⟨_, Eq.refl _⟩
  rw [← hh1]
  have a1 : AttrOnly h0 h1 := by rw [hh1]; exact AttrOnly_set h0 t []
  have s5 : Soft h0 (literalHead h1 (h0 t).attr t).1 :=
    a1.toSoft.transSoft (literalHead_soft h1 (h0 t).attr t (a1.toSoft.literal hlit))
  obtain ⟨p, cs, hp, hc, htarget⟩ := Settles.settlesSoft s5 S
  unfold propagate
  split
  · exact ⟨_, Eq.refl _⟩
  · simp only [hp, hc]
    by_cases hlen : cs.length ≥ 2
    · rw [if_pos hlen]
      obtain ⟨a, ha⟩ : ∃ a, cs[1]? = some a := ⟨cs[1], List.getElem?_eq_getElem (by omega)⟩
      rw [ha]
      have inner : ∃ st2, relabelTree f ((literalHead h1 (h0 t).attr t).1, d) a = .ok st2 := by
        rcases htarget a ha with ⟨hl, hv, hpa⟩ | ⟨hl, hcalm⟩
        · exact relabelTree_nondef_returns _ d a p cs hl hv hpa hc
            (fun b hb => Option.some.inj (hb.symm.trans ha)) f (by omega)
        · exact HL _ d a hcalm hl f (by omega)
      obtain ⟨⟨h6, d6⟩, hin⟩ := inner
      simp only [hin]
      exact ⟨_, Eq.refl _⟩
    · rw [if_neg hlen]
      exact ⟨_, Eq.refl _⟩

/-- On a calm list `relabelTree` returns. -/
theorem relabelTree_calm : ∀ (n : Nat) (h : Heap) (d : Dirty) (x : Ref),
    Calm h n x → (h x).type = "list" →
      ∀ fuel, 2 * n + 2 ≤ fuel → ∃ st2, relabelTree fuel (h, d) x = .ok st2 := by
  intro n
  induction n with
  | zero =>
    intro h d x c hl
    exact absurd hl (literal_not_list c)
  | succ n ih =>
    intro h0 d x c hl fuel hf
    obtain ⟨f, rfl⟩ : ∃ f, fuel = f + 1 := ⟨fuel - 1, by omega⟩
    rcases c with c | ⟨-, cs, hc, hkids, hone⟩
    · exact absurd hl (literal_not_list c)
    obtain ⟨h1, hh1⟩ : ∃ h1 : Heap, h1 = h0.set x { h0 x with attr := [] } := ⟨_, Eq.refl _⟩
    have a1 : AttrOnly h0 h1 := by rw [hh1]; exact AttrOnly_set h0 x []
    have hl1 : (h1 x).type = "list" := by rw [(a1 x).2]; exact hl
    obtain ⟨h2, hh2⟩ : ∃ h2 : Heap, h2 = (match (h1 x).parent with
        | none => h1
        | some p =>
          if (h1 p).attr.contains "definition" ∧ (h1 x).siblingIndex = some 1 then
            (imbueAttr h1 x (.tag "assignee")).2
          else h1) := ⟨_, Eq.refl _⟩
    have a2 : AttrOnly h1 h2 := by
      rw [hh2]
      split
      · exact AttrOnly.sameAttr _
      · split
        · exact AttrOnly_imbueAttr _ _ _
        · exact AttrOnly.sameAttr _
    have hc2 : (h2 x).children = some cs := by
      rw [(a2 x).1.children, (a1 x).1.children]; exact hc
    have hrec : ∀ st c st2, Soft h0 st.1 → relabelTree f st c = .ok st2 → Soft h0 st2.1 :=
      fun st c st2 hs r => hs.transSoft (relabelTree_pres f st c st2 r).1.presSoft
    have hret : ∀ c ∈ cs, ∀ st : Heap × Dirty, Soft h0 st.1 →
        ∃ st2, relabelTree f st c = .ok st2 := by
      intro c hcm st hs
      obtain ⟨h, dd⟩ := st
      have hcc := Calm.calmSoft hs n c (hkids c hcm).2
      rcases hcc.literal_or_list with hlit | hlist
      · refine relabelTree_settles n ih h dd c hlit (Settles.settlesSoft hs ?_) f (by omega)
        refine ⟨x, cs, (hkids c hcm).1, hc, ?_⟩
        intro a ha
        have ham := List.getElem?_mem ha
        rcases (hkids a ham).2.literal_or_list with hla | hla
        · refine Or.inl ⟨hla, ?_, (hkids a ham).1⟩
          cases hv : DEFINITION_SYMBOLS.contains (h0 a).value with
          | false => rfl
          | true => exact absurd ⟨hla, hv⟩ (hone a ha)
        · exact Or.inr ⟨hla, (hkids a ham).2⟩
      · exact ih h dd c hcc hlist f (by omega)
    obtain ⟨st2, run⟩ := relabelChildren_returns (relabelTree f) (Soft h0) hrec cs hret
      (h2, d) (a1.transAttr a2).toSoft
    exact ⟨st2, by simp only [relabelTree, ← hh1, if_pos hl1, ← hh2, hc2, run]⟩

/-! ## Type derivation (C6) -/

/-- Claim C6, as stated, fails for the value `Infinity`: `parseFloat` reads it as the
infinite number, which is not `NaN`, so `relabelTree` gives the node the type `numeric`
although its value does not parse as a finite number. -/
theorem relabel_infinity_numeric :
    (infinityHeap 17).literal ∧ (infinityHeap 17).parent = some 15
      ∧ (infinityHeap 17).value = "Infinity"
      ∧ parseFloatKind "Infinity" = .infinity
      ∧ (relabelTree 1 (infinityHeap, []) 17).map (fun st => (st.1 17).type)
          = .ok "numeric" :=
  ⟨by decide, rfl, rfl, by decide, rfl⟩

/-- Claim C6, amended.  For every literal node and every value: whenever `relabelTree`
returns, the value is unchanged and the type of the node is `proto` iff the value is empty,
`numeric` iff the value is not empty and `parseFloat` of it is not `NaN` (a value that
starts with a decimal literal or with `Infinity`, after white space and a sign), and
`symbol` otherwise.  It returns, at every fuel from `2 n + 3` on, when the node has a parent
whose child at index 1, if any, is a literal of that parent without definition keyword or
a list that is calm up to depth `n`. -/
theorem relabelTree_type (h : Heap) (d : Dirty) (t : Ref) (hlit : (h t).literal) :
    (∀ fuel h2 d2, relabelTree fuel (h, d) t = .ok (h2, d2) →
        (h2 t).value = (h t).value
        ∧ ((h2 t).type = "proto" ↔ (h t).value.length = 0)
        ∧ ((h2 t).type = "numeric" ↔
            (h t).value.length ≠ 0 ∧ parseFloatKind (h t).value ≠ .nan)
        ∧ ((h2 t).type = "symbol" ↔
            (h t).value.length ≠ 0 ∧ parseFloatKind (h t).value = .nan))
    ∧ (∀ n, Settles h n t → ∀ fuel, 2 * n + 3 ≤ fuel →
        ∃ h2 d2, relabelTree fuel (h, d) t = .ok (h2, d2)) := by
  constructor
  · intro fuel h2 d2 run
    obtain ⟨P, hty⟩ := relabelTree_pres fuel (h, d) t (h2, d2) run
    have hty2 : (h2 t).type = typeOfValue (h t).value := hty (literal_not_list hlit)
    refine ⟨(P t).1.value, ?_, ?_, ?_⟩
    · rw [hty2]; unfold typeOfValue
      by_cases hl : (h t).value.length = 0
      · simp [hl]
      · by_cases hn : parseFloatIsNaN (h t).value = true <;> simp [hl, hn]
    · rw [hty2]; unfold typeOfValue
      by_cases hl : (h t).value.length = 0
      · simp [hl]
      · by_cases hn : parseFloatIsNaN (h t).value = true
        · have : parseFloatKind (h t).value = .nan := by simpa [parseFloatIsNaN] using hn
          simp [hl, hn, this]
        · have : parseFloatKind (h t).value ≠ .nan := by simpa [parseFloatIsNaN] using hn
          simp [hl, hn, this]
    · rw [hty2]; unfold typeOfValue
      by_cases hl : (h t).value.length = 0
      · simp [hl]
      · by_cases hn : parseFloatIsNaN (h t).value = true
        · have : parseFloatKind (h t).value = .nan := by simpa [parseFloatIsNaN] using hn
          simp [hl, hn, this]
        · have : parseFloatKind (h t).value ≠ .nan := by simpa [parseFloatIsNaN] using hn
          simp [hl, hn, this]
  · intro n S fuel hf
    obtain ⟨⟨h2, d2⟩, run⟩ := relabelTree_settles n (relabelTree_calm n) h d t hlit S fuel hf
    exact ⟨h2, d2, run⟩

theorem relabelTree_type_witness :
    (∃ h2 d2, relabelTree 3 (numberHeap, []) 17 = .ok (h2, d2) ∧ (h2 17).type = "numeric")
      ∧ (∃ h2 d2, relabelTree 3 (numberHeap, []) 18 = .ok (h2, d2) ∧ (h2 18).type = "proto") := by
  have S17 : Settles numberHeap 0 17 :=
    ⟨15, [16, 17, 18], rfl, rfl, fun a ha => by
      have : a = 17 := (Option.some.inj ha).symm
      subst this
      exact Or.inl ⟨by decide, by decide, rfl⟩⟩
  have S18 : Settles numberHeap 0 18 :=
    ⟨15, [16, 17, 18], rfl, rfl, fun a ha => by
      have : a = 17 := (Option.some.inj ha).symm
      subst this
      exact Or.inl ⟨by decide, by decide, rfl⟩⟩
  constructor
  · obtain ⟨h2, d2, run⟩ := (relabelTree_type numberHeap [] 17 (by decide)).2 0 S17 3 (by decide)
    refine ⟨h2, d2, run, ?_⟩
    exact ((relabelTree_type numberHeap [] 17 (by decide)).1 3 h2 d2 run).2.2.1.mpr
      ⟨by decide, by decide⟩
  · obtain ⟨h2, d2, run⟩ := (relabelTree_type numberHeap [] 18 (by decide)).2 0 S18 3 (by decide)
    refine ⟨h2, d2, run, ?_⟩
    exact ((relabelTree_type numberHeap [] 18 (by decide)).1 3 h2 d2 run).2.1.mpr (by decide)

/-! ## Definition propagation (C7) and literal tags (C8) at a failing input -/

/-- Claim C7 at a failing input.  In the seed tree the first `n` of `(* n n)`, the child at
index 1 of its parent list, holds the definition keyword `define-syntax`.  `relabelTree` on
it imbues the tags and then calls itself on the same node without end: it never returns, so
there is no state after the call.  In the embedding the call is out of fuel at every
fuel. -/
theorem relabel_define_syntax_never_returns :
    (defineSyntaxHeap 17).literal ∧ (defineSyntaxHeap 17).value = "define-syntax"
      ∧ (defineSyntaxHeap 17).parent = some 15 ∧ (defineSyntaxHeap 15).type = "list"
      ∧ (defineSyntaxHeap 15).children = some [16, 17, 18]
      ∧ ∀ fuel d, relabelTree fuel (defineSyntaxHeap, d) 17 = .error .fuel :=
  ⟨by decide, rfl, rfl, rfl, rfl, fun fuel d =>
    relabelTree_diverges fuel defineSyntaxHeap d 17 15 [16, 17, 18] (by decide) (by decide)
      rfl rfl rfl⟩

/-- Claim C8 at a failing input.  In the seed tree the `n` of `(goose n)` holds the value
`define`; its parent holds `assignee` and its sibling index is 1, so the claim expects the
tags `keyword`, `definition` and `boundVariable`.  `relabelTree` on it never returns: it
calls itself on the same node without end, before the `boundVariable` step.  In the
embedding the call is out of fuel at every fuel. -/
theorem relabel_define_never_tags :
    (defineHeap 14).literal ∧ (defineHeap 14).value = "define"
      ∧ (defineHeap 14).parent = some 12 ∧ (defineHeap 14).siblingIndex = some 1
      ∧ "assignee" ∈ (defineHeap 12).attr
      ∧ (defineHeap 12).children = some [13, 14]
      ∧ ∀ fuel d, relabelTree fuel (defineHeap, d) 14 = .error .fuel :=
  ⟨by decide, rfl, rfl, rfl, by decide, rfl, fun fuel d =>
    relabelTree_diverges fuel defineHeap d 14 12 [13, 14] (by decide) (by decide)
      rfl rfl rfl⟩

/-! ## The split on space, when the handler returns -/

/-- The split on space, for every run of the handler that returns.  For a literal `tree`
with parent `p` and sibling index `i`, pre-edit value `v` and cursor offset `c` after the
keystroke with `1 ≤ c ≤ |v| + 1`: the value of `tree` is `v[0, c-1)`, the new object is the
child of `p` right after position `i` and has the value `v[c-1, |v|)`, the two values
concatenate to `v`, both nodes carry the type derived from their value, and the focus is the
new node, whose id is `lastId + 1`, at offset 0. -/
theorem split_when_returns (fuel : Nat) (w : World) (tree : Ref) (e : InputEvent)
    (p : Ref) (cs : List Ref) (i : Nat) (w2 : World) (r : Option Ref)
    (hdata : e.data = some " ")
    (hc1 : 1 ≤ e.focusOffset) (hc2 : e.focusOffset ≤ (w.heap tree).value.length + 1)
    (hlit : (w.heap tree).literal)
    (hp : (w.heap tree).parent = some p) (hc : (w.heap p).children = some cs)
    (hi : (w.heap tree).siblingIndex = some i)
    (hnt : w.nextRef ≠ tree) (hnp : w.nextRef ≠ p)
    (run : onInput fuel w tree e = .ok (w2, r)) :
    (w2.heap tree).value = String.mk ((w.heap tree).value.data.take (e.focusOffset - 1))
      ∧ (w2.heap w.nextRef).value
          = String.mk ((w.heap tree).value.data.drop (e.focusOffset - 1))
      ∧ (w2.heap tree).value ++ (w2.heap w.nextRef).value = (w.heap tree).value
      ∧ (w2.heap p).children = some (spliceIn cs (i + 1) w.nextRef)
      ∧ (w2.heap tree).type = typeOfValue (w2.heap tree).value
      ∧ (w2.heap w.nextRef).type = typeOfValue (w2.heap w.nextRef).value
      ∧ w2.editingState = { focused := true, focusedId := some (w.lastId + 1), cursorOffset := 0 }
      ∧ (w2.heap w.nextRef).id = some (w.lastId + 1)
      ∧ r = some p := by
  have htn : tree ≠ w.nextRef := fun e => hnt e.symm
  have hpn : p ≠ w.nextRef := fun e => hnp e.symm
  obtain ⟨h1, hh1⟩ : ∃ h1 : Heap, h1 = w.heap.set tree { w.heap tree with
      value := substr (w.heap tree).value 0 (some ((e.focusOffset : Int) - 1)) } :=
    ⟨_, Eq.refl _⟩
  obtain ⟨h2, hh2⟩ : ∃ h2 : Heap, h2 = h1.set w.nextRef { blank with
      value := substr (w.heap tree).value ((e.focusOffset : Int) - 1) none } := ⟨_, Eq.refl _⟩
  have e1t : h1 tree = { w.heap tree with
      value := substr (w.heap tree).value 0 (some ((e.focusOffset : Int) - 1)) } := by
    rw [hh1, Heap.set_same]
  have e2t : h2 tree = h1 tree := by rw [hh2, Heap.set_other _ _ _ _ htn]
  have e2n : h2 w.nextRef = { blank with
      value := substr (w.heap tree).value ((e.focusOffset : Int) - 1) none } := by
    rw [hh2, Heap.set_same]
  have e2p : (h2 p).children = some cs := by
    rw [hh2, Heap.set_other _ _ _ _ hpn, hh1]
    by_cases hpt : p = tree
    · rw [hpt, Heap.set_same]; rw [hpt] at hc; exact hc
    · rw [Heap.set_other _ _ _ _ hpt]; exact hc
  obtain ⟨h3, runI, I⟩ := insertSiblingAfter_run h2 w.lastId tree w.nextRef p cs i
    (by rw [e2t, e1t]; exact hp) e2p (by rw [e2t, e1t]; exact hi) hnt hnp
  simp only [onInput, hdata, if_true, ← hh1, ← hh2, runI] at run
  cases hr4 : relabelTree fuel (h3, w.dirtyNodes) tree with
  | error err => rw [hr4] at run; exact Except.noConfusion run
  | ok st4 =>
    rw [hr4] at run
    dsimp only at run
    cases hr5 : relabelTree fuel st4 w.nextRef with
    | error err => rw [hr5] at run; exact Except.noConfusion run
    | ok st5 =>
      obtain ⟨h5, d5⟩ := st5
      rw [hr5] at run
      dsimp only at run
      injection run with run
      injection run with ew er
      obtain ⟨P4, ty4⟩ := relabelTree_pres fuel (h3, w.dirtyNodes) tree st4 hr4
      obtain ⟨P5, ty5⟩ := relabelTree_pres fuel st4 w.nextRef (h5, d5) hr5
      have o3t := I.others tree htn
      have v3t : (h3 tree).value
          = String.mk ((w.heap tree).value.data.take (e.focusOffset - 1)) := by
        rw [o3t.2.2.1, e2t, e1t]
        exact substr_left _ _ hc1 hc2
      have v3n : (h3 w.nextRef).value
          = String.mk ((w.heap tree).value.data.drop (e.focusOffset - 1)) := by
        rw [I.fresh.2.2.2.1, e2n]
        exact substr_right _ _ hc1 hc2
      have v5t : (h5 tree).value = (h3 tree).value :=
        (P5 tree).1.value.trans (P4 tree).1.value
      have v5n : (h5 w.nextRef).value = (h3 w.nextRef).value :=
        (P5 w.nextRef).1.value.trans (P4 w.nextRef).1.value
      have lit3t : (h3 tree).literal := by
        unfold Node.literal; rw [o3t.2.1, e2t, e1t]; exact hlit
      have lit4n : (st4.1 w.nextRef).literal := by
        apply P4.presSoft.literal
        unfold Node.literal; rw [I.fresh.2.1]; exact Or.inl (Eq.refl _)
      have t4t : (st4.1 tree).type = typeOfValue (h3 tree).value :=
        ty4 (literal_not_list lit3t)
      have t5n : (h5 w.nextRef).type = typeOfValue (st4.1 w.nextRef).value :=
        ty5 (literal_not_list lit4n)
      have t5t : (h5 tree).type = typeOfValue (h3 tree).value := by
        rcases (P5 tree).2 with e5 | ⟨_, e5⟩
        · rw [e5, t4t]
        · rw [e5, (P4 tree).1.value]
      have id5 : (h5 w.nextRef).id = some (w.lastId + 1) := by
        rw [(P5 w.nextRef).1.id, (P4 w.nextRef).1.id]; exact I.fresh.1
      have par5 : (h5 tree).parent = some p := by
        rw [(P5 tree).1.parent, (P4 tree).1.parent, I.parent, if_neg htn, e2t, e1t]
        exact hp
      have ch5 : (h5 p).children = some (spliceIn cs (i + 1) w.nextRef) := by
        rw [(P5 p).1.children, (P4 p).1.children, I.children, if_pos (Eq.refl _)]
      subst ew
      refine ⟨v5t.trans v3t, v5n.trans v3n, ?_, ch5, ?_, ?_, ?_, id5, ?_⟩
      · show (h5 tree).value ++ (h5 w.nextRef).value = _
        rw [v5t, v5n, v3t, v3n]
        show String.mk (List.take (e.focusOffset - 1) (w.heap tree).value.data
          ++ List.drop (e.focusOffset - 1) (w.heap tree).value.data) = _
        rw [List.take_append_drop]
      · show (h5 tree).type = typeOfValue (h5 tree).value
        rw [t5t, v5t]
      · show (h5 w.nextRef).type = typeOfValue (h5 w.nextRef).value
        rw [t5n, (P5 w.nextRef).1.value]
      · show ({ focused := true, focusedId := (h5 w.nextRef).id, cursorOffset := 0 }
          : EditingState) = _
        rw [id5]
      · rw [← er]; exact par5

/-! ## Arrow navigation at a text boundary (C11) -/

example : onArrowKey 5 taggedHeap editingState0 "ArrowRight" 1 14
    = .ok ({ focused := true, focusedId := some 6, cursorOffset := 0 }, true) := by rfl

example : onArrowKey 5 taggedHeap editingState0 "ArrowLeft" 0 16
    = .ok ({ focused := true, focusedId := some 4, cursorOffset := 1 }, true) := by rfl

example : onArrowKey 5 taggedHeap editingState0 "ArrowRight" 0 17
    = .ok ({ focused := false, focusedId := some 0, cursorOffset := 0 }, false) := by rfl


theorem EdgeChain_mem {h : Heap} {root : Ref} {kids : Forest} (T : TreeAt h root kids)
    {left : Bool} {x a : Ref} (chain : EdgeChain h left x a)
    (hx : x ∈ (Forest.cons root kids .nil).preorder) :
    a ∈ (Forest.cons root kids .nil).preorder := by
  induction chain with
  | self x => exact hx
  | up x p a cs i hp _ _ _ _ ih =>
    apply ih
    have hxk : x ∈ kids.preorder := by
      simp only [Forest.preorder, List.append_nil, List.mem_cons] at hx
      rcases hx with e | e
      · have hroot := T.parents.1
        rw [e, hroot] at hp
        exact Option.noConfusion hp
      · exact e
    obtain ⟨y, hy, hpy⟩ := T.parent_in_tree hxk
    have : y = p := Option.some.inj (hpy.symm.trans hp)
    rw [← this]; exact hy

theorem isLastChild_eq (h : Heap) (x p : Ref) (cs : List Ref) (i : Nat)
    (hp : (h x).parent = some p) (hc : (h p).children = some cs)
    (hi : (h x).siblingIndex = some i) :
    isLastChild h x = .ok (decide (i + 1 = cs.length)) := by
  simp only [isLastChild, hp, hc, hi]
  congr 1
  simp only [decide_eq_decide]
  omega

theorem climb_chain {h : Heap} (left : Bool) {q a : Ref} (chain : EdgeChain h left q a)
    {p : Ref} {cs : List Ref} {i : Nat} (hp : (h a).parent = some p)
    (hc : (h p).children = some cs) (hi : (h a).siblingIndex = some i)
    (hin : if left then i ≠ 0 else i + 1 ≠ cs.length) :
    ∃ N, ∀ fuel, N ≤ fuel →
      (if left then climbLeft fuel h (some q) else climbRight fuel h (some q))
        = .ok (some a) := by
  induction chain with
  | self x =>
    refine ⟨1, fun fuel hf => ?_⟩
    obtain ⟨f, rfl⟩ : ∃ f, fuel = f + 1 := ⟨fuel - 1, by omega⟩
    cases left with
    | true =>
      simp only [if_true] at hin ⊢
      have : ¬ (some i = some 0) := fun e => hin (Option.some.inj e)
      simp only [climbLeft, hi, if_neg this]
    | false =>
      simp only [Bool.false_eq_true, if_false] at hin ⊢
      simp only [climbRight, isLastChild_eq h x p cs i hp hc hi, decide_eq_false hin]
  | up x p2 a cs2 i2 hp2 hc2 hi2 hedge _ ih =>
    obtain ⟨N, hN⟩ := ih hp hi
    refine ⟨N + 1, fun fuel hf => ?_⟩
    obtain ⟨f, rfl⟩ : ∃ f, fuel = f + 1 := ⟨fuel - 1, by omega⟩
    have := hN f (by omega)
    cases left with
    | true =>
      simp only [if_true] at hedge this ⊢
      subst hedge
      simp only [climbLeft, hi2, if_true, hp2, this]
    | false =>
      simp only [Bool.false_eq_true, if_false] at hedge this ⊢
      simp only [climbRight, isLastChild_eq h x p2 cs2 i2 hp2 hc2 hi2, decide_eq_true hedge,
        hp2, this]

/-- The arrow branch on a literal `x` from which the climb in the travel direction stops at
`a`, a node that is not at the edge of its parent. -/
theorem onArrowKey_moves (h : Heap) (root : Ref) (kids : Forest) (T : TreeAt h root kids)
    (ne : ∀ x ∈ kids.preorder, (h x).type = "list" → (h x).kids ≠ [])
    (left : Bool) (x a p : Ref) (cs : List Ref) (i : Nat)
    (hx : x ∈ (Forest.cons root kids .nil).preorder) (chain : EdgeChain h left x a)
    (hp : (h a).parent = some p) (hc : (h p).children = some cs)
    (hi : (h a).siblingIndex = some i) (hcs : cs[i]? = some a)
    (hin : if left then i ≠ 0 else i + 1 ≠ cs.length) :
    ∃ s y, cs[if left then i - 1 else i + 1]? = some s ∧ s ∈ kids.preorder
      ∧ y ∈ kids.preorder ∧ (h y).type ≠ "list" ∧ Descends h left s y
      ∧ ∃ N, ∀ fuel, N ≤ fuel → ∀ es,
          onArrowKey fuel h es (arrowKey left) (boundary h left x) x
            = .ok ({ focused := true, focusedId := (h y).id,
                     cursorOffset := if left then (h y).value.length else 0 }, true) := by
  have hilt : i < cs.length := by
    by_contra hge
    rw [List.getElem?_eq_none (by omega)] at hcs
    exact Option.noConfusion hcs
  have ha := EdgeChain_mem T chain hx
  have hak : a ∈ kids.preorder := by
    simp only [Forest.preorder, List.append_nil, List.mem_cons] at ha
    rcases ha with e | e
    · have hroot := T.parents.1
      rw [e, hroot] at hp
      exact Option.noConfusion hp
    · exact e
  obtain ⟨pp, hpp, hpe⟩ := T.parent_in_tree hak
  have hppp : pp = p := Option.some.inj (hpe.symm.trans hp)
  subst hppp
  obtain ⟨s, hs⟩ : ∃ s, cs[if left then i - 1 else i + 1]? = some s := by
    have hlt : (if left then i - 1 else i + 1) < cs.length := by
      cases left with
      | true => simp only [if_true]; omega
      | false =>
        simp only [Bool.false_eq_true, if_false] at hin ⊢; omega
    exact ⟨cs[if left then i - 1 else i + 1], List.getElem?_eq_getElem hlt⟩
  have hsk : s ∈ kids.preorder := T.child_mem hpp hc (List.getElem?_mem hs)
  obtain ⟨y, hy, hdesc, hty, hrun⟩ := descend_total left kids T.holds.2.1 ne s hsk
  refine ⟨s, y, hs, hsk, hy, hty, hdesc, ?_⟩
  -- the sibling of `a` in the travel direction, as the source computes it
  have hsib : childAfter h a (if left then -1 else 1) = .ok (some s) := by
    cases left with
    | true =>
      simp only [if_true] at hin hs ⊢
      simp [childAfter, hp, hc, hi, arrayAt_pred cs i (by omega), hs]
    | false =>
      simp only [Bool.false_eq_true, if_false] at hs ⊢
      simp [childAfter, hp, hc, hi, arrayAt_succ, hs]
  cases chain with
  | self =>
    refine ⟨kids.height + 1, fun fuel hf es => ?_⟩
    have hd := hrun fuel (by omega)
    cases left with
    | true =>
      simp only [if_true] at hin hsib
      have h0 : ¬ (some i = some 0) := fun e => hin (Option.some.inj e)
      simp [onArrowKey, arrowStart, arrowKey, boundary, hi, h0, hsib, hd]
    | false =>
      simp only [Bool.false_eq_true, if_false] at hin hsib
      simp [onArrowKey, arrowStart, arrowKey, boundary, isLastChild_eq h x pp cs i hp hc hi, hin, hsib, hd]
  | up _ p2 _ cs2 i2 hp2 hc2 hi2 hedge chain2 =>
    obtain ⟨N, hN⟩ := climb_chain left chain2 hp hc hi hin
    refine ⟨max N (kids.height + 1), fun fuel hf es => ?_⟩
    have hd := hrun fuel (by omega)
    have hcl := hN fuel (by omega)
    cases left with
    | true =>
      simp only [if_true] at hedge hsib hcl
      subst hedge
      simp [onArrowKey, arrowStart, arrowKey, boundary, hi2, hp2, hcl, hsib, hd]
    | false =>
      simp only [Bool.false_eq_true, if_false] at hedge hsib hcl
      simp [onArrowKey, arrowStart, arrowKey, boundary, isLastChild_eq h x p2 cs2 i2 hp2 hc2 hi2, hedge,
        hp2, hcl, hsib, hd]

/-- Claim C11.  On a heap that stores an index-consistent tree of valid nodes without empty
lists, let `x` be a non-root node (in particular a literal) and `a` the nearest
ancestor-or-self of `x` that is not the last child of its parent (not the first child, for
`ArrowLeft`): every node strictly below `a` on the way up from `x` is a last (first) child.
Then `ArrowRight` with the cursor at offset `value.length` of `x` (`ArrowLeft` at offset 0)
returns `{ refocus: true }` at every fuel from some bound on, and the new focus is the
literal `y` reached from the next (previous) sibling `s` of `a` by descending into the first
(last) child of every list on the way, with cursor offset 0 (the length of the value of
`y`). -/
theorem arrow_boundary_navigation (h : Heap) (root : Ref) (kids : Forest)
    (T : TreeAt h root kids) (inv : ∀ x ∈ kids.preorder, IndexOK h x)
    (typed : ∀ x ∈ kids.preorder, (h x).valid)
    (ne : ∀ x ∈ kids.preorder, (h x).type = "list" → (h x).kids ≠ [])
    (left : Bool) (x a p : Ref) (cs : List Ref) (i : Nat) (hx : x ∈ kids.preorder)
    (chain : EdgeChain h left x a)
    (hp : (h a).parent = some p) (hc : (h p).children = some cs)
    (hi : (h a).siblingIndex = some i)
    (hin : if left then i ≠ 0 else i + 1 ≠ cs.length) :
    ∃ s y, cs[if left then i - 1 else i + 1]? = some s ∧ Descends h left s y
      ∧ y ∈ kids.preorder ∧ (h y).literal
      ∧ ∃ N, ∀ fuel, N ≤ fuel → ∀ es,
          onArrowKey fuel h es (arrowKey left) (boundary h left x) x
            = .ok ({ focused := true, focusedId := (h y).id,
                     cursorOffset := if left then (h y).value.length else 0 }, true) := by
  have hxn : x ∈ (Forest.cons root kids .nil).preorder := by simp [Forest.preorder, hx]
  have ha := EdgeChain_mem T chain hxn
  have hak : a ∈ kids.preorder := by
    simp only [Forest.preorder, List.append_nil, List.mem_cons] at ha
    rcases ha with e | e
    · have hroot := T.parents.1
      rw [e, hroot] at hp
      exact Option.noConfusion hp
    · exact e
  obtain ⟨p2, cs2, i2, hp2, hc2, hi2, hcs⟩ := inv a hak
  have e1 : p2 = p := Option.some.inj (hp2.symm.trans hp)
  subst e1
  have e2 : cs2 = cs := Option.some.inj (hc2.symm.trans hc)
  subst e2
  have e3 : i2 = i := Option.some.inj (hi2.symm.trans hi)
  subst e3
  obtain ⟨s, y, hs, -, hy, hty, hdesc, run⟩ := onArrowKey_moves h root kids T ne left x a p2 cs2
    i2 hxn chain hp hc hi hcs hin
  refine ⟨s, y, hs, hdesc, hy, ?_, run⟩
  rcases typed y hy with ⟨hl, _⟩ | hlit
  · exact absurd hl hty
  · exact hlit

theorem arrow_boundary_navigation_witness :
    ∃ s y, [11, 12, 15][if false then 1 - 1 else 1 + 1]? = some s
      ∧ Descends taggedHeap false s y ∧ y ∈ seedKids.preorder ∧ (taggedHeap y).literal
      ∧ ∃ N, ∀ fuel, N ≤ fuel → ∀ es,
          onArrowKey fuel taggedHeap es (arrowKey false) (boundary taggedHeap false 14) 14
            = .ok ({ focused := true, focusedId := (taggedHeap y).id,
                     cursorOffset := if false then (taggedHeap y).value.length else 0 },
                   true) :=
  arrow_boundary_navigation taggedHeap 10 seedKids TreeAt_tagged IndexOK_tagged (by decide)
    (by decide) false 14 12 10 [11, 12, 15] 1 (by decide)
    (EdgeChain.up 14 12 12 [13, 14] 1 rfl rfl rfl (by decide) (EdgeChain.self 12))
    rfl rfl rfl (by decide)

/-! ## Arrow navigation past the edge of the tree (C12) -/

/-- Claim C12 at a failing input.  In the tagged seed tree `define` is the first child of
the root and the second `n` of `(* n n)` is the last child of the last child of the root.
`ArrowLeft` at offset 0 of `define` climbs to the root, whose `siblingIndex` is `undefined`,
and then reads `parentNode.parent.children` with `parentNode.parent` `undefined`;
`ArrowRight` at the end of that `n` reads `parentNode.parent.children` of the root inside
the loop test.  Both runs end in a `TypeError` (from fuel 1 and 2 on; below that the
embedding is out of fuel), so neither completes as a no-op. -/
theorem arrow_past_edge_throws :
    (taggedHeap 11).literal ∧ (taggedHeap 11).parent = some 10
      ∧ (taggedHeap 11).siblingIndex = some 0 ∧ (taggedHeap 10).parent = none
      ∧ (taggedHeap 10).siblingIndex = none
      ∧ (∀ fuel es, onArrowKey (fuel + 1) taggedHeap es "ArrowLeft" 0 11 = .error .typeError)
      ∧ (∀ fuel es r, onArrowKey fuel taggedHeap es "ArrowLeft" 0 11 ≠ .ok r)
      ∧ (taggedHeap 18).literal ∧ (taggedHeap 18).value = "n"
      ∧ (taggedHeap 18).parent = some 15 ∧ (taggedHeap 18).siblingIndex = some 2
      ∧ (taggedHeap 15).children = some [16, 17, 18] ∧ (taggedHeap 15).parent = some 10
      ∧ (taggedHeap 15).siblingIndex = some 2 ∧ (taggedHeap 10).children = some [11, 12, 15]
      ∧ (∀ fuel es, onArrowKey (fuel + 2) taggedHeap es "ArrowRight" 1 18 = .error .typeError)
      ∧ (∀ fuel es r, onArrowKey fuel taggedHeap es "ArrowRight" 1 18 ≠ .ok r) := by
  have left1 : ∀ fuel es, onArrowKey (fuel + 1) taggedHeap es "ArrowLeft" 0 11
      = .error .typeError := fun _ _ => rfl
  have right2 : ∀ fuel es, onArrowKey (fuel + 2) taggedHeap es "ArrowRight" 1 18
      = .error .typeError := fun _ _ => rfl
  refine ⟨by decide, rfl, rfl, rfl, rfl, left1, ?_, by decide, rfl, rfl, rfl, rfl, rfl, rfl,
    rfl, right2, ?_⟩
  · intro fuel es r
    rcases fuel with _ | f
    · have e0 : onArrowKey 0 taggedHeap es "ArrowLeft" 0 11 = .error .fuel := rfl
      rw [e0]; exact fun e => Except.noConfusion e
    · rw [left1]; exact fun e => Except.noConfusion e
  · intro fuel es r
    rcases fuel with _ | _ | f
    · have e0 : onArrowKey 0 taggedHeap es "ArrowRight" 1 18 = .error .fuel := rfl
      rw [e0]; exact fun e => Except.noConfusion e
    · have e1 : onArrowKey 1 taggedHeap es "ArrowRight" 1 18 = .error .fuel := rfl
      rw [e1]; exact fun e => Except.noConfusion e
    · rw [right2]; exact fun e => Except.noConfusion e

/-! ## Deleting the last remaining node (C13) -/

/-- The delete command on a node from which the climb reaches a node without parent: the
handler reports `refocus: false` and names that node as `deleteNode`, and the deferred
`deleteChild` of it reads `children` of its `undefined` parent. -/
theorem deleteCommand_sole_chain {h : Heap} {x d : Ref} (chain : SoleChain h x d)
    (hroot : (h d).parent = none) (es : EditingState) (key : String) :
    deleteChild h d = .error .typeError
      ∧ ∃ N, ∀ fuel, N ≤ fuel →
          onDeleteKey fuel h es key x = .ok (es, false, d)
          ∧ deleteCommand fuel h es key x = .error .typeError := by
  have hdel : deleteChild h d = .error .typeError := by
    simp only [deleteChild, hroot]
  refine ⟨hdel, ?_⟩
  have climb : ∃ N, ∀ fuel, N ≤ fuel →
      deleteNodeClimb fuel h es key x = .ok (es, { refocus := some false, deleteNode := d }) := by
    induction chain with
    | self x =>
      refine ⟨1, fun fuel hf => ?_⟩
      obtain ⟨f, rfl⟩ : ∃ f, fuel = f + 1 := ⟨fuel - 1, by omega⟩
      simp only [deleteNodeClimb, hroot]
    | up x p d hp hc _ ih =>
      obtain ⟨N, hN⟩ := ih hroot hdel
      refine ⟨N + 1, fun fuel hf => ?_⟩
      obtain ⟨f, rfl⟩ : ∃ f, fuel = f + 1 := ⟨fuel - 1, by omega⟩
      simp only [deleteNodeClimb, hp, hc, List.length_singleton, if_true]
      exact hN f (by omega)
  obtain ⟨N, hN⟩ := climb
  refine ⟨N, fun fuel hf => ?_⟩
  have hk : onDeleteKey fuel h es key x = .ok (es, false, d) := by
    simp only [onDeleteKey, hN fuel hf, Option.getD_some]
  exact ⟨hk, by simp only [deleteCommand, hk, treeUpdate, hdel]⟩

/-- Claim C13 at a failing input.  In the tree `(_)` the focused empty literal is the sole
child of the root.  The delete branch of the handler returns `refocus: false` with the root
as `deleteNode` and leaves the editing state alone, as the claim says; the deferred
`deleteChild(root)` then reads `children` of the `undefined` parent of the root, so the
command ends in a `TypeError` and does not run to completion.  The same holds for a literal
that is itself the root. -/
theorem delete_last_node_throws :
    TreeAt lastNodeHeap 0 lastNodeKids ∧ (lastNodeHeap 1).type = "proto"
      ∧ (lastNodeHeap 1).value = "" ∧ (lastNodeHeap 1).parent = some 0
      ∧ (lastNodeHeap 0).children = some [1] ∧ (lastNodeHeap 0).parent = none
      ∧ (∀ fuel es key, onDeleteKey (fuel + 2) lastNodeHeap es key 1 = .ok (es, false, 0))
      ∧ deleteChild lastNodeHeap 0 = .error .typeError
      ∧ (∀ fuel es key, deleteCommand (fuel + 2) lastNodeHeap es key 1 = .error .typeError)
      ∧ (∀ fuel es key r, deleteCommand fuel lastNodeHeap es key 1 ≠ .ok r)
      ∧ (∀ (h : Heap) (x : Ref) fuel es key, (h x).parent = none →
          deleteCommand (fuel + 1) h es key x = .error .typeError) := by
  have run2 : ∀ fuel es key, deleteCommand (fuel + 2) lastNodeHeap es key 1
      = .error .typeError := fun _ _ _ => rfl
  refine ⟨⟨by decide, by decide, by decide⟩, rfl, rfl, rfl, rfl, rfl, fun _ _ _ => rfl, rfl,
    run2, ?_, ?_⟩
  · intro fuel es key r
    rcases fuel with _ | _ | f
    · have e0 : deleteCommand 0 lastNodeHeap es key 1 = .error .fuel := rfl
      rw [e0]; exact fun e => Except.noConfusion e
    · have e1 : deleteCommand 1 lastNodeHeap es key 1 = .error .fuel := rfl
      rw [e1]; exact fun e => Except.noConfusion e
    · rw [run2]; exact fun e => Except.noConfusion e
  · intro h x fuel es key hp
    simp only [deleteCommand, onDeleteKey, deleteNodeClimb, hp, Option.getD_some, treeUpdate,
      deleteChild]

/-! ## The tag mutators (C14) -/

example : (imbueAttr taggedHeap 12 (.tags ["assignee", "definition", "definition"])).1 = true
    ∧ ((imbueAttr taggedHeap 12 (.tags ["assignee", "definition", "definition"])).2 12).attr
        = ["assignee", "definition"]
    ∧ (depriveAttr taggedHeap 11 (.tag "keyword")).1 = true
    ∧ ((depriveAttr taggedHeap 11 (.tag "keyword")).2 11).attr = ["definition"]
    ∧ (depriveAttr taggedHeap 11 (.tag "builtin")).1 = false := by decide

theorem imbueOne_spec (h : Heap) (t : Ref) (a : String) :
    ((imbueOne h t a).1 = true ↔ a ∉ (h t).attr)
      ∧ (∀ b, b ∈ ((imbueOne h t a).2 t).attr ↔ b ∈ (h t).attr ∨ b = a)
      ∧ ((h t).attr.Nodup → ((imbueOne h t a).2 t).attr.Nodup)
      ∧ (a ∈ (h t).attr → (imbueOne h t a).2 = h) := by
  unfold imbueOne
  by_cases hc : a ∈ (h t).attr
  · have hb : (h t).attr.contains a = true := by simpa using hc
    rw [if_pos hb]
    refine ⟨by simp [hc], fun b => ?_, fun nd => nd, fun _ => Eq.refl _⟩
    constructor
    · exact Or.inl
    · rintro (e | e)
      · exact e
      · rw [e]; exact hc
  · have hb : ¬ (h t).attr.contains a = true := by simpa using hc
    rw [if_neg hb]
    dsimp only
    rw [Heap.set_same]
    refine ⟨by simp [hc], fun b => by simp, fun nd => ?_, fun hin => absurd hin hc⟩
    dsimp only
    exact List.Nodup.append nd (List.nodup_singleton a) (by simpa using hc)

theorem depriveOne_spec (h : Heap) (t : Ref) (a : String) :
    ((depriveOne h t a).1 = true ↔ a ∈ (h t).attr)
      ∧ ((h t).attr.Nodup →
          ∀ b, b ∈ ((depriveOne h t a).2 t).attr ↔ b ∈ (h t).attr ∧ b ≠ a)
      ∧ ((h t).attr.Nodup → ((depriveOne h t a).2 t).attr.Nodup)
      ∧ (a ∉ (h t).attr → (depriveOne h t a).2 = h) := by
  unfold depriveOne
  by_cases hc : a ∈ (h t).attr
  · have hb : (h t).attr.contains a = true := by simpa using hc
    rw [if_pos hb]
    dsimp only
    rw [Heap.set_same]
    dsimp only
    refine ⟨by simp [hc], fun nd b => ?_, fun nd => nd.erase a, fun hin => absurd hc hin⟩
    rw [nd.mem_erase_iff]
    exact And.comm
  · have hb : ¬ (h t).attr.contains a = true := by simpa using hc
    rw [if_neg hb]
    refine ⟨by simp [hc], fun _ b => ?_, fun nd => nd, fun _ => Eq.refl _⟩
    constructor
    · intro hbm
      exact ⟨hbm, fun e => hc (e ▸ hbm)⟩
    · exact fun hbm => hbm.1

theorem imbue_fold (tree : Ref) (f : Bool × Heap → String → Bool × Heap)
    (hf : ∀ acc a, f acc a = ((imbueOne acc.2 tree a).1 || acc.1, (imbueOne acc.2 tree a).2)) :
    ∀ (as : List String) (acc : Bool × Heap),
    ((as.foldl f acc).1 = true ↔ acc.1 = true ∨ ∃ t ∈ as, t ∉ (acc.2 tree).attr)
      ∧ (∀ b, b ∈ ((as.foldl f acc).2 tree).attr ↔ b ∈ (acc.2 tree).attr ∨ b ∈ as)
      ∧ ((acc.2 tree).attr.Nodup → ((as.foldl f acc).2 tree).attr.Nodup)
      ∧ ((∀ t ∈ as, t ∈ (acc.2 tree).attr) → (as.foldl f acc).2 = acc.2) := by
  intro as
  induction as with
  | nil => intro acc; simp
  | cons a as ih =>
    intro acc
    obtain ⟨s1, s2, s3, s4⟩ := imbueOne_spec acc.2 tree a
    obtain ⟨i1, i2, i3, i4⟩ := ih (f acc a)
    have f1 : (f acc a).1 = ((imbueOne acc.2 tree a).1 || acc.1) := by rw [hf]
    have f2 : (f acc a).2 = (imbueOne acc.2 tree a).2 := by rw [hf]
    rw [List.foldl_cons]
    rw [f1, f2] at i1
    rw [f2] at i2 i3 i4
    refine ⟨?_, ?_, fun nd => i3 (s3 nd), ?_⟩
    · rw [i1, Bool.or_eq_true, s1]
      constructor
      · rintro ((e | e) | ⟨t, ht, e⟩)
        · exact Or.inr ⟨a, List.mem_cons_self _ _, e⟩
        · exact Or.inl e
        · exact Or.inr ⟨t, List.mem_cons_of_mem _ ht, fun hm => e ((s2 t).mpr (Or.inl hm))⟩
      · rintro (e | ⟨t, ht, e⟩)
        · exact Or.inl (Or.inr e)
        · by_cases hta : t = a
          · exact Or.inl (Or.inl (hta ▸ e))
          · rcases List.mem_cons.mp ht with e2 | e2
            · exact absurd e2 hta
            · refine Or.inr ⟨t, e2, fun hm => ?_⟩
              rcases (s2 t).mp hm with e3 | e3
              · exact e e3
              · exact hta e3
    · intro b
      rw [i2, s2, List.mem_cons, or_assoc]
    · intro hall
      have ha : a ∈ (acc.2 tree).attr := hall a (List.mem_cons_self _ _)
      have e2 : (imbueOne acc.2 tree a).2 = acc.2 := s4 ha
      have e3 := i4 (fun t ht => (s2 t).mpr (Or.inl (hall t (List.mem_cons_of_mem _ ht))))
      exact e3.trans e2

theorem deprive_fold (tree : Ref) (f : Bool × Heap → String → Bool × Heap)
    (hf : ∀ acc a, f acc a
      = ((depriveOne acc.2 tree a).1 || acc.1, (depriveOne acc.2 tree a).2)) :
    ∀ (as : List String) (acc : Bool × Heap),
    ((as.foldl f acc).1 = true ↔ acc.1 = true ∨ ∃ t ∈ as, t ∈ (acc.2 tree).attr)
      ∧ ((acc.2 tree).attr.Nodup →
          (∀ b, b ∈ ((as.foldl f acc).2 tree).attr ↔ b ∈ (acc.2 tree).attr ∧ b ∉ as)
          ∧ ((as.foldl f acc).2 tree).attr.Nodup)
      ∧ ((∀ t ∈ as, t ∉ (acc.2 tree).attr) → (as.foldl f acc).2 = acc.2) := by
  intro as
  induction as with
  | nil => intro acc; simp
  | cons a as ih =>
    intro acc
    obtain ⟨s1, s2, s3, s4⟩ := depriveOne_spec acc.2 tree a
    obtain ⟨i1, i2, i4⟩ := ih (f acc a)
    have f1 : (f acc a).1 = ((depriveOne acc.2 tree a).1 || acc.1) := by rw [hf]
    have f2 : (f acc a).2 = (depriveOne acc.2 tree a).2 := by rw [hf]
    rw [List.foldl_cons]
    rw [f1, f2] at i1
    rw [f2] at i2 i4
    have sub : ∀ b, b ∈ ((depriveOne acc.2 tree a).2 tree).attr → b ∈ (acc.2 tree).attr :=
      fun b hb => mem_depriveOne acc.2 tree a b tree hb
    refine ⟨?_, fun nd => ?_, ?_⟩
    · rw [i1, Bool.or_eq_true, s1]
      constructor
      · rintro ((e | e) | ⟨t, ht, e⟩)
        · exact Or.inr ⟨a, List.mem_cons_self _ _, e⟩
        · exact Or.inl e
        · exact Or.inr ⟨t, List.mem_cons_of_mem _ ht, sub t e⟩
      · rintro (e | ⟨t, ht, e⟩)
        · exact Or.inl (Or.inr e)
        · by_cases hta : t = a
          · exact Or.inl (Or.inl (hta ▸ e))
          · rcases List.mem_cons.mp ht with e2 | e2
            · exact absurd e2 hta
            · by_cases ha : a ∈ (acc.2 tree).attr
              · exact Or.inl (Or.inl ha)
              · exact Or.inr ⟨t, e2, by rw [s4 ha]; exact e⟩
    · obtain ⟨j1, j2⟩ := i2 (s3 nd)
      refine ⟨fun b => ?_, j2⟩
      rw [j1, s2 nd, List.mem_cons, not_or, and_assoc]
    · intro hall
      have ha : a ∉ (acc.2 tree).attr := hall a (List.mem_cons_self _ _)
      have e2 : (depriveOne acc.2 tree a).2 = acc.2 := s4 ha
      have e3 := i4 (fun t ht hm => hall t (List.mem_cons_of_mem _ ht) (sub t hm))
      exact e3.trans e2

theorem imbueAttr_fold (h : Heap) (tree : Ref) (T : AttrArg) :
    imbueAttr h tree T = T.toList.foldl (fun (acc : Bool × Heap) a =>
          let r := imbueOne acc.2 tree a
          (r.1 || acc.1, r.2)) (false, h) := by
  cases T with
  | tag a => simp [imbueAttr, AttrArg.toList]
  | tags as => rfl

theorem depriveAttr_fold (h : Heap) (tree : Ref) (T : AttrArg) :
    depriveAttr h tree T = T.toList.foldl (fun (acc : Bool × Heap) a =>
          let r := depriveOne acc.2 tree a
          (r.1 || acc.1, r.2)) (false, h) := by
  cases T with
  | tag a => simp [depriveAttr, AttrArg.toList]
  | tags as => rfl


/-- Claim C14.  For a node whose `attr` has no duplicate tags and an argument `T` that is
one tag or an array of tags: `imbueAttr` returns `true` iff some tag of `T` was absent, the
tags of `attr` afterwards are those held before together with those of `T`, `attr` still
has no duplicates, and a repeated call returns `false` and leaves the whole heap as it is;
`depriveAttr` returns `true` iff some tag of `T` was present, the tags of `attr` afterwards
are those held before that are not in `T`, `attr` still has no duplicates, and a repeated
call returns `false` and leaves the whole heap as it is. -/
theorem attr_mutators (h : Heap) (tree : Ref) (T : AttrArg) (nd : (h tree).attr.Nodup) :
    ((imbueAttr h tree T).1 = true ↔ ∃ t ∈ T.toList, t ∉ (h tree).attr)
      ∧ (∀ b, b ∈ ((imbueAttr h tree T).2 tree).attr ↔ b ∈ (h tree).attr ∨ b ∈ T.toList)
      ∧ ((imbueAttr h tree T).2 tree).attr.Nodup
      ∧ imbueAttr (imbueAttr h tree T).2 tree T = (false, (imbueAttr h tree T).2)
      ∧ ((depriveAttr h tree T).1 = true ↔ ∃ t ∈ T.toList, t ∈ (h tree).attr)
      ∧ (∀ b, b ∈ ((depriveAttr h tree T).2 tree).attr ↔ b ∈ (h tree).attr ∧ b ∉ T.toList)
      ∧ ((depriveAttr h tree T).2 tree).attr.Nodup
      ∧ depriveAttr (depriveAttr h tree T).2 tree T = (false, (depriveAttr h tree T).2) := by
  obtain ⟨a1, a2, a3, -⟩ := imbue_fold tree _ (fun _ _ => Eq.refl _) T.toList (false, h)
  obtain ⟨b1, b2, -⟩ := deprive_fold tree _ (fun _ _ => Eq.refl _) T.toList (false, h)
  obtain ⟨b2, b3⟩ := b2 nd
  rw [← imbueAttr_fold] at a1 a2 a3
  rw [← depriveAttr_fold] at b1 b2 b3
  obtain ⟨c1, -, -, c4⟩ := imbue_fold tree _ (fun _ _ => Eq.refl _) T.toList
    (false, (imbueAttr h tree T).2)
  obtain ⟨d1, -, d4⟩ := deprive_fold tree _ (fun _ _ => Eq.refl _) T.toList
    (false, (depriveAttr h tree T).2)
  rw [← imbueAttr_fold] at c1 c4
  rw [← depriveAttr_fold] at d1 d4
  refine ⟨by simpa using a1, a2, a3 nd, ?_, by simpa using b1, b2, b3, ?_⟩
  · have hall : ∀ t ∈ T.toList, t ∈ ((imbueAttr h tree T).2 tree).attr :=
      fun t ht => (a2 t).mpr (Or.inr ht)
    have e1 : (imbueAttr (imbueAttr h tree T).2 tree T).1 = false := by
      cases hb : (imbueAttr (imbueAttr h tree T).2 tree T).1 with
      | false => rfl
      | true =>
        rcases c1.mp hb with e | ⟨t, ht, e⟩
        · exact Bool.noConfusion e
        · exact absurd (hall t ht) e
    exact Prod.ext e1 (c4 hall)
  · have hall : ∀ t ∈ T.toList, t ∉ ((depriveAttr h tree T).2 tree).attr :=
      fun t ht hm => ((b2 t).mp hm).2 ht
    have e1 : (depriveAttr (depriveAttr h tree T).2 tree T).1 = false := by
      cases hb : (depriveAttr (depriveAttr h tree T).2 tree T).1 with
      | false => rfl
      | true =>
        rcases d1.mp hb with e | ⟨t, ht, e⟩
        · exact Bool.noConfusion e
        · exact absurd e (hall t ht)
    exact Prod.ext e1 (d4 hall)

theorem attr_mutators_witness :
    ((imbueAttr taggedHeap 12 (.tags ["assignee", "definition"])).1 = true
        ↔ ∃ t ∈ (AttrArg.tags ["assignee", "definition"]).toList, t ∉ (taggedHeap 12).attr)
      ∧ (∀ b, b ∈ ((imbueAttr taggedHeap 12 (.tags ["assignee", "definition"])).2 12).attr
          ↔ b ∈ (taggedHeap 12).attr ∨ b ∈ (AttrArg.tags ["assignee", "definition"]).toList)
      ∧ ((imbueAttr taggedHeap 12 (.tags ["assignee", "definition"])).2 12).attr.Nodup
      ∧ imbueAttr (imbueAttr taggedHeap 12 (.tags ["assignee", "definition"])).2 12
            (.tags ["assignee", "definition"])
          = (false, (imbueAttr taggedHeap 12 (.tags ["assignee", "definition"])).2)
      ∧ ((depriveAttr taggedHeap 12 (.tags ["assignee", "definition"])).1 = true
          ↔ ∃ t ∈ (AttrArg.tags ["assignee", "definition"]).toList, t ∈ (taggedHeap 12).attr)
      ∧ (∀ b, b ∈ ((depriveAttr taggedHeap 12 (.tags ["assignee", "definition"])).2 12).attr
          ↔ b ∈ (taggedHeap 12).attr ∧ b ∉ (AttrArg.tags ["assignee", "definition"]).toList)
      ∧ ((depriveAttr taggedHeap 12 (.tags ["assignee", "definition"])).2 12).attr.Nodup
      ∧ depriveAttr (depriveAttr taggedHeap 12 (.tags ["assignee", "definition"])).2 12
            (.tags ["assignee", "definition"])
          = (false, (depriveAttr taggedHeap 12 (.tags ["assignee", "definition"])).2) :=
  attr_mutators taggedHeap 12 (.tags ["assignee", "definition"]) (by decide)

/-! ## `retagTree` and node types (C15) -/

/-- Claim C15, as stated, fails: `retagTree` never reads the `type` of a node.  On the tree
`(x)` whose child has the type `bogus` it returns `lastId = 1` and tags both nodes, where the
claim expects an invalid-type error; `isLiteral` on that child is what throws. -/
theorem retagTree_accepts_unknown_type :
    Holds bogusHeap (.cons 0 bogusKids .nil) ∧ (bogusHeap 1).type = "bogus"
      ∧ ¬ (bogusHeap 1).valid
      ∧ (∀ fuel, (retagTree (fuel + 2) bogusHeap 0 0).map
            (fun r => (r.1, (r.2 0).id, (r.2 1).id, (r.2 1).type, (r.2 1).parent))
          = .ok (1, some 0, some 1, "bogus", some 0))
      ∧ isLiteral bogusHeap 1 = .error (.invalidType "bogus") :=
  ⟨by decide, rfl, by decide, fun _ => rfl, rfl⟩

/-- Claim C15, amended.  `retagTree` performs no check of node types: on every heap that
stores a finite tree, whatever the types of its nodes, it returns (at every fuel above the
height of the tree) with `lastId` the number of nodes minus one and leaves every `type` as
it was.  A node whose type is outside `list`, `symbol`, `numeric`, `proto` is reported by
the functions that dispatch on the type: on such a node `isLiteral`, `syntaxTreeToText` and
`relabelTree` end with the invalid-type error that carries the type. -/
theorem retagTree_ignores_type (h : Heap) (root : Ref) (kids : Forest)
    (hold : Holds h (.cons root kids .nil))
    (nodup : (Forest.cons root kids .nil).preorder.Nodup)
    (fuel : Nat) (hfuel : kids.height < fuel) :
    ∃ h2, retagTree fuel h root 0 = .ok ((Forest.cons root kids .nil).preorder.length - 1, h2)
      ∧ (∀ x, (h2 x).type = (h x).type)
      ∧ ∀ x, (h x).type ≠ "list" → ¬ (h x).literal →
          isLiteral h2 x = .error (.invalidType (h x).type)
          ∧ (∀ f, syntaxTreeToText (f + 1) h2 x = .error (.invalidType (h x).type))
          ∧ (∀ f d, relabelTree (f + 1) (h2, d) x = .error (.invalidType (h x).type)) := by
  obtain ⟨h2, run, -, -, content, -, -⟩ := retagTree_root h root kids hold nodup fuel hfuel
  have hty : ∀ x, (h2 x).type = (h x).type := fun x => (content x).1
  refine ⟨h2, by simpa [Forest.preorder] using run, hty, ?_⟩
  intro x hl hlit
  have hlit0 : ¬ ((h x).type = "symbol" ∨ (h x).type = "numeric" ∨ (h x).type = "proto") :=
    hlit
  have hsn : ¬ ((h x).type = "symbol" ∨ (h x).type = "numeric") :=
    fun e => hlit0 (e.elim Or.inl (fun e => Or.inr (Or.inl e)))
  have hpr : ¬ (h x).type = "proto" := fun e => hlit0 (Or.inr (Or.inr e))
  refine ⟨?_, fun f => ?_, fun f d => ?_⟩
  · simp only [isLiteral, hty, if_neg hlit0, if_neg hl]
  · simp only [syntaxTreeToText, hty, if_neg hl, if_neg hsn, if_neg hpr]
  · obtain ⟨h1, hh1⟩ : ∃ h1 : Heap, h1 = h2.set x { h2 x with attr := [] } := ⟨_, Eq.refl _⟩
    have a1 : AttrOnly h2 h1 := by rw [hh1]; exact AttrOnly_set h2 x []
    have t1 : (h1 x).type = (h x).type := (a1 x).2.trans (hty x)
    have hisl1 : isLiteral h1 x = .error (.invalidType (h x).type) := by
      simp only [isLiteral, t1, if_neg hlit0, if_neg hl]
    simp only [relabelTree, ← hh1, t1, if_neg hl, hisl1]

theorem retagTree_ignores_type_witness :
    ∃ h2, retagTree 2 bogusHeap 0 0
          = .ok ((Forest.cons 0 bogusKids .nil).preorder.length - 1, h2)
      ∧ (∀ x, (h2 x).type = (bogusHeap x).type)
      ∧ ∀ x, (bogusHeap x).type ≠ "list" → ¬ (bogusHeap x).literal →
          isLiteral h2 x = .error (.invalidType (bogusHeap x).type)
          ∧ (∀ f, syntaxTreeToText (f + 1) h2 x = .error (.invalidType (bogusHeap x).type))
          ∧ (∀ f d, relabelTree (f + 1) (h2, d) x
              = .error (.invalidType (bogusHeap x).type)) :=
  retagTree_ignores_type bogusHeap 0 bogusKids (by decide) (by decide) 2 (by decide)

/-! ## Propagation without end (C16) -/

/-- Claim C16 fails for a definition keyword at sibling index 1.  For every literal `t`
that is the child at index 1 of its parent and whose value is `define` or `define-syntax`,
`relabelTree(t)` never returns: after the tags are imbued, the propagation step calls
`relabelTree` on `parent.children[1]`, which is `t` itself, and that call does the same.  In
the embedding the call is out of fuel at every fuel, so no fuel gives a result. -/
theorem relabel_no_termination (h : Heap) (t : Ref) (hlit : (h t).literal)
    (hv : (h t).value = "define" ∨ (h t).value = "define-syntax")
    (hidx : IndexOK h t) (hone : (h t).siblingIndex = some 1) :
    (∀ fuel d, relabelTree fuel (h, d) t = .error .fuel)
      ∧ (∀ fuel d r, relabelTree fuel (h, d) t ≠ .ok r) := by
  obtain ⟨p, cs, i, hp, hc, hi, hcs⟩ := hidx
  have hi1 : i = 1 := Option.some.inj (hi.symm.trans hone)
  subst hi1
  have hdef : DEFINITION_SYMBOLS.contains (h t).value = true := by
    rcases hv with e | e <;> rw [e] <;> decide
  have run := fun fuel d => relabelTree_diverges fuel h d t p cs hlit hdef hp hc hcs
  exact ⟨run, fun fuel d r e => by rw [run] at e; exact Except.noConfusion e⟩

theorem relabel_no_termination_witness :
    (∀ fuel d, relabelTree fuel (defineHeap, d) 14 = .error .fuel)
      ∧ (∀ fuel d r, relabelTree fuel (defineHeap, d) 14 ≠ .ok r) :=
  relabel_no_termination defineHeap 14 (by decide) (Or.inl rfl) (by decide) rfl

/-! ## Where relabelling writes -/


/-- `literalHead` on a literal that holds a definition keyword and has a parent: the literal
holds `keyword` and `definition`, the parent holds `definition` and is `defnParent`, and no
other node is written. -/
theorem literalHead_keyword (h1 : Heap) (oldAttr : List String) (tree p : Ref)
    (hv : DEFINITION_SYMBOLS.contains (h1 tree).value = true)
    (hp : (h1 tree).parent = some p) :
    (literalHead h1 oldAttr tree).2 = some p
      ∧ "definition" ∈ ((literalHead h1 oldAttr tree).1 p).attr
      ∧ "keyword" ∈ ((literalHead h1 oldAttr tree).1 tree).attr
      ∧ "definition" ∈ ((literalHead h1 oldAttr tree).1 tree).attr := by
  obtain ⟨h2, hh2⟩ : ∃ h2 : Heap, h2 = h1.set tree { h1 tree with type := "symbol" } :=
    ⟨_, Eq.refl _⟩
  have f2 : ∀ x, Frame (h2 x) (h1 x) := by
    intro x; rw [hh2]; exact (Frame_setType h1 tree "symbol" x).1
  obtain ⟨h3, hh3⟩ : ∃ h3 : Heap, h3 = if BUILTIN_SYMBOLS.contains (h2 tree).value
      then (imbueAttr h2 tree (.tag "builtin")).2 else h2 := ⟨_, Eq.refl _⟩
  have a3 : AttrOnly h2 h3 := by
    rw [hh3]; split
    · exact AttrOnly_imbueAttr _ _ _
    · exact AttrOnly.sameAttr _
  have v3 : (h3 tree).value = (h1 tree).value := (a3 tree).1.value.trans (f2 tree).value
  obtain ⟨h4, hh4⟩ : ∃ h4 : Heap, h4 = (imbueAttr h3 tree (.tags ["keyword", "definition"])).2 :=
    ⟨_, Eq.refl _⟩
  have e4 : h4 = (imbueOne (imbueOne h3 tree "keyword").2 tree "definition").2 := by
    rw [hh4]; rfl
  have p4 : (h4 tree).parent = some p := by
    rw [hh4, ((AttrOnly_imbueAttr h3 tree _) tree).1.parent, (a3 tree).1.parent,
      (f2 tree).parent]
    exact hp
  have k4 : "keyword" ∈ (h4 tree).attr := by
    rw [e4]
    exact (mem_imbueOne _ tree "definition" "keyword" tree).mpr
      (Or.inl ((mem_imbueOne h3 tree "keyword" "keyword" tree).mpr
        (Or.inr ⟨Eq.refl _, Eq.refl _⟩)))
  have d4 : "definition" ∈ (h4 tree).attr := by
    rw [e4]
    exact (mem_imbueOne _ tree "definition" "definition" tree).mpr
      (Or.inr ⟨Eq.refl _, Eq.refl _⟩)
  have res : literalHead h1 oldAttr tree = ((imbueOne h4 p "definition").2, some p) := by
    simp only [literalHead, ← hh2, ← hh3, v3, hv, if_true, ← hh4, p4]
    rfl
  rw [res]
  exact ⟨Eq.refl _, (mem_imbueOne h4 p "definition" "definition" p).mpr
      (Or.inr ⟨Eq.refl _, Eq.refl _⟩),
    (mem_imbueOne h4 p "definition" "keyword" tree).mpr (Or.inl k4),
    (mem_imbueOne h4 p "definition" "definition" tree).mpr (Or.inl d4)⟩

theorem imbueOne_other (h : Heap) (t : Ref) (a : String) (x : Ref) (hx : x ≠ t) :
    (imbueOne h t a).2 x = h x := by
  unfold imbueOne
  split
  · exact Eq.refl _
  · exact Heap.set_other _ _ _ _ hx

theorem depriveOne_other (h : Heap) (t : Ref) (a : String) (x : Ref) (hx : x ≠ t) :
    (depriveOne h t a).2 x = h x := by
  unfold depriveOne
  split
  · exact Heap.set_other _ _ _ _ hx
  · exact Eq.refl _

theorem imbueAttr_other (h : Heap) (t : Ref) (arg : AttrArg) (x : Ref) (hx : x ≠ t) :
    (imbueAttr h t arg).2 x = h x := by
  cases arg with
  | tag a => exact imbueOne_other h t a x hx
  | tags as =>
    have key : ∀ (as : List String) (acc : Bool × Heap),
        ((as.foldl (fun (acc : Bool × Heap) a =>
          let r := imbueOne acc.2 t a
          (r.1 || acc.1, r.2)) acc).2 x) = acc.2 x := by
      intro as
      induction as with
      | nil => intro acc; exact Eq.refl _
      | cons a as ih =>
        intro acc
        rw [List.foldl_cons, ih]
        exact imbueOne_other acc.2 t a x hx
    exact key as (false, h)

theorem depriveAttr_other (h : Heap) (t : Ref) (arg : AttrArg) (x : Ref) (hx : x ≠ t) :
    (depriveAttr h t arg).2 x = h x := by
  cases arg with
  | tag a => exact depriveOne_other h t a x hx
  | tags as =>
    have key : ∀ (as : List String) (acc : Bool × Heap),
        ((as.foldl (fun (acc : Bool × Heap) a =>
          let r := depriveOne acc.2 t a
          (r.1 || acc.1, r.2)) acc).2 x) = acc.2 x := by
      intro as
      induction as with
      | nil => intro acc; exact Eq.refl _
      | cons a as ih =>
        intro acc
        rw [List.foldl_cons, ih]
        exact depriveOne_other acc.2 t a x hx
    exact key as (false, h)

/-- `literalHead` writes the literal and its parent only. -/
theorem literalHead_other (h1 : Heap) (oldAttr : List String) (tree : Ref) (x : Ref)
    (hx : x ≠ tree) (hxp : (h1 tree).parent ≠ some x) :
    (literalHead h1 oldAttr tree).1 x = h1 x := by
  obtain ⟨h2, hh2⟩ : ∃ h2 : Heap, h2 = h1.set tree { h1 tree with type := "symbol" } :=
    ⟨_, Eq.refl _⟩
  have f2 : ∀ x, Frame (h2 x) (h1 x) := by
    intro x; rw [hh2]; exact (Frame_setType h1 tree "symbol" x).1
  have o2 : h2 x = h1 x := by rw [hh2]; exact Heap.set_other _ _ _ _ hx
  obtain ⟨h3, hh3⟩ : ∃ h3 : Heap, h3 = if BUILTIN_SYMBOLS.contains (h2 tree).value
      then (imbueAttr h2 tree (.tag "builtin")).2 else h2 := ⟨_, Eq.refl _⟩
  have a3 : AttrOnly h2 h3 := by
    rw [hh3]; split
    · exact AttrOnly_imbueAttr _ _ _
    · exact AttrOnly.sameAttr _
  have o3 : h3 x = h1 x := by
    rw [hh3]; split
    · rw [imbueAttr_other _ _ _ _ hx]; exact o2
    · exact o2
  have p3 : (h3 tree).parent = (h1 tree).parent := (a3 tree).1.parent.trans (f2 tree).parent
  have p4 : ((imbueAttr h3 tree (.tags ["keyword", "definition"])).2 tree).parent
      = (h1 tree).parent := by
    rw [((AttrOnly_imbueAttr h3 tree _) tree).1.parent]; exact p3
  simp only [literalHead, ← hh2, ← hh3]
  split
  · rw [p4]
    cases hpar : (h1 tree).parent with
    | none => dsimp only; rw [imbueAttr_other _ _ _ _ hx]; exact o3
    | some p =>
      dsimp only
      have hxp2 : x ≠ p := fun e => hxp (by rw [hpar, e])
      rw [imbueAttr_other _ _ _ _ hxp2, imbueAttr_other _ _ _ _ hx]; exact o3
  · split
    · rw [p3]
      cases hpar : (h1 tree).parent with
      | none => exact o3
      | some p =>
        dsimp only
        have hxp2 : x ≠ p := fun e => hxp (by rw [hpar, e])
        rw [depriveAttr_other _ _ _ _ hxp2]; exact o3
    · exact o3

/-- `literalHead` on a literal without definition keyword and without former `definition`
tag writes the literal only. -/
theorem literalHead_plain (h1 : Heap) (oldAttr : List String) (tree : Ref)
    (hv : DEFINITION_SYMBOLS.contains (h1 tree).value = false)
    (hold : oldAttr.contains "definition" = false) (x : Ref) (hx : x ≠ tree) :
    (literalHead h1 oldAttr tree).1 x = h1 x := by
  obtain ⟨h2, hh2⟩ : ∃ h2 : Heap, h2 = h1.set tree { h1 tree with type := "symbol" } :=
    ⟨_, Eq.refl _⟩
  have f2 : ∀ x, Frame (h2 x) (h1 x) := by
    intro x; rw [hh2]; exact (Frame_setType h1 tree "symbol" x).1
  have o2 : h2 x = h1 x := by rw [hh2]; exact Heap.set_other _ _ _ _ hx
  obtain ⟨h3, hh3⟩ : ∃ h3 : Heap, h3 = if BUILTIN_SYMBOLS.contains (h2 tree).value
      then (imbueAttr h2 tree (.tag "builtin")).2 else h2 := ⟨_, Eq.refl _⟩
  have a3 : AttrOnly h2 h3 := by
    rw [hh3]; split
    · exact AttrOnly_imbueAttr _ _ _
    · exact AttrOnly.sameAttr _
  have o3 : h3 x = h1 x := by
    rw [hh3]; split
    · rw [imbueAttr_other _ _ _ _ hx]; exact o2
    · exact o2
  have v3 : (h3 tree).value = (h1 tree).value := (a3 tree).1.value.trans (f2 tree).value
  simp only [literalHead, ← hh2, ← hh3, v3, hv, hold, Bool.false_eq_true, if_false]
  exact o3

/-- `literalTail` writes the literal only. -/
theorem literalTail_other (h6 : Heap) (tree : Ref) (h9 : Heap)
    (run : literalTail h6 tree = .ok h9) (x : Ref) (hx : x ≠ tree) : h9 x = h6 x := by
  obtain ⟨h7, hh7⟩ : ∃ h7 : Heap, h7 = if ¬ parseFloatIsNaN (h6 tree).value
      then h6.set tree { h6 tree with type := "numeric" } else h6 := ⟨_, Eq.refl _⟩
  have o7 : h7 x = h6 x := by
    rw [hh7]; split
    · exact Heap.set_other _ _ _ _ hx
    · exact Eq.refl _
  obtain ⟨h8, hh8⟩ : ∃ h8 : Heap, h8 = if (h7 tree).value.length = 0
      then h7.set tree { h7 tree with type := "proto" } else h7 := ⟨_, Eq.refl _⟩
  have o8 : h8 x = h6 x := by
    rw [hh8]; split
    · rw [Heap.set_other _ _ _ _ hx]; exact o7
    · exact o7
  simp only [literalTail, ← hh7, ← hh8] at run
  split at run
  · exact Except.noConfusion run
  · split at run
    · split at run
      · injection run with run
        rw [← run, imbueAttr_other _ _ _ _ hx]; exact o8
      · injection run with run
        rw [← run, imbueAttr_other _ _ _ _ hx]; exact o8
    · injection run with run
      rw [← run]; exact o8

theorem Anc_parent {h : Heap} {a c x : Ref} (hc : (h c).parent = some a) (A : Anc h c x) :
    Anc h a x := by
  induction A with
  | self => exact Anc.up c a hc Anc.self
  | up x q hp _ ih => exact Anc.up x q hp ih

theorem Anc_congr {h h2 : Heap} (hp : ∀ x, (h2 x).parent = (h x).parent) {a x : Ref}
    (A : Anc h a x) : Anc h2 a x := by
  induction A with
  | self => exact Anc.self
  | up x q hq _ ih => exact Anc.up x q ((hp x).trans hq) ih

theorem Pres.list_iff {h h2 : Heap} (P : Pres h h2) (t : Ref) :
    (h2 t).type = "list" ↔ (h t).type = "list" := by
  rcases (P t).2 with e | ⟨hl, e⟩
  · rw [e]
  · constructor
    · intro e2
      have hlit : (h2 t).literal := by
        unfold Node.literal
        rw [e]
        exact typeOfValue_literal _
      exact absurd e2 (literal_not_list hlit)
    · intro e2
      exact absurd e2 (literal_not_list hl)

theorem BackLinked_frame {h h2 : Heap} {N : Ref → Prop} (F : ∀ x, Frame (h2 x) (h x))
    (K : BackLinked h N) : BackLinked h2 N := by
  constructor
  · intro y cs c hy hc hm
    rw [(F c).parent]
    exact K.1 y cs c hy ((F y).children.symm.trans hc) hm
  · intro x q hx hq
    exact K.2 x q hx ((F x).parent.symm.trans hq)

theorem BackLinked_pres {h h2 : Heap} {N : Ref → Prop} (P : Pres h h2)
    (K : BackLinked h N) : BackLinked h2 N :=
  BackLinked_frame (fun x => (P x).1) K

/-- A child of `t` that is reached by relabelling lies in the subtree of `t`. -/
theorem Reach_child {h : Heap} {N : Ref → Prop} (K : BackLinked h N) {t c x : Ref}
    {cs : List Ref} (ht : N t)
    (hc : (h t).children = some cs) (hm : c ∈ cs) (R : Reach h c x) : Anc h t x := by
  have hp := (K.1 t cs c ht hc hm).1
  unfold Reach at R
  split at R
  · exact Anc_parent hp R
  · obtain ⟨q, hq, A⟩ := R
    have : q = t := Option.some.inj (hq.symm.trans hp)
    rw [← this]; exact A

theorem relabelChildren_within (rec : Heap × Dirty → Ref → Except Err (Heap × Dirty))
    (N : Ref → Prop)
    (hrec : ∀ st c st2, rec st c = .ok st2 → Pres st.1 st2.1
      ∧ (BackLinked st.1 N → N c → ∀ x, ¬ Reach st.1 c x → st2.1 x = st.1 x))
    (t : Ref) (ht : N t) (all : List Ref) :
    ∀ (cs : List Ref) (st st2 : Heap × Dirty), (∀ c ∈ cs, c ∈ all) →
      (st.1 t).children = some all → BackLinked st.1 N →
      relabelChildren rec cs st = .ok st2 →
      ∀ x, ¬ Anc st.1 t x → st2.1 x = st.1 x := by
  intro cs
  induction cs with
  | nil =>
    intro st st2 _ _ _ run x _
    simp only [relabelChildren] at run
    injection run with run
    rw [run]
  | cons c cs ih =>
    intro st st2 hsub hall K run x hx
    simp only [relabelChildren] at run
    cases h1 : rec st c with
    | error e => rw [h1] at run; exact Except.noConfusion run
    | ok st1 =>
      rw [h1] at run
      dsimp only at run
      obtain ⟨P, W⟩ := hrec st c st1 h1
      have hall1 : (st1.1 t).children = some all := by rw [(P t).1.children]; exact hall
      have K1 := BackLinked_pres P K
      have hx1 : ¬ Anc st1.1 t x :=
        fun A => hx (Anc_congr (fun y => ((P y).1.parent).symm) A)
      have e2 := ih st1 st2 (fun c2 hc2 => hsub c2 (List.mem_cons_of_mem _ hc2)) hall1 K1 run
        x hx1
      have hcm := hsub c (List.mem_cons_self _ _)
      have e1 := W K (K.1 t all c ht hall hcm).2 x
        (fun R => hx (Reach_child K ht hall hcm R))
      exact e2.trans e1

/-- The propagation step writes inside the subtree of the parent only. -/
theorem propagate_within (rec : Heap × Dirty → Ref → Except Err (Heap × Dirty))
    (N : Ref → Prop)
    (hrec : ∀ st c st2, rec st c = .ok st2 →
      BackLinked st.1 N → N c → ∀ x, ¬ Reach st.1 c x → st2.1 x = st.1 x)
    (h5 : Heap) (d : Dirty) (dp : Option Ref) (tree q : Ref) (st2 : Heap × Dirty)
    (hq : (h5 tree).parent = some q) (K : BackLinked h5 N) (ht : N tree)
    (run : propagate rec h5 d dp tree = .ok st2) :
    ∀ x, ¬ Anc h5 q x → st2.1 x = h5 x := by
  intro x hx
  unfold propagate at run
  split at run
  · injection run with e; subst e; exact Eq.refl _
  · rw [hq] at run
    dsimp only at run
    split at run
    · exact Except.noConfusion run
    · next cs hcs =>
      split at run
      · split at run
        · exact Except.noConfusion run
        · next assignee ha =>
          cases hc : rec (h5, d) assignee with
          | error e => rw [hc] at run; exact Except.noConfusion run
          | ok st1 =>
            rw [hc] at run
            obtain ⟨h6, d6⟩ := st1
            injection run with e
            subst e
            have hnq : N q := K.2 tree q ht hq
            exact hrec (h5, d) assignee (h6, d6) hc K
              (K.1 q cs assignee hnq hcs (List.getElem?_mem ha)).2 x
              (fun R => hx (Reach_child K hnq hcs (List.getElem?_mem ha) R))
      · injection run with e; subst e; exact Eq.refl _

/-- Whenever `relabelTree(t)` returns, it has written inside the subtree of `t` (for a list)
or inside the subtree of the parent of `t` (for a literal) only. -/
theorem relabelTree_within (N : Ref → Prop) : ∀ (fuel : Nat) (st : Heap × Dirty) (t : Ref)
    (st2 : Heap × Dirty), relabelTree fuel st t = .ok st2 → BackLinked st.1 N → N t →
      ∀ x, ¬ Reach st.1 t x → st2.1 x = st.1 x := by
  intro fuel
  induction fuel with
  | zero => intro st t st2 run; exact Except.noConfusion run
  | succ fuel ih =>
    intro st t st2 run K ht x hx
    obtain ⟨h0, d⟩ := st
    have hrec : ∀ st a st2, relabelTree fuel st a = .ok st2 → Pres st.1 st2.1 :=
      fun st a st2 r => (relabelTree_pres fuel st a st2 r).1
    obtain ⟨h1, hh1⟩ : ∃ h1 : Heap, h1 = h0.set t { h0 t with attr := [] } :=
      ⟨_, Eq.refl _⟩
    have a1 : AttrOnly h0 h1 := by rw [hh1]; exact AttrOnly_set h0 t []
    have t1 : (h1 t).type = (h0 t).type := (a1 t).2
    have K1 : BackLinked h1 N := BackLinked_frame (fun y => (a1 y).1) K
    simp only [relabelTree, ← hh1] at run
    dsimp only at hx K
    unfold Reach at hx
    by_cases hl : (h1 t).type = "list"
    · rw [if_pos hl] at run
      rw [if_pos (t1 ▸ hl)] at hx
      have hxt : x ≠ t := fun e => hx (e ▸ Anc.self)
      have o1 : h1 x = h0 x := by rw [hh1]; exact Heap.set_other _ _ _ _ hxt
      obtain ⟨h2, hh2⟩ : ∃ h2 : Heap, h2 = (match (h1 t).parent with
          | none => h1
          | some p =>
            if (h1 p).attr.contains "definition" ∧ (h1 t).siblingIndex = some 1 then
              (imbueAttr h1 t (.tag "assignee")).2
            else h1) := ⟨_, Eq.refl _⟩
      have a2 : AttrOnly h1 h2 := by
        rw [hh2]
        split
        · exact AttrOnly.sameAttr _
        · split
          · exact AttrOnly_imbueAttr _ _ _
          · exact AttrOnly.sameAttr _
      have o2 : h2 x = h1 x := by
        rw [hh2]
        split
        · exact Eq.refl _
        · split
          · exact imbueAttr_other _ _ _ _ hxt
          · exact Eq.refl _
      have K2 : BackLinked h2 N := BackLinked_frame (fun y => (a2 y).1) K1
      rw [← hh2] at run
      split at run
      · exact Except.noConfusion run
      · next cs hcs =>
        have hx2 : ¬ Anc h2 t x := fun A => hx (Anc_congr
          (fun y => ((a2 y).1.parent.trans (a1 y).1.parent).symm) A)
        have e3 := relabelChildren_within (relabelTree fuel) N
          (fun st c st2 r => ⟨hrec st c st2 r, ih st c st2 r⟩) t ht cs cs (h2, d) st2
          (fun _ hc => hc) hcs K2 run x hx2
        exact e3.trans (o2.trans o1)
    · rw [if_neg hl] at run
      rw [if_neg (t1 ▸ hl)] at hx
      split at run
      · exact Except.noConfusion run
      · exact Except.noConfusion run
      · obtain ⟨fH, -⟩ := literalHead_frame h1 (h0 t).attr t
        have K5 : BackLinked (literalHead h1 (h0 t).attr t).1 N :=
          BackLinked_frame (fun y => (fH y).1) K1
        cases hprop : propagate (relabelTree fuel) (literalHead h1 (h0 t).attr t).1 d
            (literalHead h1 (h0 t).attr t).2 t with
        | error e => rw [hprop] at run; exact Except.noConfusion run
        | ok st6 =>
          obtain ⟨h6, d6⟩ := st6
          rw [hprop] at run
          dsimp only at run
          have p6 := propagate_pres (relabelTree fuel) hrec _ d _ t (h6, d6) hprop
          cases htail : literalTail h6 t with
          | error e => rw [htail] at run; exact Except.noConfusion run
          | ok h9 =>
            rw [htail] at run
            dsimp only at run
            injection run with e
            subst e
            -- the parent exists, since `literalTail` returned
            have hpar : ∃ q, (h6 t).parent = some q := by
              cases hq : (h6 t).parent with
              | some q => exact ⟨q, Eq.refl _⟩
              | none =>
                have hq7 : ((if ¬ parseFloatIsNaN (h6 t).value = true
                    then h6.set t { h6 t with type := "numeric" } else h6) t).parent = none := by
                  split
                  · rw [(Frame_setType h6 t "numeric" t).1.parent]; exact hq
                  · exact hq
                obtain ⟨h7, hh7⟩ : ∃ h7 : Heap, h7 = if ¬ parseFloatIsNaN (h6 t).value
                    then h6.set t { h6 t with type := "numeric" } else h6 := ⟨_, Eq.refl _⟩
                rw [← hh7] at hq7
                have hq8 : ((if (h7 t).value.length = 0
                    then h7.set t { h7 t with type := "proto" } else h7) t).parent = none := by
                  split
                  · rw [(Frame_setType h7 t "proto" t).1.parent]; exact hq7
                  · exact hq7
                simp only [literalTail, ← hh7, hq8] at htail
                exact Except.noConfusion htail
            obtain ⟨q, hq6⟩ := hpar
            have hq5 : ((literalHead h1 (h0 t).attr t).1 t).parent = some q := by
              rw [← (p6 t).1.parent]; exact hq6
            have hq1 : (h1 t).parent = some q := by rw [← (fH t).1.parent]; exact hq5
            have hq0 : (h0 t).parent = some q := by rw [← (a1 t).1.parent]; exact hq1
            have hxq : ¬ Anc h0 q x := fun A => hx ⟨q, hq0, A⟩
            have hxt : x ≠ t := fun e => hxq (e ▸ Anc.up t q hq0 Anc.self)
            have hxq2 : x ≠ q := fun e => hxq (e ▸ Anc.self)
            have o1 : h1 x = h0 x := by rw [hh1]; exact Heap.set_other _ _ _ _ hxt
            have o5 : (literalHead h1 (h0 t).attr t).1 x = h1 x :=
              literalHead_other h1 (h0 t).attr t x hxt
                (fun e => hxq2 (Option.some.inj (e.symm.trans hq1)))
            have hx5 : ¬ Anc (literalHead h1 (h0 t).attr t).1 q x := fun A => hxq (Anc_congr
              (fun y => ((fH y).1.parent.trans (a1 y).1.parent).symm) A)
            have o6 := propagate_within (relabelTree fuel) N ih _ d _ t q (h6, d6) hq5 K5 ht
              hprop x hx5
            have o9 := literalTail_other h6 t h9 htail x hxt
            exact o9.trans (o6.trans (o5.trans o1))

/-! ## The assignee rule under structural edits (C17) -/

/-- Claim C17 at a failing input.  The tagged seed tree satisfies the assignee rule.  A
space typed at the end of `define` (cursor offset 7 after the keystroke) splits off an empty
literal, which becomes the child at index 1 of the root; `relabelTree` is called on `define`
and on the new literal only, so the list `(goose n)`, now at index 2, still holds `assignee`
and the rule is broken.  `deleteChild` breaks it as well: in the tree
`(define _ (goose n) (* n n))`, reached from the seed by typing `x` after `define`, a space
before the `x` and deleting the `x`, every node satisfies the rule; deleting the empty
literal moves `(goose n)` to index 1 of a parent that holds `definition`, without the
`assignee` tag. -/
theorem assignee_rule_broken :
    (∀ x ∈ seedShape.preorder, assigneeRule taggedHeap x = true)
      ∧ (∀ fuel, (onInput (fuel + 3) world0 11
            { data := some " ", textContent := "define ", focusOffset := 7 }).map
          (fun r => ((r.1.heap 10).children, (r.1.heap 10).attr, (r.1.heap 12).type,
            (r.1.heap 12).attr, (r.1.heap 12).parent, (r.1.heap 12).siblingIndex,
            assigneeRule r.1.heap 12))
          = .ok (some [11, 50, 12, 15], ["definition"], "list", ["assignee"], some 10, some 2,
              false))
      ∧ (∀ x ∈ [10, 11, 50, 12, 13, 14, 15, 16, 17, 18],
          assigneeRule worldDefineProto.heap x = true)
      ∧ (worldDefineProto.heap 10).children = some [11, 50, 12, 15]
      ∧ (worldDefineProto.heap 50).type = "proto" ∧ (worldDefineProto.heap 50).value = ""
      ∧ (∀ fuel, (deleteCommand (fuel + 3) worldDefineProto.heap worldDefineProto.editingState
            "Backspace" 50).map
          (fun r => ((r.1 10).children, (r.1 10).attr, (r.1 12).type, (r.1 12).attr,
            (r.1 12).parent, (r.1 12).siblingIndex, assigneeRule r.1 12))
          = .ok (some [11, 12, 15], ["definition"], "list", [], some 10, some 1, false)) :=
  ⟨by decide, fun _ => rfl, by decide, rfl, rfl, rfl, fun _ => rfl⟩

/-! ## Depth in a stored tree -/

theorem Up_det {h : Heap} {x : Ref} {n : Nat} (u : Up h x n) :
    ∀ m, Up h x m → n = m := by
  induction u with
  | root x hp =>
    intro m u2
    cases u2 with
    | root _ _ => exact Eq.refl _
    | step _ p _ hp2 _ => rw [hp] at hp2; exact Option.noConfusion hp2
  | step x p n hp _ ih =>
    intro m u2
    cases u2 with
    | root _ hp2 => rw [hp] at hp2; exact Option.noConfusion hp2
    | step _ p2 m2 hp2 u3 =>
      have : p2 = p := Option.some.inj (hp2.symm.trans hp)
      subst this
      rw [ih m2 u3]

/-- An ancestor is not deeper than its descendant. -/
theorem Anc_depth {h : Heap} {a x : Ref} (A : Anc h a x) :
    ∀ m, Up h x m → ∃ n, n ≤ m ∧ Up h a n := by
  induction A with
  | self => intro m u; exact ⟨m, Nat.le_refl _, u⟩
  | up x q hq _ ih =>
    intro m u
    cases u with
    | root _ hp => rw [hq] at hp; exact Option.noConfusion hp
    | step _ p m2 hp u2 =>
      have : p = q := Option.some.inj (hp.symm.trans hq)
      subst this
      obtain ⟨n, hn, ua⟩ := ih m2 u2
      exact ⟨n, Nat.le_succ_of_le hn, ua⟩

/-- In a stored tree no node is an ancestor of its own parent. -/
theorem TreeAt.no_cycle {h : Heap} {root : Ref} {kids : Forest} (T : TreeAt h root kids)
    {a p : Ref} (ha : a ∈ (Forest.cons root kids .nil).preorder)
    (hp : (h a).parent = some p) : ¬ Anc h a p := by
  intro A
  obtain ⟨k, uk⟩ := Up_exists _ none T.parents (Or.inl (Eq.refl _)) a ha
  cases uk with
  | root _ hp2 => rw [hp] at hp2; exact Option.noConfusion hp2
  | step _ p2 k2 hp2 up2 =>
    have : p2 = p := Option.some.inj (hp2.symm.trans hp)
    subst this
    obtain ⟨n, hn, ua⟩ := Anc_depth A k2 up2
    have := Up_det ua (k2 + 1) (Up.step a p2 k2 hp up2)
    omega

/-- In a stored tree the elements of `children` arrays of nodes point back. -/
theorem TreeAt.back {h : Heap} {root : Ref} {kids : Forest} (T : TreeAt h root kids)
    {y c : Ref} {cs : List Ref} (hy : y ∈ (Forest.cons root kids .nil).preorder)
    (hc : (h y).children = some cs) (hm : c ∈ cs) : (h c).parent = some y :=
  kids_parent _ none T.holds T.parents y hy c (by simp [Node.kids, hc, hm])

/-! ## A definition keyword at any index (C18) -/

/-- The steps of `relabelTree` on a node that is not a list, when it returns. -/
theorem relabelTree_literal_run (fuel : Nat) (h0 : Heap) (d : Dirty) (t : Ref)
    (h9 : Heap) (d9 : Dirty) (hl : ¬ (h0 t).type = "list")
    (run : relabelTree (fuel + 1) (h0, d) t = .ok (h9, d9)) :
    ∃ h6, propagate (relabelTree fuel)
        (literalHead (h0.set t { h0 t with attr := [] }) (h0 t).attr t).1 d
        (literalHead (h0.set t { h0 t with attr := [] }) (h0 t).attr t).2 t = .ok (h6, d9)
      ∧ literalTail h6 t = .ok h9 := by
  obtain ⟨h1, hh1⟩ : ∃ h1 : Heap, h1 = h0.set t { h0 t with attr := [] } := ⟨_, Eq.refl _⟩
  have a1 : AttrOnly h0 h1 := by rw [hh1]; exact AttrOnly_set h0 t []
  have hl1 : ¬ (h1 t).type = "list" := by rw [(a1 t).2]; exact hl
  simp only [relabelTree, ← hh1, if_neg hl1] at run
  rw [← hh1]
  split at run
  · exact Except.noConfusion run
  · exact Except.noConfusion run
  · cases hprop : propagate (relabelTree fuel) (literalHead h1 (h0 t).attr t).1 d
        (literalHead h1 (h0 t).attr t).2 t with
    | error e => rw [hprop] at run; exact Except.noConfusion run
    | ok st6 =>
      obtain ⟨h6, d6⟩ := st6
      rw [hprop] at run
      dsimp only at run
      cases htail : literalTail h6 t with
      | error e => rw [htail] at run; exact Except.noConfusion run
      | ok h8 =>
        rw [htail] at run
        dsimp only at run
        injection run with e
        injection e with e1 e2
        subst e1
        subst e2
        exact ⟨h6, Eq.refl _, htail⟩

/-- `relabelTree` on a literal that holds no definition keyword and no `definition` tag
writes that literal only. -/
theorem relabelTree_plain (fuel : Nat) (h0 : Heap) (d : Dirty) (a : Ref) (st2 : Heap × Dirty)
    (hlit : (h0 a).literal) (hv : DEFINITION_SYMBOLS.contains (h0 a).value = false)
    (hd : "definition" ∉ (h0 a).attr) (run : relabelTree fuel (h0, d) a = .ok st2) :
    ∀ x, x ≠ a → st2.1 x = h0 x := by
  intro x hx
  obtain ⟨f, rfl⟩ : ∃ f, fuel = f + 1 := by
    cases fuel with
    | zero => exact Except.noConfusion run
    | succ f => exact ⟨f, Eq.refl _⟩
  obtain ⟨h9, d9⟩ := st2
  obtain ⟨h6, hprop, htail⟩ := relabelTree_literal_run f h0 d a h9 d9 (literal_not_list hlit) run
  have hv1 : DEFINITION_SYMBOLS.contains ((h0.set a { h0 a with attr := [] }) a).value
      = false := by
    rw [Heap.set_same]; exact hv
  have hold : (h0 a).attr.contains "definition" = false := by simpa using hd
  rw [literalHead_none _ _ a hv1 hold] at hprop
  simp only [propagate] at hprop
  injection hprop with e
  injection e with e1 _
  have o5 := literalHead_plain (h0.set a { h0 a with attr := [] }) (h0 a).attr a hv1 hold x hx
  have o9 := literalTail_other h6 a h9 htail x hx
  show h9 x = h0 x
  rw [o9, ← e1, o5]
  exact Heap.set_other _ _ _ _ hx

/-- `literalTail` removes no tag. -/
theorem literalTail_mem (h6 : Heap) (tree : Ref) (h9 : Heap)
    (run : literalTail h6 tree = .ok h9) (b : String) (x : Ref) (hb : b ∈ (h6 x).attr) :
    b ∈ (h9 x).attr := by
  obtain ⟨h7, hh7⟩ : ∃ h7 : Heap, h7 = if ¬ parseFloatIsNaN (h6 tree).value
      then h6.set tree { h6 tree with type := "numeric" } else h6 := ⟨_, Eq.refl _⟩
  have o7 : (h7 x).attr = (h6 x).attr := by
    rw [hh7]; split
    · exact (Frame_setType h6 tree "numeric" x).2.2
    · exact Eq.refl _
  obtain ⟨h8, hh8⟩ : ∃ h8 : Heap, h8 = if (h7 tree).value.length = 0
      then h7.set tree { h7 tree with type := "proto" } else h7 := ⟨_, Eq.refl _⟩
  have o8 : b ∈ (h8 x).attr := by
    rw [hh8]; split
    · rw [(Frame_setType h7 tree "proto" x).2.2, o7]; exact hb
    · rw [o7]; exact hb
  simp only [literalTail, ← hh7, ← hh8] at run
  split at run
  · exact Except.noConfusion run
  · split at run
    · split at run
      · injection run with run
        rw [← run]
        exact (mem_imbueOne h8 tree "assignee" b x).mpr (Or.inl o8)
      · injection run with run
        rw [← run]
        exact (mem_imbueOne h8 tree "boundVariable" b x).mpr (Or.inl o8)
    · injection run with run
      rw [← run]; exact o8

/-- Claim C18, as stated, fails: `relabelTree` imbues `definition` on the parent of a
definition keyword at any sibling index.  In the seed tree with the last `n` of `(* n n)`
holding `define` (sibling index 2; the children at index 0 and 1 are `*` and `n`),
`relabelTree` on that literal leaves the list with the tag `definition`, which it did not
hold before; and `relabelTree` on the list leaves it with `definition` although its first
child is `*`. -/
theorem keyword_at_later_index_defines :
    (defineLastHeap 15).type = "list" ∧ (defineLastHeap 15).children = some [16, 17, 18]
      ∧ (defineLastHeap 15).attr = [] ∧ (defineLastHeap 16).value = "*"
      ∧ (defineLastHeap 17).value = "n" ∧ (defineLastHeap 18).value = "define"
      ∧ (defineLastHeap 18).siblingIndex = some 2
      ∧ (∀ fuel, (relabelTree (fuel + 3) (defineLastHeap, []) 18).map
            (fun st => (st.1 15).attr) = .ok ["definition"])
      ∧ (∀ fuel, (relabelTree (fuel + 4) (defineLastHeap, []) 15).map
            (fun st => (st.1 15).attr) = .ok ["definition"]) :=
  ⟨rfl, rfl, rfl, rfl, rfl, rfl, rfl, fun _ => rfl, fun _ => rfl⟩

/-- The nodes of a stored tree are closed under `children` and `parent`, and children
point back. -/
theorem TreeAt.backLinked {h : Heap} {root : Ref} {kids : Forest} (T : TreeAt h root kids) :
    BackLinked h (fun x => x ∈ (Forest.cons root kids .nil).preorder) := by
  constructor
  · intro y cs c hy hc hm
    refine ⟨T.back hy hc hm, ?_⟩
    have := T.child_mem hy hc hm
    simp [Forest.preorder, this]
  · intro x q hx hq
    have hxk : x ∈ kids.preorder := by
      simp only [Forest.preorder, List.append_nil, List.mem_cons] at hx
      rcases hx with e | e
      · have hroot := T.parents.1
        rw [e, hroot] at hq
        exact Option.noConfusion hq
      · exact e
    obtain ⟨y, hy, hpy⟩ := T.parent_in_tree hxk
    have : y = q := Option.some.inj (hpy.symm.trans hq)
    rw [← this]; exact hy

/-- Claim C18, amended.  In a stored tree let `t` be a literal whose value is `define` or
`define-syntax`, at any sibling index, and let the child at index 1 of its parent `p`, if
there is one, be a list, or a literal that neither holds a definition keyword nor the tag
`definition`.  Whenever `relabelTree(t)` returns, `p` holds `definition` and `t` holds
`keyword` and `definition`.  It returns, at every fuel from `2 n + 3` on, when the
propagation settles within depth `n`. -/
theorem relabel_keyword_defines_parent (h : Heap) (root : Ref) (kids : Forest)
    (T : TreeAt h root kids) (d : Dirty) (t p : Ref) (cs : List Ref)
    (ht : t ∈ kids.preorder) (hlit : (h t).literal)
    (hv : (h t).value = "define" ∨ (h t).value = "define-syntax")
    (hp : (h t).parent = some p) (hc : (h p).children = some cs)
    (hone : ∀ a, cs[1]? = some a → (h a).type = "list"
      ∨ ((h a).literal ∧ DEFINITION_SYMBOLS.contains (h a).value = false
          ∧ "definition" ∉ (h a).attr)) :
    (∀ fuel h2 d2, relabelTree fuel (h, d) t = .ok (h2, d2) →
        "definition" ∈ (h2 p).attr ∧ "keyword" ∈ (h2 t).attr ∧ "definition" ∈ (h2 t).attr)
      ∧ (∀ n, Settles h n t → ∀ fuel, 2 * n + 3 ≤ fuel →
          ∃ h2 d2, relabelTree fuel (h, d) t = .ok (h2, d2)) := by
  constructor
  · intro fuel h9 d9 run
    obtain ⟨f, rfl⟩ : ∃ f, fuel = f + 1 := by
      cases fuel with
      | zero => exact Except.noConfusion run
      | succ f => exact ⟨f, Eq.refl _⟩
    have htn : t ∈ (Forest.cons root kids .nil).preorder := by simp [Forest.preorder, ht]
    obtain ⟨pp, hpp, hpe⟩ := T.parent_in_tree ht
    have hppp : pp = p := Option.some.inj (hpe.symm.trans hp)
    subst hppp
    have K := T.backLinked
    have hdef : DEFINITION_SYMBOLS.contains (h t).value = true := by
      rcases hv with e | e <;> rw [e] <;> decide
    have hpt : pp ≠ t := fun e => T.no_cycle htn hp (e ▸ Anc.self)
    obtain ⟨h6, hprop, htail⟩ := relabelTree_literal_run f h d t h9 d9 (literal_not_list hlit) run
    obtain ⟨h1, hh1⟩ : ∃ h1 : Heap, h1 = h.set t { h t with attr := [] } := ⟨_, Eq.refl _⟩
    rw [← hh1] at hprop
    have a1 : AttrOnly h h1 := by rw [hh1]; exact AttrOnly_set h t []
    have hv1 : DEFINITION_SYMBOLS.contains (h1 t).value = true := by
      rw [(a1 t).1.value]; exact hdef
    have hp1 : (h1 t).parent = some pp := by rw [(a1 t).1.parent]; exact hp
    obtain ⟨dp, mp, mk, md⟩ := literalHead_keyword h1 (h t).attr t pp hv1 hp1
    obtain ⟨fH, -⟩ := literalHead_frame h1 (h t).attr t
    obtain ⟨h5, hh5⟩ : ∃ h5 : Heap, h5 = (literalHead h1 (h t).attr t).1 := ⟨_, Eq.refl _⟩
    rw [← hh5] at hprop mp mk md fH
    rw [dp] at hprop
    have F5 : ∀ x, Frame (h5 x) (h x) := fun x => (fH x).1.transFrame (a1 x).1
    have K5 : BackLinked h5 _ := BackLinked_frame F5 K
    have hp5 : (h5 t).parent = some pp := by rw [(F5 t).parent]; exact hp
    have hc5 : (h5 pp).children = some cs := by rw [(F5 pp).children]; exact hc
    -- the propagation leaves `p` and `t` alone
    have keep : h6 pp = h5 pp ∧ h6 t = h5 t := by
      simp only [propagate, hp5, hc5] at hprop
      by_cases hlen : cs.length ≥ 2
      · rw [if_pos hlen] at hprop
        obtain ⟨a, ha⟩ : ∃ a, cs[1]? = some a := ⟨cs[1], List.getElem?_eq_getElem (by omega)⟩
        rw [ha] at hprop
        dsimp only at hprop
        cases hrun : relabelTree f (h5, d) a with
        | error e => rw [hrun] at hprop; exact Except.noConfusion hprop
        | ok st1 =>
          rw [hrun] at hprop
          obtain ⟨h7, d7⟩ := st1
          injection hprop with e
          injection e with e1 _
          subst e1
          have ham : a ∈ cs := List.getElem?_mem ha
          have han : a ∈ (Forest.cons root kids .nil).preorder := (K.1 pp cs a hpp hc ham).2
          have hap : (h a).parent = some pp := (K.1 pp cs a hpp hc ham).1
          have hnc : ¬ Anc h a pp := T.no_cycle han hap
          rcases hone a ha with hal | ⟨hal, hav, had⟩
          · have hat : a ≠ t := fun e => literal_not_list hlit (e ▸ hal)
            have hal5 : (h5 a).type = "list" := by
              rw [(fH a).2, if_neg hat, (a1 a).2]; exact hal
            have W := relabelTree_within _ f (h5, d) a (h7, d7) hrun K5 han
            have back : ∀ y, (h y).parent = (h5 y).parent := fun y => ((F5 y).parent).symm
            have np : ¬ Reach h5 a pp := by
              unfold Reach; rw [if_pos hal5]
              exact fun A => hnc (Anc_congr back A)
            have nt : ¬ Reach h5 a t := by
              unfold Reach; rw [if_pos hal5]
              intro A
              have A0 : Anc h a t := Anc_congr back A
              cases A0 with
              | self => exact hat (Eq.refl _)
              | up _ q hq Aq =>
                have : q = pp := Option.some.inj (hq.symm.trans hp)
                exact hnc (this ▸ Aq)
            exact ⟨W pp np, W t nt⟩
          · have hat : a ≠ t := by
              intro e
              rw [e, hdef] at hav
              exact Bool.noConfusion hav
            have hapn : pp ≠ a := fun e => hnc (e ▸ Anc.self)
            have o5 : h5 a = h1 a := by
              rw [hh5]
              exact literalHead_other h1 (h t).attr t a hat
                (fun e => hapn (Option.some.inj (hp1.symm.trans e)))
            have o1 : h1 a = h a := by rw [hh1]; exact Heap.set_other _ _ _ _ hat
            have oa : h5 a = h a := o5.trans o1
            have W := relabelTree_plain f h5 d a (h7, d7)
              (by rw [oa]; exact hal) (by rw [oa]; exact hav) (by rw [oa]; exact had) hrun
            exact ⟨W pp hapn, W t (fun e => hat e.symm)⟩
      · rw [if_neg hlen] at hprop
        injection hprop with e
        injection e with e1 _
        rw [e1]
        exact ⟨Eq.refl _, Eq.refl _⟩
    have o9 := literalTail_other h6 t h9 htail pp hpt
    refine ⟨?_, ?_, ?_⟩
    · rw [o9, keep.1]; exact mp
    · exact literalTail_mem h6 t h9 htail _ t (by rw [keep.2]; exact mk)
    · exact literalTail_mem h6 t h9 htail _ t (by rw [keep.2]; exact md)
  · intro n S fuel hf
    obtain ⟨⟨h2, d2⟩, run⟩ := relabelTree_settles n (relabelTree_calm n) h d t hlit S fuel hf
    exact ⟨h2, d2, run⟩

theorem relabel_keyword_defines_parent_witness :
    ∃ h2 d2, relabelTree 3 (defineLastHeap, []) 18 = .ok (h2, d2)
      ∧ "definition" ∈ (h2 15).attr ∧ "keyword" ∈ (h2 18).attr
      ∧ "definition" ∈ (h2 18).attr := by
  have hone : ∀ a, [16, 17, 18][1]? = some a → (defineLastHeap a).type = "list"
      ∨ ((defineLastHeap a).literal ∧ DEFINITION_SYMBOLS.contains (defineLastHeap a).value = false
          ∧ "definition" ∉ (defineLastHeap a).attr) := fun a ha => by
    have : a = 17 := (Option.some.inj ha).symm
    subst this
    exact Or.inr ⟨by decide, by decide, by decide⟩
  have S : Settles defineLastHeap 0 18 :=
    ⟨15, [16, 17, 18], rfl, rfl, fun a ha => by
      have : a = 17 := (Option.some.inj ha).symm
      subst this
      exact Or.inl ⟨by decide, by decide, rfl⟩⟩
  have main := relabel_keyword_defines_parent defineLastHeap 10 seedKids
    ⟨by decide, by decide, by decide⟩ [] 18 15 [16, 17, 18] (by decide) (by decide)
    (Or.inl rfl) rfl rfl hone
  obtain ⟨h2, d2, run⟩ := main.2 0 S 3 (by decide)
  exact ⟨h2, d2, run, main.1 3 h2 d2 run⟩

/-! ## The refocus target and the deleted subtree (C19) -/

theorem kids_nodup {h : Heap} : ∀ (F : Forest), Holds h F → F.preorder.Nodup →
    ∀ y ∈ F.preorder, (h y).kids.Nodup := by
  intro F
  induction F with
  | nil => intro _ _ y hy; simp [Forest.preorder] at hy
  | cons r kids rest ihk ihr =>
    intro ⟨hk, holdk, holdr⟩ nd y hy
    simp only [Forest.preorder, List.nodup_cons, List.nodup_append] at nd
    obtain ⟨-, ndk, ndr, -⟩ := nd
    simp only [Forest.preorder, List.mem_cons, List.mem_append] at hy
    rcases hy with rfl | hy | hy
    · rw [hk]; exact Forest.roots_nodup ndk
    · exact ihk holdk ndk y hy
    · exact ihr holdr ndr y hy

theorem nodup_index_unique : ∀ (cs : List Ref), cs.Nodup → ∀ (i j : Nat) (x : Ref),
    cs[i]? = some x → cs[j]? = some x → i = j := by
  intro cs
  induction cs with
  | nil => intro _ i j x hi _; simp at hi
  | cons c cs ih =>
    intro nd i j x hi hj
    obtain ⟨hc, nd2⟩ := List.nodup_cons.mp nd
    cases i with
    | zero =>
      cases j with
      | zero => rfl
      | succ j =>
        simp only [List.getElem?_cons_zero, List.getElem?_cons_succ] at hi hj
        have : c = x := Option.some.inj hi
        exact absurd (this ▸ List.getElem?_mem hj) hc
    | succ i =>
      cases j with
      | zero =>
        simp only [List.getElem?_cons_zero, List.getElem?_cons_succ] at hi hj
        have : c = x := Option.some.inj hj
        exact absurd (this ▸ List.getElem?_mem hi) hc
      | succ j =>
        simp only [List.getElem?_cons_succ] at hi hj
        rw [ih nd2 i j x hi hj]

/-- The `children` array of a node of a stored tree has no element twice. -/
theorem TreeAt.children_nodup {h : Heap} {root : Ref} {kids : Forest} (T : TreeAt h root kids)
    {y : Ref} {cs : List Ref} (hy : y ∈ (Forest.cons root kids .nil).preorder)
    (hc : (h y).children = some cs) : cs.Nodup := by
  have := kids_nodup _ T.holds T.nodup y hy
  simpa [Node.kids, hc] using this

/-- An ancestor of `x` that is as deep as `x` is `x`. -/
theorem Anc_eq_of_depth {h : Heap} {b x : Ref} {n : Nat} (B : Anc h b x) (ux : Up h x n)
    (ub : Up h b n) : b = x := by
  cases B with
  | self => exact Eq.refl _
  | up _ q hq A =>
    cases ux with
    | root _ hp => rw [hq] at hp; exact Option.noConfusion hp
    | step _ p m hp u2 =>
      have : p = q := Option.some.inj (hp.symm.trans hq)
      subst this
      obtain ⟨k, hk, uk⟩ := Anc_depth A m u2
      have := Up_det uk (m + 1) ub
      omega

/-- Two ancestors of the same node at the same depth are the same node. -/
theorem Anc_same_depth {h : Heap} {a x : Ref} (A : Anc h a x) :
    ∀ (b : Ref) (n : Nat), Anc h b x → Up h a n → Up h b n → a = b := by
  induction A with
  | self => intro b n B ua ub; exact (Anc_eq_of_depth B ua ub).symm
  | up x q hq A ih =>
    intro b n B ua ub
    cases B with
    | self => exact Anc_eq_of_depth (Anc.up x q hq A) ub ua
    | up _ q2 hq2 B2 =>
      have : q2 = q := Option.some.inj (hq2.symm.trans hq)
      subst this
      exact ih b n B2 ua ub

/-- The literal a descent ends at lies below the node it starts from. -/
theorem Descends_anc {h : Heap} {root : Ref} {kids : Forest} (T : TreeAt h root kids)
    {left : Bool} {s y : Ref} (D : Descends h left s y)
    (hs : s ∈ (Forest.cons root kids .nil).preorder) : Anc h s y := by
  induction D with
  | here x _ => exact Anc.self
  | down x c y cs _ hc hpick _ ih =>
    have hm : c ∈ cs := by
      cases left with
      | true =>
        simp only [if_true] at hpick
        exact List.mem_of_mem_getLast? hpick
      | false =>
        simp only [Bool.false_eq_true, if_false] at hpick
        exact List.mem_of_mem_head? hpick
    have K := T.backLinked
    exact Anc_parent (K.1 x cs c hs hc hm).1 (ih (K.1 x cs c hs hc hm).2)

/-- Below a root of a forest whose roots have the parent `r` lies every node of it. -/
theorem Parents_anc {h : Heap} : ∀ (F : Forest) (r : Ref), Parents h (some r) F →
    ∀ x ∈ F.preorder, Anc h r x := by
  intro F
  induction F with
  | nil => intro _ _ x hx; simp [Forest.preorder] at hx
  | cons a kids rest ihk ihr =>
    intro r ⟨ha, pk, pr⟩ x hx
    simp only [Forest.preorder, List.mem_cons, List.mem_append] at hx
    rcases hx with rfl | hx | hx
    · exact Anc.up x r ha Anc.self
    · exact Anc_parent ha (ihk a pk x hx)
    · exact ihr r pr x hx

/-- A node outside the subtree of `c` is still there after the removal of `c`. -/
theorem Forest.mem_remove_of_not_anc {h : Heap} (c : Ref) : ∀ (F : Forest) (q : Option Ref),
    Parents h q F → ∀ x ∈ F.preorder, ¬ Anc h c x → x ∈ (F.remove c).preorder := by
  intro F
  induction F with
  | nil => intro _ _ x hx; simp [Forest.preorder] at hx
  | cons r kids rest ihk ihr =>
    intro q ⟨_, pk, pr⟩ x hx hn
    simp only [Forest.preorder, List.mem_cons, List.mem_append] at hx
    by_cases hrc : r = c
    · simp only [Forest.remove, if_pos hrc]
      rcases hx with e | hx | hx
      · exact absurd (by rw [e, hrc]; exact Anc.self) hn
      · exact absurd (hrc ▸ Parents_anc kids r pk x hx) hn
      · exact ihr q pr x hx hn
    · simp only [Forest.remove, if_neg hrc, Forest.preorder, List.mem_cons, List.mem_append]
      rcases hx with e | hx | hx
      · exact Or.inl e
      · exact Or.inr (Or.inl (ihk _ pk x hx hn))
      · exact Or.inr (Or.inr (ihr q pr x hx hn))

/-- The climb from a node below `d` whose ancestors up to `d` are sole children gives what
the call on `d` gives. -/
theorem deleteNodeClimb_chain {h : Heap} {x d : Ref} (chain : SoleChain h x d)
    (es : EditingState) (key : String) (r : EditingState × ClimbResult) (N : Nat)
    (run : ∀ fuel, N ≤ fuel → deleteNodeClimb fuel h es key d = .ok r) :
    ∃ M, ∀ fuel, M ≤ fuel → deleteNodeClimb fuel h es key x = .ok r := by
  induction chain with
  | self x => exact ⟨N, run⟩
  | up x p d hp hc _ ih =>
    obtain ⟨M, hM⟩ := ih run
    refine ⟨M + 1, fun fuel hf => ?_⟩
    obtain ⟨f, rfl⟩ : ∃ f, fuel = f + 1 := ⟨fuel - 1, by omega⟩
    simp only [deleteNodeClimb, hp, hc, List.length_singleton, if_true]
    exact hM f (by omega)

example : (deleteCommand 5 soleChildHeap editingState0 "Backspace" 3).map
    (fun r => ((r.1 0).children, r.2))
    = .ok (some [2], ({ focused := true, focusedId := some 3, cursorOffset := 0 }, true)) := by
  rfl

/-- Claim C19.  On a heap that stores an index-consistent tree of valid nodes without empty
lists and with pairwise distinct ids, let `deleteNodeClimb` be called on a node `x` from
which the climb through sole children ends at `D`, a node whose parent has at least two
children.  The call returns, at every fuel from some bound on, with `deleteNode = D`, and
the `focusedId` it stores is the id of a literal `y` of the tree that is neither `D` nor a
descendant of `D` (`D` is not an ancestor-or-self of `y`).  The deferred `deleteChild(D)`
returns, the heap stores the tree without the subtree of `D`, `y` is a node of that tree
and still a literal with the stored id, no other node of the tree has that id, and the
stored `cursorOffset` is at most the length of the value of `y`. -/
theorem refocus_target_survives (h : Heap) (root : Ref) (kids : Forest)
    (T : TreeAt h root kids) (inv : ∀ x ∈ kids.preorder, IndexOK h x)
    (typed : ∀ x ∈ kids.preorder, (h x).valid)
    (ne : ∀ x ∈ kids.preorder, (h x).type = "list" → (h x).kids ≠ [])
    (idInj : ∀ a ∈ (Forest.cons root kids .nil).preorder,
      ∀ b ∈ (Forest.cons root kids .nil).preorder, (h a).id = (h b).id → a = b)
    (x D p : Ref) (cs : List Ref) (chain : SoleChain h x D) (hD : D ∈ kids.preorder)
    (hp : (h D).parent = some p) (hc : (h p).children = some cs) (h2 : 2 ≤ cs.length)
    (key : String) (es : EditingState) :
    ∃ y es2 hd N,
      (∀ fuel, N ≤ fuel → deleteNodeClimb fuel h es key x
          = .ok (es2, { refocus := none, deleteNode := D }))
      ∧ es2.focusedId = (h y).id ∧ y ∈ kids.preorder ∧ (h y).literal ∧ ¬ Anc h D y
      ∧ deleteChild h D = .ok hd ∧ TreeAt hd root (kids.remove D)
      ∧ y ∈ (kids.remove D).preorder ∧ (hd y).literal ∧ (hd y).id = es2.focusedId
      ∧ es2.cursorOffset ≤ (hd y).value.length
      ∧ ∀ z ∈ (Forest.cons root (kids.remove D) .nil).preorder,
          (hd z).id = es2.focusedId → z = y := by
  obtain ⟨p2, cs2, i, hp2, hc2, hi, hcs⟩ := inv D hD
  have e1 : p2 = p := Option.some.inj (hp2.symm.trans hp)
  subst e1
  have e2 : cs2 = cs := Option.some.inj (hc2.symm.trans hc)
  subst e2
  obtain ⟨s, y, hs, hsk, hy, hty, -, hdesc, run⟩ := deleteNodeClimb_at h root kids T ne D p2
    cs2 i hD hp hc hi hcs h2 key es
    (if i + 1 = cs2.length then true else if i = 0 then false else decide (key = "Backspace"))
    (Eq.refl _)
  obtain ⟨jl, hjl⟩ : ∃ jl : Bool, jl = (if i + 1 = cs2.length then true else if i = 0
      then false else decide (key = "Backspace")) := ⟨_, Eq.refl _⟩
  rw [← hjl] at hs hdesc run
  have hsn : s ∈ (Forest.cons root kids .nil).preorder := by simp [Forest.preorder, hsk]
  have hDn : D ∈ (Forest.cons root kids .nil).preorder := by simp [Forest.preorder, hD]
  have hyn : y ∈ (Forest.cons root kids .nil).preorder := by simp [Forest.preorder, hy]
  obtain ⟨pp, hpp, hpe⟩ := T.parent_in_tree hD
  have e3 : pp = p2 := Option.some.inj (hpe.symm.trans hp)
  subst e3
  have hylit : (h y).literal := by
    rcases typed y hy with ⟨hl, _⟩ | hlit
    · exact absurd hl hty
    · exact hlit
  -- the sibling is another node at the depth of `D`
  have hilt : i < cs2.length := by
    by_contra hge
    rw [List.getElem?_eq_none (by omega)] at hcs
    exact Option.noConfusion hcs
  have hidx : (if jl then i - 1 else i + 1) ≠ i := by
    cases hb : jl with
    | true =>
      have : 1 ≤ i := by
        by_contra hlt
        have h0 : i = 0 := by omega
        have h1 : ¬ (i + 1 = cs2.length) := by omega
        rw [hjl, if_neg h1, if_pos h0] at hb
        exact Bool.noConfusion hb
      simp only [if_true]; omega
    | false => simp only [Bool.false_eq_true, if_false]; omega
  have hsD : s ≠ D := by
    intro e
    rw [e] at hs
    exact hidx (nodup_index_unique cs2 (T.children_nodup hpp hc) _ _ D hs hcs)
  have hsp : (h s).parent = some pp := T.back hpp hc (List.getElem?_mem hs)
  obtain ⟨k, uk⟩ := Up_exists _ none T.parents (Or.inl (Eq.refl _)) pp hpp
  have hAs : Anc h s y := Descends_anc T hdesc hsn
  have hnD : ¬ Anc h D y := fun A =>
    hsD (Anc_same_depth hAs D (k + 1) A (Up.step s pp k hsp uk) (Up.step D pp k hp uk))
  -- the deletion
  obtain ⟨hd, p3, cs3, i3, del, -, -, -, -, Dl, T2, -⟩ := deleteChild_tree h root kids D T inv hD
  have hyr : y ∈ (kids.remove D).preorder :=
    Forest.mem_remove_of_not_anc D kids _ T.parents.2.1 y hy hnD
  have oy := Dl.others y
  have hlit2 : (hd y).literal := by
    unfold Node.literal; rw [oy.2.2.1]; exact hylit
  obtain ⟨M, hM⟩ := deleteNodeClimb_chain chain es key _ (kids.height + 1)
    (fun fuel hf => run fuel (by omega))
  refine ⟨y, _, hd, M, hM, Eq.refl _, hy, hylit, hnD, del, T2, hyr, hlit2, oy.2.1, ?_, ?_⟩
  · show (if jl = true then (h y).value.length else 0) ≤ (hd y).value.length
    rw [oy.2.2.2.1]
    split
    · exact Nat.le_refl _
    · exact Nat.zero_le _
  · intro z hz hid
    have hzn : z ∈ (Forest.cons root kids .nil).preorder := by
      simp only [Forest.preorder, List.append_nil, List.mem_cons] at hz ⊢
      rcases hz with e | e
      · exact Or.inl e
      · exact Or.inr ((Forest.remove_sublist D kids).subset e)
    exact idInj z hzn y hyn (by rw [← (Dl.others z).2.1]; exact hid)

theorem refocus_target_survives_witness :
    ∃ y es2 hd N,
      (∀ fuel, N ≤ fuel → deleteNodeClimb fuel soleChildHeap editingState0 "Backspace" 3
          = .ok (es2, { refocus := none, deleteNode := 1 }))
      ∧ es2.focusedId = (soleChildHeap y).id ∧ y ∈ soleChildKids.preorder
      ∧ (soleChildHeap y).literal ∧ ¬ Anc soleChildHeap 1 y
      ∧ deleteChild soleChildHeap 1 = .ok hd ∧ TreeAt hd 0 (soleChildKids.remove 1)
      ∧ y ∈ (soleChildKids.remove 1).preorder ∧ (hd y).literal ∧ (hd y).id = es2.focusedId
      ∧ es2.cursorOffset ≤ (hd y).value.length
      ∧ ∀ z ∈ (Forest.cons 0 (soleChildKids.remove 1) .nil).preorder,
          (hd z).id = es2.focusedId → z = y :=
  refocus_target_survives soleChildHeap 0 soleChildKids ⟨by decide, by decide, by decide⟩
    (by decide) (by decide) (by decide) (by decide) 3 1 0 [1, 2]
    (SoleChain.up 3 1 1 rfl rfl (SoleChain.self 1)) (by decide) rfl rfl (by decide)
    "Backspace" editingState0

/-! ## Fuel and the arrow branch -/

theorem descend_mono {h : Heap} {left : Bool} : ∀ (f : Nat) (s : Option Ref) (y : Ref),
    descend f h left s = .ok y → ∀ f2, f ≤ f2 → descend f2 h left s = .ok y := by
  intro f
  induction f with
  | zero => intro s y run; exact Except.noConfusion run
  | succ f ih =>
    intro s y run f2 hf
    obtain ⟨g, rfl⟩ : ∃ g, f2 = g + 1 := ⟨f2 - 1, by omega⟩
    cases s with
    | none => exact Except.noConfusion run
    | some x =>
      simp only [descend] at run ⊢
      split
      · rename_i hl
        rw [if_pos hl] at run
        split
        · rename_i hc; rw [hc] at run; exact Except.noConfusion run
        · rename_i cs hc
          rw [hc] at run
          exact ih _ y run g (by omega)
      · rename_i hl
        rw [if_neg hl] at run
        exact run

theorem climbLeft_mono {h : Heap} : ∀ (f : Nat) (q r : Option Ref),
    climbLeft f h q = .ok r → ∀ f2, f ≤ f2 → climbLeft f2 h q = .ok r := by
  intro f
  induction f with
  | zero => intro q r run; exact Except.noConfusion run
  | succ f ih =>
    intro q r run f2 hf
    obtain ⟨g, rfl⟩ : ∃ g, f2 = g + 1 := ⟨f2 - 1, by omega⟩
    cases q with
    | none => exact run
    | some p =>
      simp only [climbLeft] at run ⊢
      split
      · rename_i h0
        rw [if_pos h0] at run
        exact ih _ r run g (by omega)
      · rename_i h0
        rw [if_neg h0] at run
        exact run

theorem climbRight_mono {h : Heap} : ∀ (f : Nat) (q r : Option Ref),
    climbRight f h q = .ok r → ∀ f2, f ≤ f2 → climbRight f2 h q = .ok r := by
  intro f
  induction f with
  | zero => intro q r run; exact Except.noConfusion run
  | succ f ih =>
    intro q r run f2 hf
    obtain ⟨g, rfl⟩ : ∃ g, f2 = g + 1 := ⟨f2 - 1, by omega⟩
    cases q with
    | none => exact run
    | some p =>
      simp only [climbRight] at run ⊢
      cases hl : isLastChild h p with
      | error e => rw [hl] at run; exact Except.noConfusion run
      | ok b =>
        rw [hl] at run
        cases b with
        | true => exact ih _ r run g (by omega)
        | false => exact run

theorem arrowStart_mono {h : Heap} {key : String} {x : Ref} {f : Nat}
    {v : Option (Option Ref)} (run : arrowStart f h key x = .ok v) :
    ∀ f2, f ≤ f2 → arrowStart f2 h key x = .ok v := by
  intro f2 hf
  unfold arrowStart at run ⊢
  split
  · rename_i hk
    rw [if_pos hk] at run
    split
    · rename_i hs
      rw [if_pos hs] at run
      exact run
    · rename_i hs
      rw [if_neg hs] at run
      cases hcl : climbLeft f h (h x).parent with
      | error e => rw [hcl] at run; exact Except.noConfusion run
      | ok r =>
        rw [hcl] at run
        rw [climbLeft_mono f _ r hcl f2 hf]
        exact run
  · rename_i hk
    rw [if_neg hk] at run
    split
    · rename_i hk2
      rw [if_pos hk2] at run
      cases hl : isLastChild h x with
      | error e => rw [hl] at run; exact Except.noConfusion run
      | ok b =>
        rw [hl] at run
        cases b with
        | false => exact run
        | true =>
          dsimp only at run ⊢
          cases hcl : climbRight f h (h x).parent with
          | error e => rw [hcl] at run; exact Except.noConfusion run
          | ok r =>
            rw [hcl] at run
            rw [climbRight_mono f _ r hcl f2 hf]
            exact run
    · rename_i hk2
      rw [if_neg hk2] at run
      exact run

/-- A result of the arrow branch does not depend on the fuel. -/
theorem onArrowKey_mono {h : Heap} {es : EditingState} {key : String} {off : Nat} {x : Ref}
    {f : Nat} {r : EditingState × Bool} (run : onArrowKey f h es key off x = .ok r) :
    ∀ f2, f ≤ f2 → onArrowKey f2 h es key off x = .ok r := by
  intro f2 hf
  unfold onArrowKey at run ⊢
  dsimp only at run ⊢
  split
  · rename_i hb
    rw [if_pos hb] at run
    exact run
  · rename_i hb
    rw [if_neg hb] at run
    cases hst : arrowStart f h key x with
    | error e => rw [hst] at run; exact Except.noConfusion run
    | ok v =>
      rw [hst] at run
      rw [arrowStart_mono hst f2 hf]
      cases v with
      | none => exact run
      | some start =>
        dsimp only at run ⊢
        cases hd : descend f h (decide (key = "ArrowLeft")) start with
        | error e => rw [hd] at run; exact Except.noConfusion run
        | ok y =>
          rw [hd] at run
          rw [descend_mono f start y hd f2 hf]
          exact run

/-! ## The arrow branch at the edge of the tree -/

theorem climbLeft_edge {h : Heap} {q r : Ref} (chain : EdgeChain h true q r)
    (hroot : (h r).parent = none) :
    ∀ fuel, climbLeft fuel h (some q) = .error .fuel ∨ climbLeft fuel h (some q) = .ok none
      ∨ climbLeft fuel h (some q) = .ok (some r) := by
  induction chain with
  | self x =>
    intro fuel
    cases fuel with
    | zero => exact Or.inl (Eq.refl _)
    | succ f =>
      simp only [climbLeft]
      split
      · rw [hroot]
        cases f with
        | zero => exact Or.inl (Eq.refl _)
        | succ g => exact Or.inr (Or.inl (Eq.refl _))
      · exact Or.inr (Or.inr (Eq.refl _))
  | up x p a cs i hp _ hi hedge _ ih =>
    intro fuel
    cases fuel with
    | zero => exact Or.inl (Eq.refl _)
    | succ f =>
      simp only [if_true] at hedge
      subst hedge
      simp only [climbLeft, hi, if_true, hp]
      exact ih hroot f

theorem climbRight_edge {h : Heap} {q r : Ref} (chain : EdgeChain h false q r)
    (hroot : (h r).parent = none) :
    ∀ fuel, climbRight fuel h (some q) = .error .fuel
      ∨ climbRight fuel h (some q) = .error .typeError := by
  induction chain with
  | self x =>
    intro fuel
    cases fuel with
    | zero => exact Or.inl (Eq.refl _)
    | succ f =>
      exact Or.inr (by simp only [climbRight, isLastChild, hroot])
  | up x p a cs i hp hc hi hedge _ ih =>
    intro fuel
    cases fuel with
    | zero => exact Or.inl (Eq.refl _)
    | succ f =>
      simp only [Bool.false_eq_true, if_false] at hedge
      simp only [climbRight, isLastChild_eq h x p cs i hp hc hi, decide_eq_true hedge, hp]
      exact ih hroot f

/-- From a node whose climb in the travel direction reaches a node without parent, the
arrow branch never returns `{ refocus: true }`: it ends in a `TypeError`, runs out of fuel,
or (for `ArrowLeft` when the topmost node has `siblingIndex` 0) returns without a move. -/
theorem onArrowKey_edge {h : Heap} {left : Bool} {x r : Ref} (chain : EdgeChain h left x r)
    (hroot : (h r).parent = none) (fuel : Nat) (es res : EditingState) :
    onArrowKey fuel h es (arrowKey left) (boundary h left x) x ≠ .ok (res, true) := by
  have start : arrowStart fuel h (arrowKey left) x = .error .fuel
      ∨ arrowStart fuel h (arrowKey left) x = .error .typeError
      ∨ arrowStart fuel h (arrowKey left) x = .ok none := by
    have hca : ∀ off, childAfter h r off = .error .typeError := fun off => by
      simp only [childAfter, hroot]
    cases chain with
    | self =>
      cases left with
      | true =>
        by_cases hs : (h x).siblingIndex = some 0
        · have : climbLeft fuel h none = .error .fuel ∨ climbLeft fuel h none = .ok none := by
            cases fuel with
            | zero => exact Or.inl (Eq.refl _)
            | succ f => exact Or.inr (Eq.refl _)
          rcases this with e | e
          · exact Or.inl (by simp [arrowStart, arrowKey, hs, hroot, e])
          · exact Or.inr (Or.inr (by simp [arrowStart, arrowKey, hs, hroot, e]))
        · exact Or.inr (Or.inl (by simp [arrowStart, arrowKey, hs, hca]))
      | false =>
        exact Or.inr (Or.inl (by simp [arrowStart, arrowKey, isLastChild, hroot]))
    | up _ p _ cs i hp hc hi hedge chain2 =>
      cases left with
      | true =>
        simp only [if_true] at hedge
        subst hedge
        rcases climbLeft_edge chain2 hroot fuel with e | e | e
        · exact Or.inl (by simp [arrowStart, arrowKey, hi, hp, e])
        · exact Or.inr (Or.inr (by simp [arrowStart, arrowKey, hi, hp, e]))
        · exact Or.inr (Or.inl (by simp [arrowStart, arrowKey, hi, hp, e, hca]))
      | false =>
        simp only [Bool.false_eq_true, if_false] at hedge
        rcases climbRight_edge chain2 hroot fuel with e | e
        · exact Or.inl (by
            simp [arrowStart, arrowKey, isLastChild_eq h x p cs i hp hc hi, hedge, hp, e])
        · exact Or.inr (Or.inl (by
            simp [arrowStart, arrowKey, isLastChild_eq h x p cs i hp hc hi, hedge, hp, e]))
  intro run
  unfold onArrowKey at run
  dsimp only at run
  split at run
  · injection run with e
    injection e with _ e2
    exact Bool.noConfusion e2
  · rcases start with e | e | e
    · rw [e] at run; exact Except.noConfusion run
    · rw [e] at run; exact Except.noConfusion run
    · rw [e] at run
      injection run with e
      injection e with _ e2
      exact Bool.noConfusion e2

/-- Every node of an index-consistent stored tree climbs, in either direction, to a node
without parent or to a node that is not at the edge of its parent. -/
theorem EdgeChain_exists (h : Heap) (root : Ref) (kids : Forest) (T : TreeAt h root kids)
    (inv : ∀ x ∈ kids.preorder, IndexOK h x) (left : Bool) :
    ∀ (n : Nat) (x : Ref), x ∈ (Forest.cons root kids .nil).preorder → Up h x n →
      ∃ a, EdgeChain h left x a
        ∧ ((h a).parent = none
          ∨ ∃ p cs i, (h a).parent = some p ∧ (h p).children = some cs
              ∧ (h a).siblingIndex = some i ∧ cs[i]? = some a
              ∧ (if left then i ≠ 0 else i + 1 ≠ cs.length)) := by
  intro n
  induction n with
  | zero =>
    intro x _ up
    cases up with
    | root _ hp => exact ⟨x, EdgeChain.self x, Or.inl hp⟩
  | succ n ih =>
    intro x hx up
    cases up with
    | step _ p _ hp upp =>
      have hxk : x ∈ kids.preorder := by
        simp only [Forest.preorder, List.append_nil, List.mem_cons] at hx
        rcases hx with e | e
        · have hroot := T.parents.1
          rw [e, hroot] at hp
          exact Option.noConfusion hp
        · exact e
      obtain ⟨p2, cs, i, hp2, hc, hi, hcs⟩ := inv x hxk
      have : p = p2 := Option.some.inj (hp.symm.trans hp2)
      subst this
      obtain ⟨pp, hpp, hpe⟩ := T.parent_in_tree hxk
      have : pp = p := Option.some.inj (hpe.symm.trans hp)
      subst this
      by_cases hedge : (if left then i = 0 else i + 1 = cs.length)
      · obtain ⟨a, chain, ha⟩ := ih pp hpp upp
        exact ⟨a, EdgeChain.up x pp a cs i hp hc hi hedge chain, ha⟩
      · refine ⟨x, EdgeChain.self x, Or.inr ⟨pp, cs, i, hp, hc, hi, hcs, ?_⟩⟩
        cases left with
        | true => simpa using hedge
        | false => simpa using hedge

/-! ## Climbing and descending are inverse -/

theorem Descends_det {h : Heap} {left : Bool} {s y : Ref} (D : Descends h left s y) :
    ∀ y2, Descends h left s y2 → y = y2 := by
  induction D with
  | here x hl =>
    intro y2 D2
    cases D2 with
    | here _ _ => exact Eq.refl _
    | down _ c _ cs hl2 _ _ _ => exact absurd hl2 hl
  | down x c y cs hl hc hpick _ ih =>
    intro y2 D2
    cases D2 with
    | here _ hl2 => exact absurd hl hl2
    | down _ c2 _ cs2 _ hc2 hpick2 D3 =>
      have e1 : cs2 = cs := Option.some.inj (hc2.symm.trans hc)
      subst e1
      have e2 : c2 = c := Option.some.inj (hpick2.symm.trans hpick)
      subst e2
      exact ih y2 D3

/-- The way down from `s` to `y`, read upwards, is a climb along the edge of the opposite
direction. -/
theorem Descends_edge {h : Heap} {root : Ref} {kids : Forest} (T : TreeAt h root kids)
    (inv : ∀ x ∈ kids.preorder, IndexOK h x) {left : Bool} {s y : Ref}
    (D : Descends h left s y) :
    s ∈ (Forest.cons root kids .nil).preorder →
    ∀ b, EdgeChain h (!left) s b → EdgeChain h (!left) y b := by
  induction D with
  | here x _ => intro _ b c; exact c
  | down x c y cs _ hc hpick _ ih =>
    intro hx b chain
    have hm : c ∈ cs := by
      cases left with
      | true =>
        simp only [if_true] at hpick
        exact List.mem_of_mem_getLast? hpick
      | false =>
        simp only [Bool.false_eq_true, if_false] at hpick
        exact List.mem_of_mem_head? hpick
    have hck : c ∈ kids.preorder := T.child_mem hx hc hm
    have hcn : c ∈ (Forest.cons root kids .nil).preorder := by simp [Forest.preorder, hck]
    have hcp : (h c).parent = some x := T.back hx hc hm
    obtain ⟨p2, cs2, j, hp2, hc2, hj, hcs⟩ := inv c hck
    have e1 : p2 = x := Option.some.inj (hp2.symm.trans hcp)
    subst e1
    have e2 : cs2 = cs := Option.some.inj (hc2.symm.trans hc)
    subst e2
    have nd := T.children_nodup hx hc
    have hjlt : j < cs2.length := by
      by_contra hge
      rw [List.getElem?_eq_none (by omega)] at hcs
      exact Option.noConfusion hcs
    have hedge : (if (!left) = true then j = 0 else j + 1 = cs2.length) := by
      cases left with
      | true =>
        simp only [if_true] at hpick
        rw [List.getLast?_eq_getElem?] at hpick
        have := nodup_index_unique cs2 nd _ _ c hcs hpick
        simp only [Bool.not_true, Bool.false_eq_true, if_false]
        omega
      | false =>
        simp only [Bool.false_eq_true, if_false] at hpick
        rw [List.head?_eq_getElem?] at hpick
        have := nodup_index_unique cs2 nd _ _ c hcs hpick
        simp only [Bool.not_false, if_true]
        exact this
    exact ih hcn b (EdgeChain.up c p2 b cs2 j hcp hc hj hedge chain)

/-- A climb along an edge, read downwards, is the way down in the opposite direction. -/
theorem EdgeChain_descends {h : Heap} {root : Ref} {kids : Forest} (T : TreeAt h root kids)
    (inv : ∀ x ∈ kids.preorder, IndexOK h x)
    (shape : ∀ x ∈ (Forest.cons root kids .nil).preorder,
      (h x).type = "list" ∨ (h x).kids = [])
    {left : Bool} {x a : Ref} (chain : EdgeChain h left x a) :
    x ∈ (Forest.cons root kids .nil).preorder →
    ∀ y, Descends h (!left) x y → Descends h (!left) a y := by
  induction chain with
  | self x => intro _ y D; exact D
  | up x p a cs i hp hc hi hedge _ ih =>
    intro hx y D
    have hxk : x ∈ kids.preorder := by
      simp only [Forest.preorder, List.append_nil, List.mem_cons] at hx
      rcases hx with e | e
      · have hroot := T.parents.1
        rw [e, hroot] at hp
        exact Option.noConfusion hp
      · exact e
    obtain ⟨p2, cs2, i2, hp2, hc2, hi2, hcs⟩ := inv x hxk
    have e1 : p2 = p := Option.some.inj (hp2.symm.trans hp)
    subst e1
    have e2 : cs2 = cs := Option.some.inj (hc2.symm.trans hc)
    subst e2
    have e3 : i2 = i := Option.some.inj (hi2.symm.trans hi)
    subst e3
    obtain ⟨pp, hpp, hpe⟩ := T.parent_in_tree hxk
    have e4 : pp = p2 := Option.some.inj (hpe.symm.trans hp)
    subst e4
    have hlist : (h pp).type = "list" := by
      rcases shape pp hpp with e | e
      · exact e
      · have hm : x ∈ (h pp).kids := by
          simp only [Node.kids, hc, Option.getD_some]
          exact List.getElem?_mem hcs
        rw [e] at hm
        exact absurd hm (List.not_mem_nil _)
    have hpick : (if (!left) = true then cs2.getLast? else cs2.head?) = some x := by
      cases left with
      | true =>
        simp only [if_true] at hedge
        subst hedge
        simp only [Bool.not_true, Bool.false_eq_true, if_false]
        rw [List.head?_eq_getElem?]; exact hcs
      | false =>
        simp only [Bool.false_eq_true, if_false] at hedge
        simp only [Bool.not_false, if_true]
        rw [List.getLast?_eq_getElem?]
        have : cs2.length - 1 = i2 := by omega
        rw [this]; exact hcs
    exact ih hpp y (Descends.down pp x y cs2 hlist hc hpick D)

/-! ## Pre-order of a stored tree -/

/-- The place of a node in the pre-order: its subtree is a segment. -/
theorem preorder_cell {h : Heap} : ∀ (F : Forest), Holds h F → ∀ p ∈ F.preorder,
    ∃ kp pre post, F.preorder = pre ++ (p :: kp.preorder ++ post)
      ∧ Holds h kp ∧ (h p).kids = kp.roots := by
  intro F
  induction F with
  | nil => intro _ p hp; simp [Forest.preorder] at hp
  | cons r kids rest ihk ihr =>
    intro ⟨hk, holdk, holdr⟩ p hp
    simp only [Forest.preorder, List.mem_cons, List.mem_append] at hp
    rcases hp with rfl | hp | hp
    · exact ⟨kids, [], rest.preorder, by simp [Forest.preorder], holdk, hk⟩
    · obtain ⟨kp, pre, post, e, a, b⟩ := ihk holdk p hp
      exact ⟨kp, r :: pre, post ++ rest.preorder, by simp [Forest.preorder, e], a, b⟩
    · obtain ⟨kp, pre, post, e, a, b⟩ := ihr holdr p hp
      exact ⟨kp, r :: kids.preorder ++ pre, post, by simp [Forest.preorder, e], a, b⟩

/-- The subtrees of two neighbours among the roots of a forest are neighbours in the
pre-order. -/
theorem preorder_neighbours {h : Heap} : ∀ (G : Forest), Holds h G →
    ∀ (i : Nat) (a s : Ref), G.roots[i]? = some a → G.roots[i + 1]? = some s →
    ∃ pre ka ks post, G.preorder = pre ++ ((a :: ka.preorder) ++ ((s :: ks.preorder) ++ post))
      ∧ Holds h ka ∧ (h a).kids = ka.roots ∧ Holds h ks ∧ (h s).kids = ks.roots := by
  intro G
  induction G with
  | nil => intro _ i a s hi _; simp [Forest.roots] at hi
  | cons r k rest _ ihr =>
    intro ⟨hk, holdk, holdr⟩ i a s hi hs
    cases i with
    | zero =>
      simp only [Forest.roots, List.getElem?_cons_zero, List.getElem?_cons_succ] at hi hs
      have e : r = a := Option.some.inj hi
      subst e
      cases rest with
      | nil => simp [Forest.roots] at hs
      | cons s2 ks rs =>
        simp only [Forest.roots, List.getElem?_cons_zero] at hs
        have e : s2 = s := Option.some.inj hs
        subst e
        exact ⟨[], k, ks, rs.preorder, by simp [Forest.preorder], holdk, hk, holdr.2.1,
          holdr.1⟩
    | succ i =>
      simp only [Forest.roots, List.getElem?_cons_succ] at hi hs
      obtain ⟨pre, ka, ks, post, e, a1, a2, a3, a4⟩ := ihr holdr i a s hi hs
      exact ⟨r :: k.preorder ++ pre, ka, ks, post, by simp [Forest.preorder, e], a1, a2, a3,
        a4⟩

/-- The last root of a forest heads the last segment of its pre-order. -/
theorem preorder_last_root {h : Heap} : ∀ (G : Forest), Holds h G → ∀ c,
    G.roots.getLast? = some c →
    ∃ pre kc, G.preorder = pre ++ c :: kc.preorder ∧ Holds h kc ∧ (h c).kids = kc.roots := by
  intro G
  induction G with
  | nil => intro _ c hc; simp [Forest.roots] at hc
  | cons r k rest _ ihr =>
    intro ⟨hk, holdk, holdr⟩ c hc
    cases rest with
    | nil =>
      simp only [Forest.roots, List.getLast?_singleton] at hc
      have e : r = c := Option.some.inj hc
      subst e
      exact ⟨[], k, by simp [Forest.preorder], holdk, hk⟩
    | cons r2 k2 rest2 =>
      have hc2 : (Forest.cons r2 k2 rest2).roots.getLast? = some c := by
        simpa [Forest.roots, List.getLast?_cons_cons] using hc
      obtain ⟨pre, kc, e, a, b⟩ := ihr holdr c hc2
      refine ⟨r :: k.preorder ++ pre, kc, ?_, a, b⟩
      show r :: (k.preorder ++ (Forest.cons r2 k2 rest2).preorder) = _
      rw [e]; simp

/-- The way down through first children, in the pre-order of the subtree: lists only come
before the node the descent ends at. -/
theorem Descends_first {h : Heap} {x y : Ref} (D : Descends h false x y) :
    ∀ kx, Holds h kx → (h x).kids = kx.roots →
    ∃ mid rest, x :: kx.preorder = mid ++ y :: rest ∧ ∀ m ∈ mid, (h m).type = "list" := by
  induction D with
  | here x _ =>
    intro kx _ _
    exact ⟨[], kx.preorder, by simp, fun m hm => absurd hm (List.not_mem_nil _)⟩
  | down x c y cs hl hc hpick _ ih =>
    intro kx hold hk
    simp only [Bool.false_eq_true, if_false] at hpick
    have hroots : kx.roots = cs := by rw [← hk]; simp [Node.kids, hc]
    cases kx with
    | nil =>
      simp only [Forest.roots] at hroots
      rw [← hroots] at hpick
      simp at hpick
    | cons c2 kc rc =>
      simp only [Forest.roots] at hroots
      rw [← hroots] at hpick
      simp only [List.head?_cons] at hpick
      have e : c2 = c := Option.some.inj hpick
      subst e
      obtain ⟨mid, rest, e, hm⟩ := ih kc hold.2.1 hold.1
      refine ⟨x :: mid, rest ++ rc.preorder, ?_, ?_⟩
      · simp only [Forest.preorder]
        rw [← List.cons_append, e]
        simp
      · intro m hmem
        rcases List.mem_cons.mp hmem with e2 | e2
        · rw [e2]; exact hl
        · exact hm m e2

/-- The way down through last children ends at the last node of the pre-order of the
subtree. -/
theorem Descends_last {h : Heap} {x y : Ref} (D : Descends h true x y)
    (hleaf : (h y).kids = []) :
    ∀ kx, Holds h kx → (h x).kids = kx.roots → ∃ init, x :: kx.preorder = init ++ [y] := by
  induction D with
  | here x _ =>
    intro kx _ hk
    rw [hleaf] at hk
    cases kx with
    | nil => exact ⟨[], by simp [Forest.preorder]⟩
    | cons c2 kc rc => simp [Forest.roots] at hk
  | down x c y cs _ hc hpick _ ih =>
    intro kx hold hk
    simp only [if_true] at hpick
    have hroots : kx.roots = cs := by rw [← hk]; simp [Node.kids, hc]
    rw [← hroots] at hpick
    obtain ⟨pre, kc, e, hkc, hck⟩ := preorder_last_root kx hold c hpick
    obtain ⟨init, e2⟩ := ih hleaf kc hkc hck
    exact ⟨x :: pre ++ init, by rw [e, e2]; simp⟩

/-! ## Reversible navigation (C20) -/

/-- Claim C20.  On a heap that stores an index-consistent tree of valid nodes in which
every list has at least one child and only lists have children, let `A` be a literal of the
tree.  If `ArrowRight` at the end of the value of `A` (`ArrowLeft` at offset 0) returns
`{ refocus: true }` at some fuel, then the focus it stores is the id of a literal `B` of the
tree with cursor offset 0 (the length of the value of `B`), and `ArrowLeft` at offset 0 of
`B` (`ArrowRight` at the end of the value of `B`) returns, at every fuel from some bound on,
with the focus back on `A` at cursor offset the length of the value of `A` (offset 0).
Moreover `B` is the literal next to `A` in the pre-order of the tree: after `A` for
`ArrowRight`, before `A` for `ArrowLeft`, with lists only between the two. -/
theorem arrow_round_trip (h : Heap) (root : Ref) (kids : Forest) (T : TreeAt h root kids)
    (inv : ∀ x ∈ kids.preorder, IndexOK h x)
    (typed : ∀ x ∈ kids.preorder, (h x).valid)
    (ne : ∀ x ∈ kids.preorder, (h x).type = "list" → (h x).kids ≠ [])
    (shape : ∀ x ∈ (Forest.cons root kids .nil).preorder,
      (h x).type = "list" ∨ (h x).kids = [])
    (left : Bool) (A : Ref) (hA : A ∈ (Forest.cons root kids .nil).preorder)
    (hlit : (h A).literal) (fuel : Nat) (es es2 : EditingState)
    (run : onArrowKey fuel h es (arrowKey left) (boundary h left A) A = .ok (es2, true)) :
    ∃ B, B ∈ kids.preorder ∧ (h B).literal
      ∧ es2 = { focused := true, focusedId := (h B).id,
                cursorOffset := if left then (h B).value.length else 0 }
      ∧ (∃ N, ∀ fuel2, N ≤ fuel2 → ∀ es3,
          onArrowKey fuel2 h es3 (arrowKey (!left)) (boundary h (!left) B) B
            = .ok ({ focused := true, focusedId := (h A).id,
                     cursorOffset := if (!left) then (h A).value.length else 0 }, true))
      ∧ ∃ pre mid post, (Forest.cons root kids .nil).preorder
            = pre ++ (if left then B else A) :: (mid ++ (if left then A else B) :: post)
          ∧ ∀ m ∈ mid, (h m).type = "list" := by
  obtain ⟨n, up⟩ := Up_exists _ none T.parents (Or.inl (Eq.refl _)) A hA
  obtain ⟨a, chain, ha⟩ := EdgeChain_exists h root kids T inv left n A hA up
  rcases ha with hroot | ⟨p, cs, i, hp, hc, hi, hcs, hin⟩
  · exact absurd run (onArrowKey_edge chain hroot fuel es es2)
  obtain ⟨s, y, hs, hsk, hy, hty, hdesc, N, hN⟩ := onArrowKey_moves h root kids T ne left A a p
    cs i hA chain hp hc hi hcs hin
  have hsn : s ∈ (Forest.cons root kids .nil).preorder := by simp [Forest.preorder, hsk]
  have hyn : y ∈ (Forest.cons root kids .nil).preorder := by simp [Forest.preorder, hy]
  have han := EdgeChain_mem T chain hA
  have hpn : p ∈ (Forest.cons root kids .nil).preorder := T.backLinked.2 a p han hp
  have hylit : (h y).literal := by
    rcases typed y hy with ⟨hl, _⟩ | hl
    · exact absurd hl hty
    · exact hl
  -- the state the run has stored
  have e1 := onArrowKey_mono run (max fuel N) (Nat.le_max_left _ _)
  have e2 := hN (max fuel N) (Nat.le_max_right _ _) es
  rw [e1] at e2
  injection e2 with e2
  injection e2 with e2 _
  have backA : Descends h (!left) a A :=
    EdgeChain_descends T inv shape chain hA A (Descends.here A (literal_not_list hlit))
  have leafA : (h A).kids = [] := by
    rcases shape A hA with e | e
    · exact absurd e (literal_not_list hlit)
    · exact e
  have leafY : (h y).kids = [] := by
    rcases shape y hyn with e | e
    · exact absurd e hty
    · exact e
  -- the place of both literals in the pre-order
  have order : ∃ pre mid post, (Forest.cons root kids .nil).preorder
        = pre ++ (if left then y else A) :: (mid ++ (if left then A else y) :: post)
      ∧ ∀ m ∈ mid, (h m).type = "list" := by
    obtain ⟨kp, pre0, post0, e0, holdkp, hkp⟩ := preorder_cell _ T.holds p hpn
    have hroots : kp.roots = cs := by rw [← hkp]; simp [Node.kids, hc]
    cases left with
    | true =>
      simp only [if_true] at hin hs ⊢
      have hs1 : kp.roots[i - 1]? = some s := by rw [hroots]; exact hs
      have ha1 : kp.roots[i - 1 + 1]? = some a := by
        rw [hroots]
        have : i - 1 + 1 = i := by omega
        rw [this]; exact hcs
      obtain ⟨pre1, ks, ka, post1, e1, holdks, hks, holdka, hka⟩ :=
        preorder_neighbours kp holdkp (i - 1) s a hs1 ha1
      obtain ⟨init, e3⟩ := Descends_last hdesc leafY ks holdks hks
      obtain ⟨mid, rest, e4, hmid⟩ := Descends_first backA ka holdka hka
      refine ⟨pre0 ++ p :: pre1 ++ init, mid, rest ++ post1 ++ post0, ?_, hmid⟩
      rw [e0, e1, e3, e4]
      simp
    | false =>
      simp only [Bool.false_eq_true, if_false] at hin hs ⊢
      have ha1 : kp.roots[i]? = some a := by rw [hroots]; exact hcs
      have hs1 : kp.roots[i + 1]? = some s := by rw [hroots]; exact hs
      obtain ⟨pre1, ka, ks, post1, e1, holdka, hka, holdks, hks⟩ :=
        preorder_neighbours kp holdkp i a s ha1 hs1
      obtain ⟨init, e3⟩ := Descends_last backA leafA ka holdka hka
      obtain ⟨mid, rest, e4, hmid⟩ := Descends_first hdesc ks holdks hks
      refine ⟨pre0 ++ p :: pre1 ++ init, mid, rest ++ post1 ++ post0, ?_, hmid⟩
      rw [e0, e1, e3, e4]
      simp
  refine ⟨y, hy, hylit, e2, ?_, order⟩
  -- the way back
  have hilt : i < cs.length := by
    by_contra hge
    rw [List.getElem?_eq_none (by omega)] at hcs
    exact Option.noConfusion hcs
  have nd := T.children_nodup hpn hc
  have chainB : EdgeChain h (!left) y s :=
    Descends_edge T inv hdesc hsn s (EdgeChain.self s)
  have hsp : (h s).parent = some p := T.back hpn hc (List.getElem?_mem hs)
  obtain ⟨p2, cs2, j, hp2, hc2, hj, hcsj⟩ := inv s hsk
  have e3 : p2 = p := Option.some.inj (hp2.symm.trans hsp)
  subst e3
  have e4 : cs2 = cs := Option.some.inj (hc2.symm.trans hc)
  subst e4
  have hjv : j = (if left then i - 1 else i + 1) := nodup_index_unique cs2 nd _ _ s hcsj hs
  have hinB : (if (!left) = true then j ≠ 0 else j + 1 ≠ cs2.length) := by
    cases left with
    | true =>
      simp only [if_true] at hin hjv
      simp only [Bool.not_true, Bool.false_eq_true, if_false]
      omega
    | false =>
      simp only [Bool.false_eq_true, if_false] at hin hjv
      simp only [Bool.not_false, if_true]
      omega
  obtain ⟨s2, y2, hs2, -, -, -, hdesc2, N2, hN2⟩ := onArrowKey_moves h root kids T ne (!left) y s
    p2 cs2 j hyn chainB hsp hc hj hcsj hinB
  have hidx : (if (!left) = true then j - 1 else j + 1) = i := by
    cases left with
    | true =>
      simp only [if_true] at hin hjv
      simp only [Bool.not_true, Bool.false_eq_true, if_false]
      omega
    | false =>
      simp only [Bool.false_eq_true, if_false] at hin hjv
      simp only [Bool.not_false, if_true]
      omega
  rw [hidx, hcs] at hs2
  have e5 : a = s2 := Option.some.inj hs2
  subst e5
  have e6 : y2 = A := Descends_det hdesc2 A backA
  subst e6
  exact ⟨N2, hN2⟩

theorem arrow_round_trip_witness :
    ∃ B, B ∈ seedKids.preorder ∧ (taggedHeap B).literal
      ∧ ({ focused := true, focusedId := some 6, cursorOffset := 0 } : EditingState)
          = { focused := true, focusedId := (taggedHeap B).id,
              cursorOffset := if false then (taggedHeap B).value.length else 0 }
      ∧ (∃ N, ∀ fuel2, N ≤ fuel2 → ∀ es3,
          onArrowKey fuel2 taggedHeap es3 (arrowKey (!false)) (boundary taggedHeap (!false) B) B
            = .ok ({ focused := true, focusedId := (taggedHeap 14).id,
                     cursorOffset := if (!false) then (taggedHeap 14).value.length else 0 },
                   true))
      ∧ ∃ pre mid post, (Forest.cons 10 seedKids .nil).preorder
            = pre ++ (if false then B else 14) :: (mid ++ (if false then 14 else B) :: post)
          ∧ ∀ m ∈ mid, (taggedHeap m).type = "list" :=
  arrow_round_trip taggedHeap 10 seedKids TreeAt_tagged IndexOK_tagged (by decide) (by decide)
    (by decide) false 14 (by decide) (by decide) 5 editingState0 _ rfl

end Schyntax
